import Mathlib

/-!
Shallow embedding of the `level-dag` Go package (graph.go, evaluate.go) and
verification of its specification claims.

Modelling conventions:
* Go `*Node` pointers become indices (`Nat`) into a fixed pool (`List Node`);
  pointer equality is index equality, `Node.ID` equality is string equality.
* Go maps (`Graph`, the connectivity table, the reversed graph) are modelled
  as insertion-ordered association lists.  Go map iteration order is
  unspecified and randomized; insertion order is one admissible order, so
  every behaviour of the model is a possible behaviour of the program.
* Recursive Go functions that lack a termination guarantee are given an
  explicit fuel parameter; `none` means the fuel ran out (the Go code would
  still be recursing at that depth).
* Channels of `int` become `List Int` in arrival order; an `EvalFunc`
  becomes `List Int → Int`.
-/

set_option maxRecDepth 100000

namespace LevelDag

/-- Embedding of the Go `Node` struct (graph.go).  `Next` holds pool indices of
successor nodes, `eval` is the aggregation function receiving the arrival
list of the (closed) `inputs` channel, `indegree` is the counter maintained
by `NewNode`. -/
structure Node where
  ID : String
  Next : List Nat
  eval : List Int → Int
  indegree : Nat

/-- A pool of nodes; Go pointers are indices into this list. -/
abbrev Pool := List Node

/-- Dummy node used for out-of-range lookups (never reached on well-formed input). -/
def dummyNode : Node := ⟨"", [], fun _ => 0, 0⟩

/-- Dereference a node pointer. -/
def getNode (pool : Pool) (i : Nat) : Node := pool.getD i dummyNode

/-- The successor-edge relation of the pool: `i → j`. -/
def Edge (pool : Pool) (i j : Nat) : Prop :=
  i < pool.length ∧ j ∈ (getNode pool i).Next

instance (pool : Pool) (i j : Nat) : Decidable (Edge pool i j) := by
  unfold Edge; infer_instance

/-- Every successor index is in range. -/
def PoolWF (pool : Pool) : Prop :=
  ∀ n ∈ pool, ∀ j ∈ n.Next, j < pool.length

instance (pool : Pool) : Decidable (PoolWF pool) := by
  unfold PoolWF; infer_instance

/-- `pool` is acyclic along successor edges. -/
def Acyclic (pool : Pool) : Prop :=
  ∀ i, ¬ Relation.TransGen (Edge pool) i i

/-- Undirected (weak) reachability: a path ignoring edge direction. -/
def WeakConn (pool : Pool) (i j : Nat) : Prop :=
  Relation.ReflTransGen (fun a b => Edge pool a b ∨ Edge pool b a) i j

/-- The errors of graph.go. -/
inductive GErr where
  | DuplicateNodeID
  | Cycle
  | Disconnected
deriving DecidableEq, Repr

/-! ### The generic depth-first walk

`Node.walkRecursive` (graph.go:185-193).  Centrally important to the whole
repository: the visit callback's error is **discarded** (`visit(n, prev)` on
line 186 ignores the returned error), so the walk itself can only fail by
running forever; the state threaded below is the side effect of the callback.
Each recursion level consumes one unit of fuel. -/

/-- Sequence a fallible visit over a list, threading the state (the `for`
loop of graph.go:187-191; recall the only failure is fuel exhaustion). -/
def stepList {α σ : Type} (g : σ → α → Option σ) : σ → List α → Option σ
  | s, [] => some s
  | s, m :: ms =>
    match g s m with
    | none => none
    | some s2 => stepList g s2 ms

def walkRec {α σ : Type} (next : α → List α) (f : σ → α → List α → σ) :
    Nat → σ → α → List α → Option σ
  | 0, _, _, _ => none
  | fuel+1, s, n, prev =>
    stepList (fun s2 m => walkRec next f fuel s2 m (prev ++ [n])) (f s n prev) (next n)

/-- Successor lookup used by all pool walks. -/
def nextOf (pool : Pool) (i : Nat) : List Nat := (getNode pool i).Next

/-! ### Graph construction (`New`, graph.go:45-64)

The builder walks every entry node and registers each visited node under its
ID.  In the Go source the callback returns `ErrDuplicateNodeID` when the ID
is already present, but `walkRecursive` drops that error, so the duplicate
is silently skipped and `New` never reports it. -/

/-- One builder visit: register the node unless its ID is already taken
(the duplicate error is dropped by `walkRecursive`). -/
def buildStep (pool : Pool) (g : List Nat) (n : Nat) (_prev : List Nat) : List Nat :=
  if g.any fun i => (getNode pool i).ID = (getNode pool n).ID then g else g ++ [n]

/-- The discovery loop of `New`: walk every entry, accumulating the graph. -/
def buildGraph (pool : Pool) (fuel : Nat) (entries : List Nat) : Option (List Nat) :=
  entries.foldlM (fun g e => walkRec (nextOf pool) (buildStep pool) fuel g e []) []

/-- `Graph.Roots` (graph.go:169-171): members with `indegree == 0`, in
map-iteration (here: insertion) order. -/
def Roots (pool : Pool) (g : List Nat) : List Nat :=
  g.filter fun i => (getNode pool i).indegree = 0

/-! ### Validation (`Graph.Validate`, graph.go:76-157)

The connectivity table `connected` is modelled as the list `T` of pairs of
IDs currently marked `true` (entries that exist but hold `false` are exactly
the unmarked ordered pairs of distinct IDs, re-enumerated in the final scan).
-/

/-- Mark `(a, b)` as connected (`connected[a][b] = true`). -/
def addPair (T : List (String × String)) (a b : String) : List (String × String) :=
  if (a, b) ∈ T then T else T ++ [(a, b)]

/-- All IDs currently marked as connected to `a` (the `true` entries of
`connected[a]`). -/
def connOf (T : List (String × String)) (a : String) : List String :=
  T.filterMap fun p => if p.1 = a then some p.2 else none

/-- The marking done for one `(current, p)` pair (graph.go:104-115 and
130-141): mark both directions, then copy `current`'s marks onto `p`, then
copy `p`'s (updated) marks onto `current`. -/
def propagate (T : List (String × String)) (c p : String) : List (String × String) :=
  let T1 := addPair (addPair T c p) p c
  let T2 := (connOf T1 c).foldl (fun t x => addPair t p x) T1
  (connOf T2 p).foldl (fun t x => addPair t c x) T2

/-- The forward-pass callback body (graph.go:95-118) for one visit: process
`prev` in order; on meeting a previously visited node with the same ID the
callback returns `ErrCycle`, which aborts the rest of its loop — but the
error itself is dropped by `walkRecursive`. -/
def markFwd (pool : Pool) (current : Nat) :
    List (String × String) → List Nat → List (String × String)
  | T, [] => T
  | T, p :: ps =>
    if (getNode pool current).ID = (getNode pool p).ID then T
    else markFwd pool current (propagate T (getNode pool current).ID (getNode pool p).ID) ps

/-- Forward connectivity pass: `g.Walk` with the marking callback. -/
def fwdPass (pool : Pool) (fuel : Nat) (g : List Nat) :
    Option (List (String × String)) :=
  (Roots pool g).foldlM
    (fun T r => walkRec (nextOf pool) (fun T c prev => markFwd pool c T prev) fuel T r []) []

/-! The reversed graph (`Graph.Reversed`, graph.go:196-225), modelled as an
insertion-ordered association list from ID to (ordered) reversed-successor
IDs.  The copies are built with `indegree` left at zero, so *every* node of
the reversed graph is a root of its walk. -/

/-- Association-list lookup in the reversed graph. -/
def revLookup (r : List (String × List String)) (a : String) : List String :=
  ((r.find? fun p => p.1 = a).map Prod.snd).getD []

/-- Add the node copy if absent (graph.go:200-208). -/
def revAddNode (r : List (String × List String)) (a : String) :
    List (String × List String) :=
  if r.any fun p => p.1 = a then r else r ++ [(a, [])]

/-- Append an edge `a → b` in the reversed graph. -/
def revAddEdge (r : List (String × List String)) (a b : String) :
    List (String × List String) :=
  r.map fun p => if p.1 = a then (p.1, p.2 ++ [b]) else p

/-- The `Reversed` walk callback (graph.go:198-223). -/
def revStep (pool : Pool) (r : List (String × List String)) (current : Nat)
    (prev : List Nat) : List (String × List String) :=
  let r1 := revAddNode r (getNode pool current).ID
  match prev.getLast? with
  | none => r1
  | some parent =>
    if (getNode pool parent).ID ∈ revLookup r1 (getNode pool current).ID then r1
    else revAddEdge r1 (getNode pool current).ID (getNode pool parent).ID

/-- Build the reversed graph by walking the original graph. -/
def buildReversed (pool : Pool) (fuel : Nat) (g : List Nat) :
    Option (List (String × List String)) :=
  (Roots pool g).foldlM
    (fun r root => walkRec (nextOf pool) (revStep pool) fuel r root []) []

/-- The reversed-pass callback (graph.go:128-144): same marking, no cycle
check, operating on IDs. -/
def markRev (T : List (String × String)) (current : String) (prev : List String) :
    List (String × String) :=
  prev.foldl (fun t p => propagate t current p) T

/-- The reversed connectivity pass: every node of the reversed graph has
indegree 0, so the walk starts from each of them in insertion order. -/
def revPass (rev : List (String × List String)) (fuel : Nat)
    (T : List (String × String)) : Option (List (String × String)) :=
  (rev.map Prod.fst).foldlM
    (fun T r => walkRec (revLookup rev) (fun T c prev => markRev T c prev) fuel T r []) T

/-- The final scan (graph.go:147-154): some ordered pair of distinct IDs in
the graph was never marked. -/
def scanDisconnected (pool : Pool) (g : List Nat) (T : List (String × String)) : Bool :=
  g.any fun s => g.any fun d =>
    (getNode pool s).ID ≠ (getNode pool d).ID ∧
      ((getNode pool s).ID, (getNode pool d).ID) ∉ T

/-- `Graph.Validate` (graph.go:76-157).  The forward walk's error is always
`nil` (the callback's `ErrCycle` is dropped by `walkRecursive`), so the only
error this can produce is `Disconnected` from the final scan. -/
def Validate (pool : Pool) (fuel : Nat) (g : List Nat) : Option (Option GErr) :=
  match fwdPass pool fuel g with
  | none => none
  | some T1 =>
    match buildReversed pool fuel g with
    | none => none
    | some rev =>
      match revPass rev fuel T1 with
      | none => none
      | some T2 =>
        some (if scanDisconnected pool g T2 then some GErr.Disconnected else none)

/-- `New` (graph.go:45-64): discover all nodes reachable from the entries,
then validate.  The duplicate-ID error raised inside the builder callback is
dropped by `walkRecursive`, so it never surfaces. -/
def New (pool : Pool) (fuel : Nat) (entries : List Nat) :
    Option (Except GErr (List Nat)) :=
  match buildGraph pool fuel entries with
  | none => none
  | some g =>
    match Validate pool fuel g with
    | none => none
    | some (some e) => some (Except.error e)
    | some none => some (Except.ok g)

/-! ### Topological sort (`Graph.TopologicalSort`, graph.go:231-247, 249-287)

The `visiting`/`visited` sets are keyed by node pointer in Go, hence by pool
index here.  `hitCycle` is ghost instrumentation recording that the
"currently visiting" branch was taken at least once; it affects no control
flow, exactly as in the source, where the recursive calls of `visit` on
graph.go:273-275 drop the returned error. -/

/-- State of the `topologicalSort` struct, plus the `hitCycle` ghost flag. -/
structure TSState where
  visiting : List Nat
  visited : List Nat
  sorted : List Nat
  hitCycle : Bool
deriving DecidableEq, Repr

/-- `topologicalSort.visit` (graph.go:258-287).  The `Bool` is the returned
error (`true` = `ErrCycle`).  The loop over `node.Next` (graph.go:273-275)
drops the error of each recursive call, hence the `Prod.fst`. -/
def tsVisit (pool : Pool) : Nat → TSState → Nat → Option (TSState × Bool)
  | 0, _, _ => none
  | fuel+1, s, n =>
    if n ∈ s.visited then some (s, false)
    else if n ∈ s.visiting then some ({ s with hitCycle := true }, true)
    else
      match stepList (fun s2 m => (tsVisit pool fuel s2 m).map Prod.fst)
          { s with visiting := n :: s.visiting } (getNode pool n).Next with
      | none => none
      | some s2 =>
        some ({ visiting := s2.visiting.erase n, visited := n :: s2.visited,
                sorted := n :: s2.sorted, hitCycle := s2.hitCycle }, false)

/-- The loop over roots in `TopologicalSort` (graph.go:239-243): the error of
each top-level `visit` call is checked. -/
def tsRun (pool : Pool) (fuel : Nat) : TSState → List Nat → Option (Except GErr TSState)
  | s, [] => some (Except.ok s)
  | s, r :: rs =>
    match tsVisit pool fuel s r with
    | none => none
    | some (_, true) => some (Except.error GErr.Cycle)
    | some (s2, false) => tsRun pool fuel s2 rs

/-- `Graph.TopologicalSort` (graph.go:231-247). -/
def TopologicalSort (pool : Pool) (fuel : Nat) (g : List Nat) :
    Option (Except GErr (List Nat)) :=
  (tsRun pool fuel ⟨[], [], [], false⟩ (Roots pool g)).map (Except.map TSState.sorted)

/-- Like `TopologicalSort` but keeping the whole final state (for the ghost
`hitCycle` flag). -/
def TopologicalSortState (pool : Pool) (fuel : Nat) (g : List Nat) :
    Option (Except GErr TSState) :=
  tsRun pool fuel ⟨[], [], [], false⟩ (Roots pool g)

/-! ### The built-in aggregation behaviours (evaluate.go:69-105)

The closed `inputs` channel is the arrival-ordered list. -/

/-- `Constant` (evaluate.go:69-73): ignores the inputs. -/
def Constant (n : Int) : List Int → Int := fun _ => n

/-- `Max` (evaluate.go:76-83): named return `output` starts at the zero
value `0` and is raised by every larger input. -/
def Max (inputs : List Int) : Int :=
  inputs.foldl (fun output input => if input > output then input else output) 0

/-- `Min` (evaluate.go:86-96): `0` on an empty channel, else the running
minimum seeded with the first input. -/
def Min : List Int → Int
  | [] => 0
  | input :: inputs => inputs.foldl (fun output i => if i < output then i else output) input

/-- `Sum` (evaluate.go:99-105). -/
def Sum (inputs : List Int) : Int :=
  inputs.foldl (fun output input => output + input) 0

/-! ### The concurrent evaluator (`Graph.Evaluate`, evaluate.go:14-66)

Modelled as a small-step transition system over explicitly interleaved
worker states.  Go's `MaxIndegree` channel capacity is the parameter `cap`
(default 10).  One Go worker runs, per node: `wait.Wait()` then
`close(inputs)`, `eval`, `Result` write (all local once the counter is zero,
hence one `compute` step), then for each successor in order a channel send
(blocking while the buffer is full) followed by `wait.Done()` — two separate
steps, then back to the queue.  The unbuffered `queue` channel hands nodes
to idle workers strictly in topological order and closing it lets idle
workers exit.  The model keeps the arrival buffer after `eval` drains it in
Go; the list passed to `eval` is exactly this buffer. -/

/-- Runtime state of one node: WaitGroup counter, `inputs` buffer in arrival
order, and the `Result` field (`none` until written). -/
structure NState where
  counter : Nat
  buf : List Int
  result : Option Int
deriving DecidableEq, Repr

/-- What one worker goroutine is about to do. -/
inductive WStatus where
  | idle
  | waiting (n : Nat)
  | sending (n : Nat) (k : Nat)
  | decing (n : Nat) (k : Nat)
  | done
deriving DecidableEq, Repr

/-- Global state of an `Evaluate` run. -/
structure EState where
  nodes : List NState
  queueIdx : Nat
  workers : List WStatus
deriving DecidableEq, Repr

/-- A scheduling choice: which worker performs its next enabled micro-step. -/
inductive Action where
  | dequeue (w : Nat)
  | exit (w : Nat)
  | compute (w : Nat)
  | send (w : Nat)
  | dec (w : Nat)
  | finish (w : Nat)
deriving DecidableEq, Repr

/-- Worker lookup; out-of-range workers do not exist (treated as `done`,
and every action on them is rejected by the guards). -/
def getW (ws : List WStatus) (w : Nat) : WStatus := ws.getD w WStatus.done

/-- Node-state lookup. -/
def getNS (ns : List NState) (i : Nat) : NState := ns.getD i ⟨0, [], none⟩

/-- One interleaving step: `none` when the chosen worker is blocked (or the
action does not match its state). -/
def applyAction (pool : Pool) (topo : List Nat) (cap : Nat) (a : Action)
    (s : EState) : Option EState :=
  match a with
  | Action.dequeue w =>
    match getW s.workers w with
    | WStatus.idle =>
      if h : s.queueIdx < topo.length then
        some { s with workers := s.workers.set w (WStatus.waiting (topo.get ⟨s.queueIdx, h⟩)),
                      queueIdx := s.queueIdx + 1 }
      else none
    | _ => none
  | Action.exit w =>
    match getW s.workers w with
    | WStatus.idle =>
      if s.queueIdx = topo.length then
        some { s with workers := s.workers.set w WStatus.done }
      else none
    | _ => none
  | Action.compute w =>
    match getW s.workers w with
    | WStatus.waiting n =>
      let ns := getNS s.nodes n
      if ns.counter = 0 then
        some { s with nodes := s.nodes.set n { ns with result := some ((getNode pool n).eval ns.buf) },
                      workers := s.workers.set w (WStatus.sending n 0) }
      else none
    | _ => none
  | Action.send w =>
    match getW s.workers w with
    | WStatus.sending n k =>
      match (getNode pool n).Next.get? k with
      | some m =>
        match (getNS s.nodes n).result with
        | some r =>
          let ms := getNS s.nodes m
          if ms.buf.length < cap then
            some { s with nodes := s.nodes.set m { ms with buf := ms.buf ++ [r] },
                          workers := s.workers.set w (WStatus.decing n k) }
          else none
        | none => none
      | none => none
    | _ => none
  | Action.dec w =>
    match getW s.workers w with
    | WStatus.decing n k =>
      match (getNode pool n).Next.get? k with
      | some m =>
        let ms := getNS s.nodes m
        some { s with nodes := s.nodes.set m { ms with counter := ms.counter - 1 },
                      workers := s.workers.set w (WStatus.sending n (k + 1)) }
      | none => none
    | _ => none
  | Action.finish w =>
    match getW s.workers w with
    | WStatus.sending n k =>
      if k = (getNode pool n).Next.length then
        some { s with workers := s.workers.set w WStatus.idle }
      else none
    | _ => none

/-- The initial runtime state of a node (`NewNode`, graph.go:24-36): counter
at `indegree`, empty buffer, unwritten result. -/
def initNState (nd : Node) : NState := ⟨nd.indegree, [], none⟩

/-- The state right after `Evaluate` launched `c` workers. -/
def initEState (pool : Pool) (c : Nat) : EState :=
  ⟨pool.map initNState, 0, List.replicate c WStatus.idle⟩

/-- Interleaving semantics: some worker performs some enabled micro-step. -/
def EStep (pool : Pool) (topo : List Nat) (cap : Nat) (s s' : EState) : Prop :=
  ∃ a, applyAction pool topo cap a s = some s'

/-- All states some interleaving can reach. -/
def EReach (pool : Pool) (topo : List Nat) (cap : Nat) : EState → EState → Prop :=
  Relation.ReflTransGen (EStep pool topo cap)

/-- `Evaluate` has returned: every worker left its loop, `wait.Wait()`
(evaluate.go:49) is satisfied. -/
def EFinal (s : EState) : Prop := ∀ w ∈ s.workers, w = WStatus.done

instance (s : EState) : Decidable (EFinal s) := by
  unfold EFinal; infer_instance

/-- The errors `Evaluate` can return before running (evaluate.go:15-20). -/
inductive EvalErr where
  | MinConcurrency
  | SortErr (e : GErr)
deriving DecidableEq, Repr

/-- The sequential prefix of `Evaluate` (evaluate.go:14-32): reject
`concurrency < 1`, topologically sort, and set up the queue and workers. -/
def EvaluateStart (pool : Pool) (fuel : Nat) (g : List Nat) (c : Nat) :
    Option (Except EvalErr (List Nat × EState)) :=
  if c < 1 then some (Except.error EvalErr.MinConcurrency)
  else
    match TopologicalSort pool fuel g with
    | none => none
    | some (Except.error e) => some (Except.error (EvalErr.SortErr e))
    | some (Except.ok topo) => some (Except.ok (topo, initEState pool c))

/-- Every action any of `c` workers could attempt. -/
def allActions (c : Nat) : List Action :=
  (List.range c).flatMap fun w =>
    [Action.dequeue w, Action.compute w, Action.send w, Action.dec w,
     Action.finish w, Action.exit w]

/-- A fixed deterministic scheduler: the first enabled action wins. -/
def schedStep (pool : Pool) (topo : List Nat) (cap : Nat) (c : Nat)
    (s : EState) : Option EState :=
  (allActions c).findSome? fun a => applyAction pool topo cap a s

/-- Run the deterministic scheduler for at most `n` steps (stopping early on
a stuck state). -/
def runSched (pool : Pool) (topo : List Nat) (cap : Nat) (c : Nat) :
    Nat → EState → EState
  | 0, s => s
  | n+1, s =>
    match schedStep pool topo cap c s with
    | none => s
    | some s2 => runSched pool topo cap c n s2

/-- Run an explicitly chosen interleaving. -/
def runActs (pool : Pool) (topo : List Nat) (cap : Nat) :
    List Action → EState → Option EState
  | [], s => some s
  | a :: as, s =>
    match applyAction pool topo cap a s with
    | none => none
    | some s2 => runActs pool topo cap as s2

/-! ## General-purpose lemmas -/

/-- A rank function that strictly increases along edges certifies acyclicity. -/
theorem acyclic_of_rank (pool : Pool) (rank : Nat → Nat)
    (h : ∀ i j, Edge pool i j → rank i < rank j) : Acyclic pool := by
  have key : ∀ i j, Relation.TransGen (Edge pool) i j → rank i < rank j := by
    intro i j htg
    induction htg with
    | single e => exact h _ _ e
    | tail _ e ih => exact lt_trans ih (h _ _ e)
  intro i hi
  exact lt_irrefl _ (key i i hi)

/-- The symmetrised edge relation underlying `WeakConn` is symmetric. -/
theorem weakConn_symm (pool : Pool) : Symmetric (WeakConn pool) :=
  Relation.ReflTransGen.symmetric fun _ _ h => h.symm

/-- Weak connectivity is transitive. -/
theorem weakConn_trans (pool : Pool) {a b c : Nat}
    (h1 : WeakConn pool a b) (h2 : WeakConn pool b c) : WeakConn pool a c :=
  Relation.ReflTransGen.trans h1 h2

/-- A single edge weakly connects its endpoints. -/
theorem weakConn_of_edge (pool : Pool) {a b : Nat} (h : Edge pool a b) :
    WeakConn pool a b :=
  Relation.ReflTransGen.single (Or.inl h)

/-! ## Concrete pools used by the counterexamples and witnesses -/

/-- Short constructor for concrete nodes. -/
def mkN (id : String) (nxt : List Nat) (ev : List Int → Int) (ind : Nat) : Node :=
  ⟨id, nxt, ev, ind⟩

/-- Replaying an explicit interleaving only visits reachable states. -/
theorem runActs_reach (pool : Pool) (topo : List Nat) (cap : Nat) :
    ∀ (acts : List Action) (s s2 : EState),
      runActs pool topo cap acts s = some s2 → EReach pool topo cap s s2 := by
  intro acts
  induction acts with
  | nil =>
    intro s s2 h
    simp only [runActs] at h
    cases Option.some.inj h
    exact Relation.ReflTransGen.refl
  | cons a as ih =>
    intro s s2 h
    simp only [runActs] at h
    rcases ha : applyAction pool topo cap a s with _ | s1
    · rw [ha] at h; exact absurd h (by simp)
    · rw [ha] at h
      exact Relation.ReflTransGen.head ⟨a, ha⟩ (ih s1 s2 h)

/-- The deterministic scheduler only visits reachable states. -/
theorem runSched_reach (pool : Pool) (topo : List Nat) (cap : Nat) (c : Nat) :
    ∀ (n : Nat) (s : EState), EReach pool topo cap s (runSched pool topo cap c n s) := by
  intro n
  induction n with
  | zero => intro s; exact Relation.ReflTransGen.refl
  | succ n ih =>
    intro s
    simp only [runSched]
    rcases hs : schedStep pool topo cap c s with _ | s2
    · exact Relation.ReflTransGen.refl
    · refine Relation.ReflTransGen.head ?_ (ih s2)
      obtain ⟨a, _, ha⟩ := List.exists_of_findSome?_eq_some hs
      exact ⟨a, ha⟩

/-- The worker a scheduling action belongs to. -/
def actionWorker : Action → Nat
  | Action.dequeue w => w
  | Action.exit w => w
  | Action.compute w => w
  | Action.send w => w
  | Action.dec w => w
  | Action.finish w => w

/-- Actions of workers that have exited (or do not exist) are never enabled. -/
theorem applyAction_done_worker (pool : Pool) (topo : List Nat) (cap : Nat)
    (a : Action) (s : EState) (h : getW s.workers (actionWorker a) = WStatus.done) :
    applyAction pool topo cap a s = none := by
  cases a <;> simp only [actionWorker] at h <;> simp [applyAction, h]

/-! ## C7: the built-in aggregation behaviours -/

/-- Reference for "Sum yields the sum of the arrivals and 0 for empty input". -/
def specSum (l : List Int) : Int := l.sum

theorem foldl_add_eq (l : List Int) : ∀ a : Int,
    l.foldl (fun output input => output + input) a = a + l.sum := by
  induction l with
  | nil => intro a; simp
  | cons x xs ih => intro a; simp [ih]; ring

theorem foldl_min_mem (xs : List Int) : ∀ x : Int,
    xs.foldl (fun output i => if i < output then i else output) x ∈ x :: xs := by
  induction xs with
  | nil => intro x; simp
  | cons y ys ih =>
    intro x
    simp only [List.foldl_cons]
    by_cases hyx : y < x
    · rw [if_pos hyx]
      rcases List.mem_cons.mp (ih y) with h | h
      · rw [h]; exact List.mem_cons_of_mem _ (List.mem_cons_self _ _)
      · exact List.mem_cons_of_mem _ (List.mem_cons_of_mem _ h)
    · rw [if_neg hyx]
      rcases List.mem_cons.mp (ih x) with h | h
      · rw [h]; exact List.mem_cons_self _ _
      · exact List.mem_cons_of_mem _ (List.mem_cons_of_mem _ h)

theorem foldl_min_le (xs : List Int) : ∀ x : Int, ∀ y ∈ x :: xs,
    xs.foldl (fun output i => if i < output then i else output) x ≤ y := by
  induction xs with
  | nil =>
    intro x y hy
    simp only [List.foldl_nil]
    rcases List.mem_cons.mp hy with h | h
    · exact le_of_eq h.symm
    · simp at h
  | cons z zs ih =>
    intro x y hy
    simp only [List.foldl_cons]
    have base := ih (if z < x then z else x) (if z < x then z else x)
      (List.mem_cons_self _ _)
    rcases List.mem_cons.mp hy with h | h
    · subst h
      by_cases hzx : z < y
      · rw [if_pos hzx] at base ⊢; omega
      · rw [if_neg hzx] at base ⊢; omega
    · rcases List.mem_cons.mp h with h2 | h2
      · subst h2
        by_cases hzx : y < x
        · rw [if_pos hzx] at base ⊢; omega
        · rw [if_neg hzx] at base ⊢; omega
      · exact ih _ _ (List.mem_cons_of_mem _ h2)

theorem foldl_max_mem (xs : List Int) : ∀ x : Int,
    xs.foldl (fun output input => if input > output then input else output) x ∈ x :: xs := by
  induction xs with
  | nil => intro x; simp
  | cons y ys ih =>
    intro x
    simp only [List.foldl_cons]
    by_cases hyx : y > x
    · rw [if_pos hyx]
      rcases List.mem_cons.mp (ih y) with h | h
      · rw [h]; exact List.mem_cons_of_mem _ (List.mem_cons_self _ _)
      · exact List.mem_cons_of_mem _ (List.mem_cons_of_mem _ h)
    · rw [if_neg hyx]
      rcases List.mem_cons.mp (ih x) with h | h
      · rw [h]; exact List.mem_cons_self _ _
      · exact List.mem_cons_of_mem _ (List.mem_cons_of_mem _ h)

theorem foldl_max_ge (xs : List Int) : ∀ x : Int, ∀ y ∈ x :: xs,
    y ≤ xs.foldl (fun output input => if input > output then input else output) x := by
  induction xs with
  | nil =>
    intro x y hy
    simp only [List.foldl_nil]
    rcases List.mem_cons.mp hy with h | h
    · exact le_of_eq h
    · simp at h
  | cons z zs ih =>
    intro x y hy
    simp only [List.foldl_cons]
    have base := ih (if z > x then z else x) (if z > x then z else x)
      (List.mem_cons_self _ _)
    rcases List.mem_cons.mp hy with h | h
    · subst h
      by_cases hzx : z > y
      · rw [if_pos hzx] at base ⊢; omega
      · rw [if_neg hzx] at base ⊢; omega
    · rcases List.mem_cons.mp h with h2 | h2
      · subst h2
        by_cases hzx : y > x
        · rw [if_pos hzx] at base ⊢; omega
        · rw [if_neg hzx] at base ⊢; omega
      · exact ih _ _ (List.mem_cons_of_mem _ h2)

/-- C7 counterexample: on the single arrival `-1` the highest arrival is
`-1` (it is the only element, an upper bound of the arrivals), but `Max`
returns `0`: `Max` does not yield the highest arrival. -/
theorem C7_max_counterexample :
    Max [(-1 : Int)] = 0 ∧
    ((-1 : Int) ∈ [(-1 : Int)] ∧ ∀ y ∈ [(-1 : Int)], y ≤ (-1 : Int)) ∧
    Max [(-1 : Int)] ≠ -1 := by
  refine ⟨by decide, ⟨by decide, by decide⟩, by decide⟩

/-- C7 (amended): `Constant k` ignores its input and yields `k`; `Sum`
yields the sum of the arrivals (0 when empty); `Min` yields 0 when empty and
otherwise the true minimum of the arrivals; `Max` yields the true maximum of
`0` and the arrivals — i.e. the highest arrival clamped below at 0, not the
highest arrival itself. -/
theorem C7_aggregations_amended :
    (∀ (k : Int) (l : List Int), Constant k l = k) ∧
    (Sum [] = 0 ∧ ∀ l : List Int, Sum l = specSum l) ∧
    (Min [] = 0 ∧ ∀ l : List Int, l ≠ [] → Min l ∈ l ∧ ∀ y ∈ l, Min l ≤ y) ∧
    (Max [] = 0 ∧ ∀ l : List Int, Max l ∈ 0 :: l ∧ ∀ y ∈ 0 :: l, y ≤ Max l) := by
  refine ⟨fun k l => rfl, ⟨rfl, fun l => ?_⟩, ⟨rfl, fun l hl => ?_⟩, rfl, fun l => ?_⟩
  · simpa [Sum, specSum] using foldl_add_eq l 0
  · match l, hl with
    | x :: xs, _ =>
      constructor
      · exact foldl_min_mem xs x
      · intro y hy
        exact foldl_min_le xs x y hy
  · exact ⟨foldl_max_mem l 0, fun y hy => foldl_max_ge l 0 y hy⟩

/-! ## C2: `New` on a cyclic input

The test graph `a → b → a` (graph_test.go, case "cycle"): both nodes are
built with no successors (indegree 0) and the `Next` edges are attached by
hand.  `walkRecursive` drops the visit callback's error (graph.go:186), so
the builder walk of `New` has no termination check at all and recurses
forever between `a` and `b`: `New` neither terminates nor returns
`ErrCycle`, contradicting its own documentation (graph.go:43) and test. -/

/-- The cyclic two-node input of graph_test.go ("cycle"). -/
def poolCyc : Pool := [mkN "a" [1] (Constant 1) 0, mkN "b" [0] (Constant 2) 0]

theorem poolCyc_walk_diverges : ∀ fuel : Nat, ∀ (s : List Nat) (prev : List Nat),
    walkRec (nextOf poolCyc) (buildStep poolCyc) fuel s 0 prev = none ∧
    walkRec (nextOf poolCyc) (buildStep poolCyc) fuel s 1 prev = none := by
  intro fuel
  induction fuel with
  | zero => intro s prev; exact ⟨rfl, rfl⟩
  | succ fuel ih =>
    intro s prev
    constructor
    · show stepList _ _ (nextOf poolCyc 0) = none
      show stepList _ _ [1] = none
      simp only [stepList, (ih _ _).2]
    · show stepList _ _ (nextOf poolCyc 1) = none
      show stepList _ _ [0] = none
      simp only [stepList, (ih _ _).1]

/-- C2: for every amount of fuel, `New` on the cyclic input `a → b → a` is
still recursing — it never terminates, so in particular it never returns
the `Cycle` error (`walkRecursive` discards the cycle error raised by the
validation callback, and the builder walk has no cycle check at all). -/
theorem C2_new_cycle_diverges : ∀ fuel : Nat, New poolCyc fuel [0, 1] = none := by
  intro fuel
  have h := (poolCyc_walk_diverges fuel [] []).1
  simp only [New, buildGraph, List.foldlM, h]
  rfl

/-! ## C3: duplicate identities are silently ignored -/

/-- Two distinct node objects (indices 0 and 1) carrying the same identity
string "x". -/
def poolDup : Pool := [mkN "x" [] (Constant 0) 0, mkN "x" [] (Constant 0) 0]

/-- C3: `New` on two distinct nodes sharing the identity "x" succeeds,
returning the graph holding only the first node — the DuplicateIdentity
error raised inside the builder callback (graph.go:50) is discarded by
`walkRecursive` (graph.go:186), contradicting `New`'s documentation
(graph.go:42) and the `ErrDuplicateNodeID` declaration. -/
theorem C3_duplicate_id_ignored :
    New poolDup 10 [0, 1] = some (Except.ok [0]) ∧
    New poolDup 10 [0, 1] ≠ some (Except.error GErr.DuplicateNodeID) := by
  constructor
  · rfl
  · intro h
    rw [show New poolDup 10 [0, 1] = some (Except.ok [0]) from rfl] at h
    exact Except.noConfusion (Option.some.inj h)

/-! ## C9: the defensive cycle check of the sorter is unreachable -/

/-- A graph containing a reachable cycle: `r → a → b → a` with indegree
fields as `NewNode` would set them (`r` is the only root). -/
def pool9 : Pool := [mkN "r" [1] (Constant 0) 0, mkN "a" [2] (Constant 0) 2,
                    mkN "b" [1] (Constant 0) 1]

/-- C9: on `r → a → b → a` the traversal revisits node `a` while `a` is in
the visiting (temporary-mark) state — the ghost flag `hitCycle` records that
the `ErrCycle` branch of `visit` (graph.go:265-267) was taken — yet
`TopologicalSort` returns the sorted sequence `[r, a, b]` with no error: the
recursive calls on graph.go:273-275 drop the error. -/
theorem C9_cycle_error_dropped :
    TopologicalSortState pool9 10 [0, 1, 2] =
      some (Except.ok ⟨[], [0, 1, 2], [0, 1, 2], true⟩) ∧
    TopologicalSort pool9 10 [0, 1, 2] ≠ some (Except.error GErr.Cycle) := by
  constructor
  · rfl
  · intro h
    rw [show TopologicalSort pool9 10 [0, 1, 2] = some (Except.ok [0, 1, 2]) from rfl] at h
    exact Except.noConfusion (Option.some.inj h)

/-! ## C1 (counterexample part): a weakly connected DAG rejected as Disconnected

The "zigzag" `a → b ← c → d`: acyclic, one weakly connected component, yet
`Validate`'s pairwise propagation never marks `a`–`d` (updating only the two
rows of the pair being linked leaves earlier-settled rows stale), so `New`
fails with `Disconnected`. -/

/-- The zigzag pool: `a → b`, `c → b`, `c → d`. -/
def poolZ : Pool := [mkN "a" [1] (Constant 0) 0, mkN "b" [] (Constant 0) 2,
                    mkN "c" [1, 3] (Constant 0) 0, mkN "d" [] (Constant 0) 1]

theorem poolZ_acyclic : Acyclic poolZ := by
  apply acyclic_of_rank poolZ fun i => i % 2
  intro i j h
  obtain ⟨hi, hj⟩ := h
  have hi4 : i < 4 := by simpa [poolZ] using hi
  interval_cases i
  · rw [show (getNode poolZ 0).Next = [1] from rfl] at hj
    simp at hj; subst hj; decide
  · rw [show (getNode poolZ 1).Next = [] from rfl] at hj
    simp at hj
  · rw [show (getNode poolZ 2).Next = [1, 3] from rfl] at hj
    simp at hj; rcases hj with rfl | rfl <;> decide
  · rw [show (getNode poolZ 3).Next = [] from rfl] at hj
    simp at hj

theorem poolZ_weakly_connected :
    ∀ i ∈ [0, 1, 2, 3], ∀ j ∈ [0, 1, 2, 3], WeakConn poolZ i j := by
  have e01 : Edge poolZ 0 1 := by decide
  have e21 : Edge poolZ 2 1 := by decide
  have e23 : Edge poolZ 2 3 := by decide
  have w01 := weakConn_of_edge poolZ e01
  have w21 := weakConn_of_edge poolZ e21
  have w23 := weakConn_of_edge poolZ e23
  have w02 := weakConn_trans poolZ w01 (weakConn_symm poolZ w21)
  have w03 := weakConn_trans poolZ w02 w23
  have w13 := weakConn_trans poolZ (weakConn_symm poolZ w01) w03
  intro i hi j hj
  fin_cases hi <;> fin_cases hj <;>
    first
      | exact Relation.ReflTransGen.refl
      | exact w01
      | exact weakConn_symm poolZ w01
      | exact w02
      | exact weakConn_symm poolZ w02
      | exact w03
      | exact weakConn_symm poolZ w03
      | exact w21
      | exact weakConn_symm poolZ w21
      | exact w13
      | exact weakConn_symm poolZ w13
      | exact w23
      | exact weakConn_symm poolZ w23

/-- C1 counterexample: the zigzag input (entries `a` and `c`) is cycle-free
and its node set `{a, b, c, d}` is one weakly connected component, yet
construction fails with the Disconnected error instead of succeeding. -/
theorem C1_connected_rejected_counterexample :
    Acyclic poolZ ∧
    (∀ i ∈ [0, 1, 2, 3], ∀ j ∈ [0, 1, 2, 3], WeakConn poolZ i j) ∧
    buildGraph poolZ 10 [0, 2] = some [0, 1, 2, 3] ∧
    New poolZ 10 [0, 2] = some (Except.error GErr.Disconnected) :=
  ⟨poolZ_acyclic, poolZ_weakly_connected, rfl, rfl⟩

/-! ## C5 (counterexample part): results do depend on the interleaving

The V-graph `a → c ← b` with `a = Constant 10`, `b = Constant 20` and `c`
evaluating to its *first* arrival.  `EvalFunc` is arbitrary in the code, and
the claim quantifies over every valid graph, so this order-sensitive
aggregation is admissible.  With one worker `c` yields 20; with two workers
an interleaving in which `a`'s worker delivers first yields 10. -/

/-- The V pool: `a → c`, `b → c`, `c` returns its first arrival (0 if none). -/
def poolV : Pool := [mkN "a" [2] (Constant 10) 0, mkN "b" [2] (Constant 20) 0,
                    mkN "c" [] (fun l => l.headD 0) 2]

/-- The topological order `TopologicalSort` produces for the V graph. -/
def topoV : List Nat := [1, 0, 2]

/-- Final state of the single-worker run (deterministic scheduler). -/
def runV1 : EState := runSched poolV topoV 10 1 50 (initEState poolV 1)

/-- A two-worker interleaving in which worker 1 (holding `a`) delivers to
`c` before worker 0 (holding `b`) does. -/
def actsV2 : List Action :=
  [Action.dequeue 0, Action.dequeue 1, Action.compute 1, Action.send 1,
   Action.dec 1, Action.finish 1, Action.compute 0, Action.send 0,
   Action.dec 0, Action.finish 0, Action.dequeue 0, Action.compute 0,
   Action.finish 0, Action.exit 0, Action.exit 1]

/-- Final state of that two-worker run. -/
def runV2 : EState :=
  (runActs poolV topoV 10 actsV2 (initEState poolV 2)).getD (initEState poolV 2)

/-- C5 counterexample: the V graph is accepted by `New`, both runs use
worker counts between 1 and the node count and run to completion, but node
`c` holds Result 20 after the one-worker run and Result 10 after the
two-worker run. -/
theorem C5_determinism_counterexample :
    New poolV 10 [0, 1] = some (Except.ok [0, 2, 1]) ∧
    TopologicalSort poolV 10 [0, 2, 1] = some (Except.ok topoV) ∧
    EReach poolV topoV 10 (initEState poolV 1) runV1 ∧ EFinal runV1 ∧
    runActs poolV topoV 10 actsV2 (initEState poolV 2) = some runV2 ∧
    EReach poolV topoV 10 (initEState poolV 2) runV2 ∧ EFinal runV2 ∧
    (getNS runV1.nodes 2).result = some 20 ∧
    (getNS runV2.nodes 2).result = some 10 := by
  refine ⟨rfl, rfl, runSched_reach poolV topoV 10 1 50 _, by decide,
    rfl, runActs_reach poolV topoV 10 actsV2 _ _ rfl, by decide, rfl, rfl⟩

/-! ## C6 (counterexample part): a valid graph that deadlocks

Eleven constant nodes all feeding one `Sum` node: `New` accepts it (it is
weakly connected and acyclic), the `Sum` node's indegree 11 exceeds the
channel capacity `MaxIndegree = 10`, and after ten deliveries the eleventh
`receive` blocks forever on the full buffer while `Sum`'s `wait.Wait()` can
never return — with one worker the run reaches a stuck, non-final state. -/

/-- Eleven constants `0`..`10` feeding `s = Sum` (indegree 11). -/
def poolStar : Pool :=
  ((List.range 11).map fun i => mkN (toString i) [11] (Constant 1) 0) ++
    [mkN "s" [] Sum 11]

/-- The graph `New` discovers for the star. -/
def gStar : List Nat := [0, 11, 1, 2, 3, 4, 5, 6, 7, 8, 9, 10]

/-- The topological order produced for the star. -/
def topoStar : List Nat := [10, 9, 8, 7, 6, 5, 4, 3, 2, 1, 0, 11]

/-- The state the single-worker run is stuck in: the worker holds the last
constant, blocked sending into the full buffer of `s`. -/
def stuckStar : EState := runSched poolStar topoStar 10 1 100 (initEState poolStar 1)

theorem stuckStar_stuck : ∀ a : Action, applyAction poolStar topoStar 10 a stuckStar = none := by
  intro a
  by_cases h : actionWorker a = 0
  · cases a <;> simp only [actionWorker] at h <;> subst h <;> decide
  · apply applyAction_done_worker
    have hlen : stuckStar.workers.length ≤ actionWorker a := by
      have h1 : stuckStar.workers.length = 1 := by decide
      omega
    simp [getW, List.getD, List.getElem?_eq_none hlen]

/-- C6 counterexample: the star is a valid graph (accepted by `New`), its
topological order is the one `Evaluate` computes, and with worker count 1
the run reaches a stuck state that is not final: the worker is blocked
forever sending into the full arrival buffer of the `Sum` node, whose
dependency counter never reaches zero. -/
theorem C6_deadlock_counterexample :
    New poolStar 15 (List.range 11) = some (Except.ok gStar) ∧
    TopologicalSort poolStar 15 gStar = some (Except.ok topoStar) ∧
    EReach poolStar topoStar 10 (initEState poolStar 1) stuckStar ∧
    ¬ EFinal stuckStar ∧
    (∀ a : Action, applyAction poolStar topoStar 10 a stuckStar = none) := by
  refine ⟨rfl, rfl, runSched_reach poolStar topoStar 10 1 100 _, by decide, stuckStar_stuck⟩

/-! ## C8 (counterexample part): the chain scenario yields 1, not 2

`node2 = Constant 2` feeds `node1 = Constant 1`.  `Constant` ignores its
inputs, so node1's Result is 1 (as the repository's own test "linked
constants" expects); the value 2 is delivered into node1's arrival buffer
but does not become its Result. -/

/-- The chain pool: index 0 is node1 (`Constant 1`), index 1 is node2
(`Constant 2`) with edge node2 → node1. -/
def poolChain : Pool := [mkN "1" [] (Constant 1) 1, mkN "2" [0] (Constant 2) 0]

/-- The topological order for the chain. -/
def topoChain : List Nat := [1, 0]

/-- Final state of the single-worker run on the chain. -/
def runChain1 : EState := runSched poolChain topoChain 10 1 50 (initEState poolChain 1)

/-- C8 counterexample: the chain is accepted by `New`, the one-worker run
completes, node2's value 2 is delivered into node1's arrival buffer, yet
node1's Result is 1 — not 2 as claimed. -/
theorem C8_chain_counterexample :
    New poolChain 10 [1] = some (Except.ok [1, 0]) ∧
    TopologicalSort poolChain 10 [1, 0] = some (Except.ok topoChain) ∧
    EReach poolChain topoChain 10 (initEState poolChain 1) runChain1 ∧
    EFinal runChain1 ∧
    (getNS runChain1.nodes 0).buf = [2] ∧
    (getNS runChain1.nodes 0).result = some 1 ∧
    (getNS runChain1.nodes 0).result ≠ some 2 := by
  refine ⟨rfl, rfl, runSched_reach poolChain topoChain 10 1 50 _, by decide,
    rfl, rfl, by decide⟩

/-! ## C4: correctness of `TopologicalSort` on validated acyclic graphs

Hypotheses formalising "validated acyclic graph" for a member list `g`:
unique members in range, successor-closed, acyclic, and every `indegree`
field equal to the number of in-edges from within `g` (what `NewNode`
maintains).  Conclusion: the sort succeeds and returns every node of `g`
exactly once with each node strictly after its transitive predecessors. -/

/-- An edge of the graph `g` (both endpoints members). -/
def GEdge (pool : Pool) (g : List Nat) (i j : Nat) : Prop :=
  i ∈ g ∧ j ∈ g ∧ j ∈ (getNode pool i).Next

/-- Number of in-edges of `j` from members of `g` (with multiplicity):
what the `indegree` field records after the `NewNode` calls. -/
def countInEdges (pool : Pool) (g : List Nat) (j : Nat) : Nat :=
  (g.map fun i => (getNode pool i).Next.count j).sum

/-- Ordering invariant of the accumulated `sorted` list: successors are
present and appear strictly later. -/
def SortedOK (pool : Pool) (s : TSState) : Prop :=
  ∀ u ∈ s.sorted, ∀ v ∈ (getNode pool u).Next,
    v ∈ s.sorted ∧ s.sorted.indexOf u < s.sorted.indexOf v

/-- Invariant of the sorter state. -/
def TSInv (pool : Pool) (g : List Nat) (s : TSState) : Prop :=
  s.sorted.Nodup ∧ (∀ x, x ∈ s.visited ↔ x ∈ s.sorted) ∧
    (∀ x ∈ s.sorted, x ∈ g) ∧ SortedOK pool s

/-- The visited set is closed under reachability. -/
theorem visited_closed (pool : Pool) (g : List Nat) (s : TSState)
    (hinv : TSInv pool g s) :
    ∀ n ∈ s.visited, ∀ x, Relation.ReflTransGen (Edge pool) n x → x ∈ s.visited := by
  obtain ⟨-, hiff, -, hok⟩ := hinv
  intro n hn x hx
  induction hx with
  | refl => exact hn
  | tail hab hbc ih =>
    have hb := (hiff _).mp ih
    have := (hok _ hb _ hbc.2).1
    exact (hiff _).mpr this

/-- Every member of a graph with consistent indegrees is reachable from an
indegree-0 root. -/
theorem exists_root (pool : Pool) (g : List Nat)
    (hmem : ∀ i ∈ g, i < pool.length)
    (hacyc : Acyclic pool)
    (hindeg : ∀ j ∈ g, (getNode pool j).indegree = countInEdges pool g j) :
    ∀ i ∈ g, ∃ r ∈ g, (getNode pool r).indegree = 0 ∧
      Relation.ReflTransGen (Edge pool) r i := by
  -- well-founded descent to predecessors inside the finite member type
  have hfin : Finite {x // x ∈ g} := by
    have hm : ∀ x : {x // x ∈ g}, (x : Nat) ∈ g.toFinset := fun x => List.mem_toFinset.mpr x.2
    refine Finite.of_injective (fun x => (⟨(x : Nat), hm x⟩ : {y // y ∈ g.toFinset})) ?_
    intro a b hab
    have h2 := congrArg Subtype.val hab
    exact Subtype.ext h2
  let rel : {x // x ∈ g} → {x // x ∈ g} → Prop :=
    fun a b => Relation.TransGen (Edge pool) (a : Nat) (b : Nat)
  have htrans : IsTrans {x // x ∈ g} rel := ⟨fun _ _ _ hab hbc => hab.trans hbc⟩
  have hirrefl : IsIrrefl {x // x ∈ g} rel := ⟨fun a ha => hacyc _ ha⟩
  have hwf : WellFounded rel := Finite.wellFounded_of_trans_of_irrefl rel
  have key : ∀ b : {x // x ∈ g}, ∃ r0 ∈ g, (getNode pool r0).indegree = 0 ∧
      Relation.ReflTransGen (Edge pool) r0 (b : Nat) := by
    intro b
    induction b using hwf.induction with
    | _ b ih =>
      by_cases h0 : (getNode pool (b : Nat)).indegree = 0
      · exact ⟨(b : Nat), b.2, h0, Relation.ReflTransGen.refl⟩
      · have hcount : countInEdges pool g (b : Nat) ≠ 0 := by
          rw [← hindeg _ b.2]; exact h0
        obtain ⟨p, hp, hpcnt⟩ : ∃ p ∈ g, (getNode pool p).Next.count (b : Nat) ≠ 0 := by
          by_contra hall
          push_neg at hall
          apply hcount
          apply List.sum_eq_zero
          intro x hx
          obtain ⟨p, hp, rfl⟩ := List.mem_map.mp hx
          exact hall p hp
        have hmemb : (b : Nat) ∈ (getNode pool p).Next := by
          by_contra hnm
          exact hpcnt (List.count_eq_zero.mpr hnm)
        have hedge : Edge pool p (b : Nat) := ⟨hmem p hp, hmemb⟩
        obtain ⟨r0, hr0, hr00, hr0p⟩ := ih ⟨p, hp⟩ (Relation.TransGen.single hedge)
        exact ⟨r0, hr0, hr00, hr0p.tail hedge⟩
  intro i hi
  exact key ⟨i, hi⟩

/-- Full specification of `visit` on acyclic closed graphs: it succeeds,
restores the visiting set, grows the visited set by exactly the nodes
reachable from `n`, and maintains the sortedness invariant. -/
theorem tsVisit_spec (pool : Pool) (g : List Nat)
    (hg : g.Nodup)
    (hmem : ∀ i ∈ g, i < pool.length)
    (hclosed : ∀ i ∈ g, ∀ j ∈ (getNode pool i).Next, j ∈ g)
    (hacyc : Acyclic pool) :
    ∀ (fuel : Nat) (s : TSState) (n : Nat),
      n ∈ g →
      TSInv pool g s →
      s.visiting.Nodup →
      (∀ x ∈ s.visiting, x ∈ g) →
      (∀ x ∈ s.visiting, Relation.TransGen (Edge pool) x n) →
      pool.length + 1 ≤ fuel + s.visiting.length →
      ∃ s2 : TSState, tsVisit pool fuel s n = some (s2, false) ∧
        TSInv pool g s2 ∧
        s2.visiting = s.visiting ∧
        (∀ x ∈ s.visited, x ∈ s2.visited) ∧
        (∀ x, Relation.ReflTransGen (Edge pool) n x → x ∈ s2.visited) ∧
        (∀ x ∈ s2.visited, x ∈ s.visited ∨ Relation.ReflTransGen (Edge pool) n x) := by
  intro fuel
  induction fuel with
  | zero =>
    intro s n hn hinv hvnd hvsub hanc hfuel
    exfalso
    have h1 : s.visiting.Subperm g :=
      List.subperm_of_subset hvnd fun x hx => hvsub x hx
    have h2 : g.Subperm (List.range pool.length) :=
      List.subperm_of_subset hg fun x hx => List.mem_range.mpr (hmem x hx)
    have h3 := (h1.trans h2).length_le
    simp only [List.length_range] at h3
    omega
  | succ fuel ih =>
    intro s n hn hinv hvnd hvsub hanc hfuel
    by_cases hvis : n ∈ s.visited
    · refine ⟨s, ?_, hinv, rfl, fun x hx => hx,
        fun x hx => visited_closed pool g s hinv n hvis x hx, fun x hx => Or.inl hx⟩
      simp [tsVisit, hvis]
    · by_cases hving : n ∈ s.visiting
      · exact absurd (hanc n hving) (hacyc n)
      · -- main branch: mark `n` visiting, recurse into the children, finish
        have fold : ∀ ms : List Nat, (∀ m ∈ ms, m ∈ (getNode pool n).Next) →
            ∀ t : TSState,
              TSInv pool g t →
              t.visiting = n :: s.visiting →
              (∀ x ∈ t.visited, x ∈ s.visited ∨
                ∃ m0 ∈ (getNode pool n).Next, Relation.ReflTransGen (Edge pool) m0 x) →
              ∃ t2 : TSState,
                stepList (fun a m => (tsVisit pool fuel a m).map Prod.fst) t ms = some t2 ∧
                TSInv pool g t2 ∧
                t2.visiting = n :: s.visiting ∧
                (∀ x ∈ t.visited, x ∈ t2.visited) ∧
                (∀ m ∈ ms, ∀ x, Relation.ReflTransGen (Edge pool) m x → x ∈ t2.visited) ∧
                (∀ x ∈ t2.visited, x ∈ s.visited ∨
                  ∃ m0 ∈ (getNode pool n).Next, Relation.ReflTransGen (Edge pool) m0 x) := by
          intro ms
          induction ms with
          | nil =>
            intro _ t hinvt hvt hacc
            exact ⟨t, rfl, hinvt, hvt, fun x hx => hx, by simp, hacc⟩
          | cons m rest ihm =>
            intro hms t hinvt hvt hacc
            have hmnext : m ∈ (getNode pool n).Next := hms m (List.mem_cons_self m rest)
            have hmg : m ∈ g := hclosed n hn m hmnext
            have hedge : Edge pool n m := ⟨hmem n hn, hmnext⟩
            have hvnd1 : t.visiting.Nodup := by
              rw [hvt]; exact List.nodup_cons.mpr ⟨hving, hvnd⟩
            have hvsub1 : ∀ x ∈ t.visiting, x ∈ g := by
              rw [hvt]
              intro x hx
              rcases List.mem_cons.mp hx with rfl | hx2
              exacts [hn, hvsub x hx2]
            have hanc1 : ∀ x ∈ t.visiting, Relation.TransGen (Edge pool) x m := by
              rw [hvt]
              intro x hx
              rcases List.mem_cons.mp hx with rfl | hx2
              · exact Relation.TransGen.single hedge
              · exact (hanc x hx2).tail hedge
            have hfuel1 : pool.length + 1 ≤ fuel + t.visiting.length := by
              rw [hvt]; simp only [List.length_cons]; omega
            obtain ⟨u, hu, hinvu, hvu, hmono_u, hreach_u, hnew_u⟩ :=
              ih t m hmg hinvt hvnd1 hvsub1 hanc1 hfuel1
            have hacc_u : ∀ x ∈ u.visited, x ∈ s.visited ∨
                ∃ m0 ∈ (getNode pool n).Next, Relation.ReflTransGen (Edge pool) m0 x := by
              intro x hx
              rcases hnew_u x hx with hx2 | hx2
              · exact hacc x hx2
              · exact Or.inr ⟨m, hmnext, hx2⟩
            obtain ⟨t2, ht2, hinv2, hv2, hmono2, hreach2, hnew2⟩ :=
              ihm (fun m2 hm2 => hms m2 (List.mem_cons_of_mem _ hm2)) u hinvu
                (by rw [hvu, hvt]) hacc_u
            refine ⟨t2, ?_, hinv2, hv2, fun x hx => hmono2 x (hmono_u x hx), ?_, hnew2⟩
            · simp only [stepList, hu, Option.map_some']
              exact ht2
            · intro m2 hm2 x hx
              rcases List.mem_cons.mp hm2 with rfl | hm3
              · exact hmono2 x (hreach_u x hx)
              · exact hreach2 m2 hm3 x hx
        -- apply the fold to the children of `n`
        obtain ⟨t2, ht2, hinv2, hv2, hmono2, hreach2, hnew2⟩ :=
          fold (getNode pool n).Next (fun m hm => hm)
            { s with visiting := n :: s.visiting } hinv rfl
            (fun x hx => Or.inl hx)
        have hnvisited2 : n ∉ t2.visited := by
          intro hcontra
          rcases hnew2 n hcontra with h | ⟨m0, hm0, hr⟩
          · exact hvis h
          · exact hacyc n (Relation.TransGen.head' ⟨hmem n hn, hm0⟩ hr)
        obtain ⟨hnd2, hiff2, hsub2, hok2⟩ := hinv2
        have hnsorted2 : n ∉ t2.sorted := fun h => hnvisited2 ((hiff2 n).mpr h)
        refine ⟨⟨t2.visiting.erase n, n :: t2.visited, n :: t2.sorted, t2.hitCycle⟩,
          ?_, ?_, ?_, ?_, ?_, ?_⟩
        · -- the execution equation
          show tsVisit pool (fuel + 1) s n = _
          rw [tsVisit]
          rw [if_neg hvis, if_neg hving]
          rw [ht2]
        · -- the invariant
          refine ⟨List.nodup_cons.mpr ⟨hnsorted2, hnd2⟩, ?_, ?_, ?_⟩
          · intro x
            show x ∈ n :: t2.visited ↔ x ∈ n :: t2.sorted
            simp only [List.mem_cons]
            exact or_congr Iff.rfl (hiff2 x)
          · intro x hx
            rcases List.mem_cons.mp hx with rfl | hx2
            exacts [hn, hsub2 x hx2]
          · intro u hu v hv
            have hu2 : u ∈ n :: t2.sorted := hu
            show v ∈ n :: t2.sorted ∧
              List.indexOf u (n :: t2.sorted) < List.indexOf v (n :: t2.sorted)
            rcases List.mem_cons.mp hu2 with rfl | hu3
            · have hvvis : v ∈ t2.visited := hreach2 v hv v Relation.ReflTransGen.refl
              have hvsort : v ∈ t2.sorted := (hiff2 v).mp hvvis
              have hvne : v ≠ u := fun h => hnsorted2 (h ▸ hvsort)
              constructor
              · exact List.mem_cons_of_mem _ hvsort
              · rw [List.indexOf_cons_self, List.indexOf_cons_ne _ hvne.symm]
                exact Nat.succ_pos _
            · have h2 := hok2 u hu3 v hv
              have hune : u ≠ n := fun h => hnsorted2 (h ▸ hu3)
              have hvne : v ≠ n := fun h => hnsorted2 (h ▸ h2.1)
              constructor
              · exact List.mem_cons_of_mem _ h2.1
              · rw [List.indexOf_cons_ne _ hune.symm, List.indexOf_cons_ne _ hvne.symm]
                exact Nat.succ_lt_succ h2.2
        · -- visiting restored
          show t2.visiting.erase n = s.visiting
          rw [hv2, List.erase_cons_head]
        · -- visited monotone
          intro x hx
          exact List.mem_cons_of_mem _ (hmono2 x hx)
        · -- everything reachable from n is visited
          intro x hx
          rcases Relation.ReflTransGen.cases_head hx with rfl | ⟨m, hm, hr⟩
          · exact List.mem_cons_self _ _
          · exact List.mem_cons_of_mem _ (hreach2 m hm.2 x hr)
        · -- new visited nodes are reachable from n
          intro x hx
          rcases List.mem_cons.mp hx with rfl | hx2
          · exact Or.inr Relation.ReflTransGen.refl
          · rcases hnew2 x hx2 with h | ⟨m0, hm0, hr⟩
            · exact Or.inl h
            · exact Or.inr (Relation.ReflTransGen.head ⟨hmem n hn, hm0⟩ hr)

/-- Specification of the loop over roots in `TopologicalSort`. -/
theorem tsRun_spec (pool : Pool) (g : List Nat)
    (hg : g.Nodup)
    (hmem : ∀ i ∈ g, i < pool.length)
    (hclosed : ∀ i ∈ g, ∀ j ∈ (getNode pool i).Next, j ∈ g)
    (hacyc : Acyclic pool) (fuel : Nat) (hfuel : pool.length + 1 ≤ fuel) :
    ∀ rs : List Nat, (∀ r ∈ rs, r ∈ g) →
      ∀ s : TSState, TSInv pool g s → s.visiting = [] →
        ∃ s2 : TSState, tsRun pool fuel s rs = some (Except.ok s2) ∧
          TSInv pool g s2 ∧ s2.visiting = [] ∧
          (∀ x ∈ s.visited, x ∈ s2.visited) ∧
          (∀ r ∈ rs, ∀ x, Relation.ReflTransGen (Edge pool) r x → x ∈ s2.visited) := by
  intro rs
  induction rs with
  | nil =>
    intro _ s hinv hv
    exact ⟨s, rfl, hinv, hv, fun x hx => hx, by simp⟩
  | cons r rest ihr =>
    intro hrs s hinv hv
    obtain ⟨s1, hs1, hinv1, hv1, hmono1, hreach1, _⟩ :=
      tsVisit_spec pool g hg hmem hclosed hacyc fuel s r
        (hrs r (List.mem_cons_self r rest)) hinv
        (by rw [hv]; exact List.nodup_nil)
        (by rw [hv]; intro x hx; exact absurd hx (List.not_mem_nil x))
        (by rw [hv]; intro x hx; exact absurd hx (List.not_mem_nil x))
        (by rw [hv]; simp; omega)
    obtain ⟨s2, hs2, hinv2, hv2, hmono2, hreach2⟩ :=
      ihr (fun x hx => hrs x (List.mem_cons_of_mem _ hx)) s1 hinv1 (hv1.trans hv)
    refine ⟨s2, ?_, hinv2, hv2, fun x hx => hmono2 x (hmono1 x hx), ?_⟩
    · simp only [tsRun, hs1]
      exact hs2
    · intro r2 hr2 x hx
      rcases List.mem_cons.mp hr2 with rfl | hr3
      · exact hmono2 x (hreach1 x hx)
      · exact hreach2 r2 hr3 x hx

/-- C4: for every validated acyclic graph — members unique and in range,
successor-closed, acyclic, and with every `indegree` field equal to the
number of in-edges from the graph (as `NewNode` maintains) — and enough
fuel, `TopologicalSort` returns (with no error) a sequence containing every
node of the graph exactly once in which each node appears strictly after all
of its transitive predecessors. -/
theorem C4_topological_sort_correct (pool : Pool) (g : List Nat) (fuel : Nat)
    (hg : g.Nodup)
    (hmem : ∀ i ∈ g, i < pool.length)
    (hclosed : ∀ i ∈ g, ∀ j ∈ (getNode pool i).Next, j ∈ g)
    (hacyc : Acyclic pool)
    (hindeg : ∀ j ∈ g, (getNode pool j).indegree = countInEdges pool g j)
    (hfuel : pool.length + 1 ≤ fuel) :
    ∃ l : List Nat, TopologicalSort pool fuel g = some (Except.ok l) ∧
      l.Nodup ∧ (∀ i, i ∈ l ↔ i ∈ g) ∧
      (∀ p q, Relation.TransGen (GEdge pool g) p q → l.indexOf p < l.indexOf q) := by
  have hroots : ∀ r ∈ Roots pool g, r ∈ g := fun r hr => (List.mem_filter.mp hr).1
  obtain ⟨s2, hs2, hinv2, _, _, hreach2⟩ :=
    tsRun_spec pool g hg hmem hclosed hacyc fuel hfuel (Roots pool g) hroots
      ⟨[], [], [], false⟩
      ⟨List.nodup_nil, fun x => Iff.rfl, fun x hx => absurd hx (List.not_mem_nil x),
        fun u hu => absurd hu (List.not_mem_nil u)⟩
      rfl
  obtain ⟨hnd2, hiff2, hsub2, hok2⟩ := hinv2
  have hcomplete : ∀ i ∈ g, i ∈ s2.sorted := by
    intro i hi
    obtain ⟨r0, hr0g, hr00, hr0r⟩ := exists_root pool g hmem hacyc hindeg i hi
    have hr0roots : r0 ∈ Roots pool g := List.mem_filter.mpr ⟨hr0g, by simp [hr00]⟩
    exact (hiff2 i).mp (hreach2 r0 hr0roots i hr0r)
  refine ⟨s2.sorted, ?_, hnd2, fun i => ⟨fun h => hsub2 i h, fun h => hcomplete i h⟩, ?_⟩
  · simp only [TopologicalSort, hs2, Option.map_some']
    rfl
  · intro p q htg
    induction htg with
    | single he => exact (hok2 p (hcomplete p he.1) _ he.2.2).2
    | tail _ he ihe => exact lt_trans ihe (hok2 _ (hcomplete _ he.1) _ he.2.2).2

theorem poolChain_acyclic : Acyclic poolChain := by
  apply acyclic_of_rank poolChain fun i => 1 - i
  intro i j h
  obtain ⟨hi, hj⟩ := h
  have hi2 : i < 2 := by simpa [poolChain] using hi
  interval_cases i
  · rw [show (getNode poolChain 0).Next = [] from rfl] at hj
    simp at hj
  · rw [show (getNode poolChain 1).Next = [0] from rfl] at hj
    simp at hj; subst hj; decide

/-! ## Generic walk lemmas for `walkRec`

Used to analyse `New` and `Validate`.  The reachability relation of a walk
is `fun a b => b ∈ next a`. -/

/-- For pool walks the step relation coincides with `Edge` (an out-of-range
index dereferences to the dummy node, which has no successors). -/
theorem edge_iff_mem_next (pool : Pool) (i j : Nat) :
    Edge pool i j ↔ j ∈ nextOf pool i := by
  constructor
  · intro h; exact h.2
  · intro h
    refine ⟨?_, h⟩
    by_contra hlen
    have : getNode pool i = dummyNode := by
      simp only [getNode]
      rw [List.getD_eq_default]
      omega
    rw [show nextOf pool i = (getNode pool i).Next from rfl, this] at h
    exact absurd h (List.not_mem_nil j)

/-- Master lemma for walks: an invariant `Inv` on the threaded state, a
call-site precondition `Pre`, and a persistent per-element property `φ`
established at every visit.  After a successful walk from `n`, the invariant
holds, old `φ` facts persist, and `φ` holds of everything reachable from
`n`. -/
theorem walkRec_spec {α σ : Type} (next : α → List α) (f : σ → α → List α → σ)
    (Inv : σ → Prop) (Pre : α → List α → Prop) (φ : σ → α → Prop)
    (hf : ∀ s n prev, Inv s → Pre n prev → Inv (f s n prev))
    (hpre : ∀ n prev m, Pre n prev → m ∈ next n → Pre m (prev ++ [n]))
    (hφmono : ∀ s n prev x, Inv s → Pre n prev → φ s x → φ (f s n prev) x)
    (hφself : ∀ s n prev, Inv s → Pre n prev → φ (f s n prev) n) :
    ∀ (fuel : Nat) (s : σ) (n : α) (prev : List α) (s2 : σ),
      walkRec next f fuel s n prev = some s2 → Inv s → Pre n prev →
      Inv s2 ∧ (∀ x, φ s x → φ s2 x) ∧
      (∀ x, Relation.ReflTransGen (fun a b => b ∈ next a) n x → φ s2 x) := by
  intro fuel
  induction fuel with
  | zero =>
    intro s n prev s2 h
    exact absurd h (by simp [walkRec])
  | succ fuel ih =>
    intro s n prev s2 h hinv hprez
    have inner : ∀ ms : List α, (∀ m ∈ ms, m ∈ next n) → ∀ t t2 : σ,
        stepList (fun a m => walkRec next f fuel a m (prev ++ [n])) t ms = some t2 →
        Inv t →
        Inv t2 ∧ (∀ x, φ t x → φ t2 x) ∧
        (∀ m ∈ ms, ∀ x, Relation.ReflTransGen (fun a b => b ∈ next a) m x → φ t2 x) := by
      intro ms
      induction ms with
      | nil =>
        intro _ t t2 ht hinvt
        cases Option.some.inj ht
        exact ⟨hinvt, fun x hx => hx, by simp⟩
      | cons m rest ihm =>
        intro hms t t2 ht hinvt
        simp only [stepList] at ht
        rcases hw : walkRec next f fuel t m (prev ++ [n]) with _ | u
        · rw [hw] at ht; exact absurd ht (by simp)
        · rw [hw] at ht
          have hprem : Pre m (prev ++ [n]) :=
            hpre n prev m hprez (hms m (List.mem_cons_self m rest))
          obtain ⟨hinvu, hmonou, hreachu⟩ := ih t m (prev ++ [n]) u hw hinvt hprem
          obtain ⟨hinvt2, hmonot2, hreacht2⟩ :=
            ihm (fun x hx => hms x (List.mem_cons_of_mem _ hx)) u t2 ht hinvu
          refine ⟨hinvt2, fun x hx => hmonot2 x (hmonou x hx), ?_⟩
          intro m2 hm2 x hx
          rcases List.mem_cons.mp hm2 with rfl | hm3
          · exact hmonot2 x (hreachu x hx)
          · exact hreacht2 m2 hm3 x hx
    simp only [walkRec] at h
    obtain ⟨hinv2, hmono2, hreach2⟩ :=
      inner (next n) (fun m hm => hm) (f s n prev) s2 h (hf s n prev hinv hprez)
    refine ⟨hinv2, fun x hx => hmono2 x (hφmono s n prev x hinv hprez hx), ?_⟩
    intro x hx
    rcases Relation.ReflTransGen.cases_head hx with heq | ⟨m, hm, hr⟩
    · cases heq
      exact hmono2 n (hφself s n prev hinv hprez)
    · exact hreach2 m hm x hr

/-- Walks terminate (succeed) on finite acyclic step graphs with fuel at
least the universe size plus one. -/
theorem walkRec_total {α σ : Type} [DecidableEq α] (next : α → List α)
    (f : σ → α → List α → σ) (U : List α) (hUnodup : U.Nodup)
    (hUC : ∀ n ∈ U, ∀ m ∈ next n, m ∈ U)
    (hacyc : ∀ a, ¬ Relation.TransGen (fun a b => b ∈ next a) a a) :
    ∀ (fuel : Nat) (s : σ) (n : α) (prev : List α),
      n ∈ U → prev.Nodup → (∀ p ∈ prev, p ∈ U) →
      (∀ p ∈ prev, Relation.TransGen (fun a b => b ∈ next a) p n) →
      U.length + 1 ≤ fuel + prev.length →
      ∃ s2, walkRec next f fuel s n prev = some s2 := by
  intro fuel
  induction fuel with
  | zero =>
    intro s n prev hn hnd hsub hanc hfuel
    exfalso
    have h1 : prev.Subperm U := List.subperm_of_subset hnd fun x hx => hsub x hx
    have h2 := h1.length_le
    omega
  | succ fuel ih =>
    intro s n prev hn hnd hsub hanc hfuel
    have hnotmem : n ∉ prev := fun h => hacyc n (hanc n h)
    have inner : ∀ ms : List α, (∀ m ∈ ms, m ∈ next n) → ∀ t : σ,
        ∃ t2, stepList (fun a m => walkRec next f fuel a m (prev ++ [n])) t ms = some t2 := by
      intro ms
      induction ms with
      | nil => intro _ t; exact ⟨t, rfl⟩
      | cons m rest ihm =>
        intro hms t
        have hmnext : m ∈ next n := hms m (List.mem_cons_self m rest)
        have hmU : m ∈ U := hUC n hn m hmnext
        have hnd2 : (prev ++ [n]).Nodup := by
          rw [List.nodup_append]
          exact ⟨hnd, List.nodup_singleton n, by simpa using hnotmem⟩
        have hsub2 : ∀ p ∈ prev ++ [n], p ∈ U := by
          intro p hp
          rcases List.mem_append.mp hp with hp2 | hp2
          · exact hsub p hp2
          · rw [List.mem_singleton.mp hp2]; exact hn
        have hanc2 : ∀ p ∈ prev ++ [n],
            Relation.TransGen (fun a b => b ∈ next a) p m := by
          intro p hp
          rcases List.mem_append.mp hp with hp2 | hp2
          · exact (hanc p hp2).tail hmnext
          · rw [List.mem_singleton.mp hp2]
            exact Relation.TransGen.single hmnext
        obtain ⟨u, hu⟩ := ih t m (prev ++ [n]) hmU hnd2 hsub2 hanc2
          (by simp only [List.length_append, List.length_singleton]; omega)
        obtain ⟨t2, ht2⟩ := ihm (fun x hx => hms x (List.mem_cons_of_mem _ hx)) u
        exact ⟨t2, by simp only [stepList, hu]; exact ht2⟩
    simp only [walkRec]
    exact inner (next n) (fun m hm => hm) (f s n prev)

/-- Folding a walk over a list of start nodes (the entry loop of `New`, the
root loops of `Walk`): combined totality and specification. -/
theorem foldWalk {α σ : Type} [DecidableEq α] (next : α → List α)
    (f : σ → α → List α → σ) (Inv : σ → Prop) (Pre : α → List α → Prop)
    (φ : σ → α → Prop) (U : List α) (fuel : Nat)
    (hUnodup : U.Nodup)
    (hUC : ∀ n ∈ U, ∀ m ∈ next n, m ∈ U)
    (hacyc : ∀ a, ¬ Relation.TransGen (fun a b => b ∈ next a) a a)
    (hfuel : U.length + 1 ≤ fuel)
    (hf : ∀ s n prev, Inv s → Pre n prev → Inv (f s n prev))
    (hpre : ∀ n prev m, Pre n prev → m ∈ next n → Pre m (prev ++ [n]))
    (hφmono : ∀ s n prev x, Inv s → Pre n prev → φ s x → φ (f s n prev) x)
    (hφself : ∀ s n prev, Inv s → Pre n prev → φ (f s n prev) n) :
    ∀ (rts : List α) (s : σ), (∀ r ∈ rts, r ∈ U ∧ Pre r []) → Inv s →
      ∃ s2, rts.foldlM (fun t r => walkRec next f fuel t r []) s = some s2 ∧
        Inv s2 ∧ (∀ x, φ s x → φ s2 x) ∧
        (∀ r ∈ rts, ∀ x, Relation.ReflTransGen (fun a b => b ∈ next a) r x → φ s2 x) := by
  intro rts
  induction rts with
  | nil =>
    intro s _ hinv
    exact ⟨s, rfl, hinv, fun x hx => hx, by simp⟩
  | cons r rest ihr =>
    intro s hrts hinv
    obtain ⟨hrU, hrPre⟩ := hrts r (List.mem_cons_self r rest)
    obtain ⟨s1, hs1⟩ := walkRec_total next f U hUnodup hUC hacyc fuel s r []
      hrU List.nodup_nil (by simp) (by simp) (by simp; omega)
    obtain ⟨hinv1, hmono1, hreach1⟩ :=
      walkRec_spec next f Inv Pre φ hf hpre hφmono hφself fuel s r [] s1 hs1 hinv hrPre
    obtain ⟨s2, hs2, hinv2, hmono2, hreach2⟩ :=
      ihr s1 (fun x hx => hrts x (List.mem_cons_of_mem _ hx)) hinv1
    refine ⟨s2, ?_, hinv2, fun x hx => hmono2 x (hmono1 x hx), ?_⟩
    · simp only [List.foldlM_cons, hs1, Option.bind_some]
      exact hs2
    · intro r2 hr2 x hx
      rcases List.mem_cons.mp hr2 with rfl | hr3
      · exact hmono2 x (hreach1 x hx)
      · exact hreach2 r2 hr3 x hx

/-! ## C1 (amended part): soundness of the connectivity marks

Everything `Validate` marks as connected really is weakly connected, so a
weakly disconnected acyclic input is always rejected with `Disconnected`.
IDs are translated back to pool indices through `decode`, assuming all pool
IDs distinct. -/

/-- All node identities in the pool are distinct. -/
def UniqueIDs (pool : Pool) : Prop :=
  ∀ i < pool.length, ∀ j < pool.length,
    (getNode pool i).ID = (getNode pool j).ID → i = j

instance (pool : Pool) : Decidable (UniqueIDs pool) := by
  unfold UniqueIDs; infer_instance

/-- The string `a` is the identity of some pool node. -/
def ValidID (pool : Pool) (a : String) : Prop :=
  ∃ k, k < pool.length ∧ (getNode pool k).ID = a

/-- The index of the (unique) pool node with identity `a`. -/
def decode (pool : Pool) (a : String) : Nat :=
  ((List.range pool.length).find? fun i => (getNode pool i).ID = a).getD pool.length

theorem decode_eq (pool : Pool) (hids : UniqueIDs pool) (k : Nat) (a : String)
    (hk : k < pool.length) (ha : (getNode pool k).ID = a) : decode pool a = k := by
  unfold decode
  rcases hfind : (List.range pool.length).find? fun i => (getNode pool i).ID = a with _ | i
  · exfalso
    have := List.find?_eq_none.mp hfind k (List.mem_range.mpr hk)
    simp [ha] at this
  · have hpred := List.find?_some hfind
    have hmem := List.mem_of_find?_eq_some hfind
    have hilen := List.mem_range.mp hmem
    have hid : (getNode pool i).ID = a := by simpa using hpred
    have : i = k := hids i hilen k hk (hid.trans ha.symm)
    simp [this]

theorem validID_decode (pool : Pool) (hids : UniqueIDs pool) (a : String)
    (ha : ValidID pool a) :
    decode pool a < pool.length ∧ (getNode pool (decode pool a)).ID = a := by
  obtain ⟨k, hk, hka⟩ := ha
  rw [decode_eq pool hids k a hk hka]
  exact ⟨hk, hka⟩

/-- Soundness predicate for the connectivity table: every marked pair of IDs
is a pair of real node identities whose nodes are weakly connected. -/
def TSound (pool : Pool) (T : List (String × String)) : Prop :=
  ∀ pr ∈ T, ValidID pool pr.1 ∧ ValidID pool pr.2 ∧
    WeakConn pool (decode pool pr.1) (decode pool pr.2)

theorem addPair_mem (T : List (String × String)) (a b : String)
    (x : String × String) : x ∈ addPair T a b ↔ x ∈ T ∨ x = (a, b) := by
  unfold addPair
  by_cases h : (a, b) ∈ T
  · simp only [if_pos h]
    constructor
    · exact Or.inl
    · rintro (hx | rfl)
      exacts [hx, h]
  · simp [if_neg h]

theorem addPair_sound (pool : Pool) (T : List (String × String)) (a b : String)
    (hT : TSound pool T) (ha : ValidID pool a) (hb : ValidID pool b)
    (hconn : WeakConn pool (decode pool a) (decode pool b)) :
    TSound pool (addPair T a b) := by
  intro pr hpr
  rcases (addPair_mem T a b pr).mp hpr with h | rfl
  · exact hT pr h
  · exact ⟨ha, hb, hconn⟩

theorem connOf_mem (T : List (String × String)) (a x : String)
    (hx : x ∈ connOf T a) : (a, x) ∈ T := by
  unfold connOf at hx
  obtain ⟨p, hp, heq⟩ := List.mem_filterMap.mp hx
  by_cases h : p.1 = a
  · rw [if_pos h] at heq
    have : p = (a, x) := by
      cases p
      simp only [Option.some.inj heq.symm]
      simp_all
    rw [← this]; exact hp
  · rw [if_neg h] at heq
    exact absurd heq (by simp)

theorem foldl_addPair_sound (pool : Pool) (q : String) (hq : ValidID pool q) :
    ∀ (l : List String) (T : List (String × String)), TSound pool T →
      (∀ x ∈ l, ValidID pool x ∧ WeakConn pool (decode pool q) (decode pool x)) →
      TSound pool (l.foldl (fun t x => addPair t q x) T) := by
  intro l
  induction l with
  | nil => intro T hT _; exact hT
  | cons x xs ihx =>
    intro T hT hl
    simp only [List.foldl_cons]
    refine ihx (addPair T q x) ?_ fun y hy => hl y (List.mem_cons_of_mem _ hy)
    obtain ⟨hvx, hcx⟩ := hl x (List.mem_cons_self x xs)
    exact addPair_sound pool T q x hT hq hvx hcx

/-- The central marking step preserves soundness. -/
theorem propagate_sound (pool : Pool) (T : List (String × String)) (c p : String)
    (hT : TSound pool T) (hc : ValidID pool c) (hp : ValidID pool p)
    (hconn : WeakConn pool (decode pool c) (decode pool p)) :
    TSound pool (propagate T c p) := by
  unfold propagate
  have hT1 : TSound pool (addPair (addPair T c p) p c) :=
    addPair_sound pool _ p c (addPair_sound pool T c p hT hc hp hconn) hp hc
      (weakConn_symm pool hconn)
  have hT2 : TSound pool ((connOf (addPair (addPair T c p) p c) c).foldl
      (fun t x => addPair t p x) (addPair (addPair T c p) p c)) := by
    refine foldl_addPair_sound pool p hp _ _ hT1 ?_
    intro x hx
    obtain ⟨_, hvx, hcx⟩ := hT1 (c, x) (connOf_mem _ c x hx)
    exact ⟨hvx, weakConn_trans pool (weakConn_symm pool hconn) hcx⟩
  refine foldl_addPair_sound pool c hc _ _ hT2 ?_
  intro x hx
  obtain ⟨_, hvx, hcx⟩ := hT2 (p, x) (connOf_mem _ p x hx)
  exact ⟨hvx, weakConn_trans pool hconn hcx⟩

theorem getNode_mem (pool : Pool) (i : Nat) (h : i < pool.length) :
    getNode pool i ∈ pool := by
  unfold getNode
  rw [List.getD_eq_getElem pool dummyNode h]
  exact List.getElem_mem h

theorem nextOf_lt (pool : Pool) (hwf : PoolWF pool) (n m : Nat)
    (hn : n < pool.length) (hm : m ∈ nextOf pool n) : m < pool.length :=
  hwf (getNode pool n) (getNode_mem pool n hn) m hm

theorem relStep_acyclic (pool : Pool) (hacyc : Acyclic pool) :
    ∀ a, ¬ Relation.TransGen (fun a b => b ∈ nextOf pool a) a a :=
  fun a ha =>
    hacyc a (Relation.TransGen.mono (fun x y h => (edge_iff_mem_next pool x y).mpr h) ha)

theorem weakConn_of_relpath (pool : Pool) {p n : Nat}
    (h : Relation.ReflTransGen (fun a b => b ∈ nextOf pool a) p n) :
    WeakConn pool p n :=
  Relation.ReflTransGen.mono
    (fun x y hxy => Or.inl ((edge_iff_mem_next pool x y).mpr hxy)) h

/-- `buildGraph` (the discovery loop of `New`) terminates on acyclic pools
and collects at least everything reachable from an entry. -/
theorem buildGraph_spec (pool : Pool) (hwf : PoolWF pool) (hids : UniqueIDs pool)
    (hacyc : Acyclic pool) (fuel : Nat) (hfuel : pool.length + 1 ≤ fuel)
    (entries : List Nat) (hentries : ∀ e ∈ entries, e < pool.length) :
    ∃ g, buildGraph pool fuel entries = some g ∧
      (∀ i ∈ g, i < pool.length) ∧
      (∀ e ∈ entries, ∀ x,
        Relation.ReflTransGen (fun a b => b ∈ nextOf pool a) e x → x ∈ g) := by
  obtain ⟨g, hg, hinv, _, hreach⟩ :=
    foldWalk (nextOf pool) (buildStep pool)
      (fun g => ∀ i ∈ g, i < pool.length)
      (fun n _ => n < pool.length)
      (fun g x => x ∈ g)
      (List.range pool.length) fuel
      (List.nodup_range pool.length)
      (fun n hn m hm => List.mem_range.mpr
        (nextOf_lt pool hwf n m (List.mem_range.mp hn) hm))
      (relStep_acyclic pool hacyc)
      (by simp only [List.length_range]; omega)
      (fun s n prev hs hn => by
        unfold buildStep
        by_cases h : s.any fun i => (getNode pool i).ID = (getNode pool n).ID
        · rw [if_pos h]; exact hs
        · rw [if_neg h]
          intro i hi
          rcases List.mem_append.mp hi with h2 | h2
          · exact hs i h2
          · rw [List.mem_singleton.mp h2]; exact hn)
      (fun n prev m hn hm => nextOf_lt pool hwf n m hn hm)
      (fun s n prev x hs hn hx => by
        unfold buildStep
        by_cases h : s.any fun i => (getNode pool i).ID = (getNode pool n).ID
        · rw [if_pos h]; exact hx
        · rw [if_neg h]; exact List.mem_append_left _ hx)
      (fun s n prev hs hn => by
        unfold buildStep
        by_cases h : s.any fun i => (getNode pool i).ID = (getNode pool n).ID
        · rw [if_pos h]
          obtain ⟨i, hi, hid⟩ := List.any_eq_true.mp h
          have hid2 : (getNode pool i).ID = (getNode pool n).ID := by simpa using hid
          have : i = n := hids i (hs i hi) n hn hid2
          rw [← this]; exact hi
        · rw [if_neg h]; exact List.mem_append_right _ (List.mem_singleton_self n))
      entries []
      (fun e he => ⟨List.mem_range.mpr (hentries e he), hentries e he⟩)
      (fun i hi => absurd hi (List.not_mem_nil i))
  exact ⟨g, hg, hinv, hreach⟩

/-- The forward-pass marking callback preserves soundness of the table. -/
theorem markFwd_sound (pool : Pool) (hids : UniqueIDs pool) (current : Nat)
    (hcur : current < pool.length) :
    ∀ (prev : List Nat) (T : List (String × String)), TSound pool T →
      (∀ p ∈ prev, p < pool.length ∧
        Relation.ReflTransGen (fun a b => b ∈ nextOf pool a) p current) →
      TSound pool (markFwd pool current T prev) := by
  intro prev
  induction prev with
  | nil => intro T hT _; exact hT
  | cons p ps ihp =>
    intro T hT hprev
    simp only [markFwd]
    by_cases hid : (getNode pool current).ID = (getNode pool p).ID
    · rw [if_pos hid]; exact hT
    · rw [if_neg hid]
      obtain ⟨hplen, hppath⟩ := hprev p (List.mem_cons_self p ps)
      refine ihp _ ?_ fun q hq => hprev q (List.mem_cons_of_mem _ hq)
      refine propagate_sound pool T _ _ hT ⟨current, hcur, rfl⟩ ⟨p, hplen, rfl⟩ ?_
      rw [decode_eq pool hids current _ hcur rfl, decode_eq pool hids p _ hplen rfl]
      exact weakConn_symm pool (weakConn_of_relpath pool hppath)

/-- The forward connectivity pass terminates and only marks weakly
connected pairs. -/
theorem fwdPass_spec (pool : Pool) (hwf : PoolWF pool) (hids : UniqueIDs pool)
    (hacyc : Acyclic pool) (fuel : Nat) (hfuel : pool.length + 1 ≤ fuel)
    (g : List Nat) (hg : ∀ i ∈ g, i < pool.length) :
    ∃ T1, fwdPass pool fuel g = some T1 ∧ TSound pool T1 := by
  obtain ⟨T1, hT1, hsound, -, -⟩ :=
    foldWalk (nextOf pool) (fun T c prev => markFwd pool c T prev)
      (TSound pool)
      (fun n prev => n < pool.length ∧ ∀ p ∈ prev, p < pool.length ∧
        Relation.ReflTransGen (fun a b => b ∈ nextOf pool a) p n)
      (fun _ _ => True)
      (List.range pool.length) fuel
      (List.nodup_range pool.length)
      (fun n hn m hm => List.mem_range.mpr
        (nextOf_lt pool hwf n m (List.mem_range.mp hn) hm))
      (relStep_acyclic pool hacyc)
      (by simp only [List.length_range]; omega)
      (fun T n prev hT hPre => markFwd_sound pool hids n hPre.1 prev T hT hPre.2)
      (fun n prev m hPre hm => by
        refine ⟨nextOf_lt pool hwf n m hPre.1 hm, ?_⟩
        intro p hp
        rcases List.mem_append.mp hp with h2 | h2
        · obtain ⟨hpl, hpp⟩ := hPre.2 p h2
          exact ⟨hpl, hpp.tail hm⟩
        · rw [List.mem_singleton.mp h2]
          exact ⟨hPre.1, Relation.ReflTransGen.single hm⟩)
      (fun _ _ _ _ _ _ h => h)
      (fun _ _ _ _ _ => trivial)
      (Roots pool g) []
      (fun r hr => by
        have hrg : r ∈ g := (List.mem_filter.mp hr).1
        exact ⟨List.mem_range.mpr (hg r hrg), hg r hrg,
          fun p hp => absurd hp (List.not_mem_nil p)⟩)
      (fun pr hpr => absurd hpr (List.not_mem_nil pr))
  exact ⟨T1, hT1, hsound⟩

/-- Structural soundness of the reversed graph under construction: every key
is a real identity and every reversed edge `a → b` is the reversal of a real
pool edge `decode b → decode a`. -/
def RevOK (pool : Pool) (rev : List (String × List String)) : Prop :=
  (∀ e ∈ rev, ValidID pool e.1) ∧
  (∀ e ∈ rev, ∀ b ∈ e.2, ValidID pool b ∧
    Edge pool (decode pool b) (decode pool e.1))

theorem revAddNode_ok (pool : Pool) (rev : List (String × List String))
    (a : String) (hrev : RevOK pool rev) (ha : ValidID pool a) :
    RevOK pool (revAddNode rev a) := by
  unfold revAddNode
  by_cases h : rev.any fun p => p.1 = a
  · rw [if_pos h]; exact hrev
  · rw [if_neg h]
    constructor
    · intro e he
      rcases List.mem_append.mp he with h2 | h2
      · exact hrev.1 e h2
      · rw [List.mem_singleton.mp h2]; exact ha
    · intro e he b hb
      rcases List.mem_append.mp he with h2 | h2
      · exact hrev.2 e h2 b hb
      · rw [List.mem_singleton.mp h2] at hb
        exact absurd hb (List.not_mem_nil b)

theorem revAddEdge_ok (pool : Pool) (rev : List (String × List String))
    (a b : String) (hrev : RevOK pool rev) (hb : ValidID pool b)
    (hedge : Edge pool (decode pool b) (decode pool a)) :
    RevOK pool (revAddEdge rev a b) := by
  unfold revAddEdge
  constructor
  · intro e he
    obtain ⟨e0, he0, heq⟩ := List.mem_map.mp he
    have h1 : e.1 = e0.1 := by
      by_cases h : e0.1 = a <;> simp [h, ← heq]
    rw [h1]
    exact hrev.1 e0 he0
  · intro e he c hc
    obtain ⟨e0, he0, heq⟩ := List.mem_map.mp he
    by_cases h : e0.1 = a
    · rw [if_pos h] at heq
      rw [← heq] at hc ⊢
      simp only at hc ⊢
      rcases List.mem_append.mp hc with h2 | h2
      · exact hrev.2 e0 he0 c h2
      · rw [List.mem_singleton.mp h2, h]
        exact ⟨hb, hedge⟩
    · rw [if_neg h] at heq
      rw [← heq] at hc ⊢
      exact hrev.2 e0 he0 c hc

/-- The `Reversed` construction callback preserves `RevOK`. -/
theorem revStep_ok (pool : Pool) (hids : UniqueIDs pool)
    (rev : List (String × List String)) (current : Nat) (prev : List Nat)
    (hrev : RevOK pool rev) (hcur : current < pool.length)
    (hlast : ∀ parent, prev.getLast? = some parent →
      parent < pool.length ∧ Edge pool parent current) :
    RevOK pool (revStep pool rev current prev) := by
  have h1 := revAddNode_ok pool rev (getNode pool current).ID hrev ⟨current, hcur, rfl⟩
  rcases hl : prev.getLast? with _ | parent
  · have hstep : revStep pool rev current prev =
        revAddNode rev (getNode pool current).ID := by
      unfold revStep; rw [hl]
    rw [hstep]
    exact h1
  · have hstep : revStep pool rev current prev =
        (if (getNode pool parent).ID ∈
            revLookup (revAddNode rev (getNode pool current).ID) (getNode pool current).ID
          then revAddNode rev (getNode pool current).ID
          else revAddEdge (revAddNode rev (getNode pool current).ID)
            (getNode pool current).ID (getNode pool parent).ID) := by
      unfold revStep; rw [hl]
    rw [hstep]
    obtain ⟨hplen, hpedge⟩ := hlast parent hl
    by_cases h : (getNode pool parent).ID ∈
        revLookup (revAddNode rev (getNode pool current).ID) (getNode pool current).ID
    · rw [if_pos h]; exact h1
    · rw [if_neg h]
      refine revAddEdge_ok pool _ _ _ h1 ⟨parent, hplen, rfl⟩ ?_
      rw [decode_eq pool hids parent _ hplen rfl,
        decode_eq pool hids current _ hcur rfl]
      exact hpedge

/-- The reversed graph is built successfully and satisfies `RevOK`. -/
theorem buildReversed_spec (pool : Pool) (hwf : PoolWF pool)
    (hids : UniqueIDs pool) (hacyc : Acyclic pool) (fuel : Nat)
    (hfuel : pool.length + 1 ≤ fuel) (g : List Nat)
    (hg : ∀ i ∈ g, i < pool.length) :
    ∃ rev, buildReversed pool fuel g = some rev ∧ RevOK pool rev := by
  obtain ⟨rev, hrev, hok, -, -⟩ :=
    foldWalk (nextOf pool) (revStep pool)
      (RevOK pool)
      (fun n prev => n < pool.length ∧ ∀ parent, prev.getLast? = some parent →
        parent < pool.length ∧ Edge pool parent n)
      (fun _ _ => True)
      (List.range pool.length) fuel
      (List.nodup_range pool.length)
      (fun n hn m hm => List.mem_range.mpr
        (nextOf_lt pool hwf n m (List.mem_range.mp hn) hm))
      (relStep_acyclic pool hacyc)
      (by simp only [List.length_range]; omega)
      (fun s n prev hs hPre => revStep_ok pool hids s n prev hs hPre.1 hPre.2)
      (fun n prev m hPre hm => by
        refine ⟨nextOf_lt pool hwf n m hPre.1 hm, ?_⟩
        intro parent hp
        rw [List.getLast?_append] at hp
        · rw [Option.some.inj hp.symm]
          exact ⟨hPre.1, (edge_iff_mem_next pool n m).mpr hm⟩)
      (fun _ _ _ _ _ _ h => h)
      (fun _ _ _ _ _ => trivial)
      (Roots pool g) []
      (fun r hr => by
        have hrg : r ∈ g := (List.mem_filter.mp hr).1
        refine ⟨List.mem_range.mpr (hg r hrg), hg r hrg, ?_⟩
        intro parent hp
        exact absurd hp (by simp))
      ⟨fun e he => absurd he (List.not_mem_nil e),
        fun e he => absurd he (List.not_mem_nil e)⟩
  exact ⟨rev, hrev, hok⟩

/-- Membership in `revLookup` decodes to a reversed pool edge. -/
theorem revLookup_sound (pool : Pool) (rev : List (String × List String))
    (hrev : RevOK pool rev) (a b : String) (hb : b ∈ revLookup rev a) :
    ValidID pool a ∧ ValidID pool b ∧
      Edge pool (decode pool b) (decode pool a) := by
  unfold revLookup at hb
  rcases hf : rev.find? fun p => p.1 = a with _ | e
  · rw [hf] at hb
    exact absurd hb (List.not_mem_nil b)
  · rw [hf] at hb
    simp only [Option.map_some', Option.getD_some] at hb
    have hpred : e.1 = a := by simpa using List.find?_some hf
    have hmem := List.mem_of_find?_eq_some hf
    obtain ⟨hvb, hedge⟩ := hrev.2 e hmem b hb
    rw [hpred] at hedge
    exact ⟨hpred ▸ hrev.1 e hmem, hvb, hedge⟩

/-- The reversed step graph is acyclic. -/
theorem revNext_acyclic (pool : Pool) (hacyc : Acyclic pool)
    (rev : List (String × List String)) (hrev : RevOK pool rev) :
    ∀ a, ¬ Relation.TransGen (fun a b => b ∈ revLookup rev a) a a := by
  have key : ∀ a b, Relation.TransGen (fun a b => b ∈ revLookup rev a) a b →
      Relation.TransGen (Edge pool) (decode pool b) (decode pool a) := by
    intro a b h
    induction h with
    | single h1 => exact Relation.TransGen.single (revLookup_sound pool rev hrev _ _ h1).2.2
    | tail _ h2 ih =>
      exact Relation.TransGen.head (revLookup_sound pool rev hrev _ _ h2).2.2 ih
  intro a ha
  exact hacyc _ (key a a ha)

/-- Universe for the reversed walk: all keys and all edge targets. -/
def revUniverse (rev : List (String × List String)) : List String :=
  (rev.map Prod.fst ++ rev.flatMap Prod.snd).dedup

theorem revUniverse_closed (rev : List (String × List String)) :
    ∀ n ∈ revUniverse rev, ∀ m ∈ revLookup rev n, m ∈ revUniverse rev := by
  intro n _ m hm
  unfold revLookup at hm
  rcases hf : rev.find? fun p => p.1 = n with _ | e
  · rw [hf] at hm
    exact absurd hm (List.not_mem_nil m)
  · rw [hf] at hm
    simp only [Option.map_some', Option.getD_some] at hm
    have hmem := List.mem_of_find?_eq_some hf
    exact List.mem_dedup.mpr (List.mem_append_right _
      (List.mem_flatMap.mpr ⟨e, hmem, hm⟩))

theorem revUniverse_length (pool : Pool) (hids : UniqueIDs pool)
    (rev : List (String × List String)) (hrev : RevOK pool rev) :
    (revUniverse rev).length ≤ pool.length := by
  have hvalid : ∀ a ∈ revUniverse rev, ValidID pool a := by
    intro a ha
    rcases List.mem_append.mp (List.mem_dedup.mp ha) with h | h
    · obtain ⟨e, he, heq⟩ := List.mem_map.mp h
      exact heq ▸ hrev.1 e he
    · obtain ⟨e, he, hb⟩ := List.mem_flatMap.mp h
      exact (hrev.2 e he a hb).1
  have hinj : ∀ x ∈ revUniverse rev, ∀ y ∈ revUniverse rev,
      decode pool x = decode pool y → x = y := by
    intro x hx y hy heq
    obtain ⟨hxl, hxid⟩ := validID_decode pool hids x (hvalid x hx)
    obtain ⟨-, hyid⟩ := validID_decode pool hids y (hvalid y hy)
    rw [← hxid, ← hyid, heq]
  have hnd : ((revUniverse rev).map (decode pool)).Nodup :=
    (List.nodup_dedup _).map_on hinj
  have hsub : ((revUniverse rev).map (decode pool)).Subperm (List.range pool.length) := by
    refine List.subperm_of_subset hnd ?_
    intro x hx
    obtain ⟨a, ha, heq⟩ := List.mem_map.mp hx
    exact heq ▸ List.mem_range.mpr (validID_decode pool hids a (hvalid a ha)).1
  have := hsub.length_le
  simpa using this

/-- The reversed-pass marking callback preserves soundness of the table. -/
theorem markRev_sound (pool : Pool) (c : String) (hc : ValidID pool c) :
    ∀ (prev : List String) (T : List (String × String)), TSound pool T →
      (∀ p ∈ prev, ValidID pool p ∧
        WeakConn pool (decode pool p) (decode pool c)) →
      TSound pool (markRev T c prev) := by
  intro prev
  induction prev with
  | nil => intro T hT _; exact hT
  | cons p ps ihp =>
    intro T hT hprev
    simp only [markRev, List.foldl_cons]
    have hstep : TSound pool (propagate T c p) := by
      obtain ⟨hvp, hcp⟩ := hprev p (List.mem_cons_self p ps)
      exact propagate_sound pool T c p hT hc hvp (weakConn_symm pool hcp)
    have := ihp (propagate T c p) hstep fun q hq => hprev q (List.mem_cons_of_mem _ hq)
    simpa [markRev] using this

/-- The reversed pass terminates and keeps the table sound. -/
theorem revPass_spec (pool : Pool) (hids : UniqueIDs pool) (hacyc : Acyclic pool)
    (fuel : Nat) (hfuel : pool.length + 1 ≤ fuel)
    (rev : List (String × List String)) (hrev : RevOK pool rev)
    (T1 : List (String × String)) (hT1 : TSound pool T1) :
    ∃ T2, revPass rev fuel T1 = some T2 ∧ TSound pool T2 := by
  obtain ⟨T2, hT2, hsound, -, -⟩ :=
    foldWalk (revLookup rev) (fun T c prev => markRev T c prev)
      (TSound pool)
      (fun a prev => ValidID pool a ∧ ∀ p ∈ prev, ValidID pool p ∧
        WeakConn pool (decode pool p) (decode pool a))
      (fun _ _ => True)
      (revUniverse rev) fuel
      (List.nodup_dedup _)
      (revUniverse_closed rev)
      (revNext_acyclic pool hacyc rev hrev)
      (by have := revUniverse_length pool hids rev hrev; omega)
      (fun T a prev hT hPre => markRev_sound pool a hPre.1 prev T hT hPre.2)
      (fun a prev m hPre hm => by
        obtain ⟨hva, hvm, hedge⟩ := revLookup_sound pool rev hrev a m hm
        have ham : WeakConn pool (decode pool a) (decode pool m) :=
          Relation.ReflTransGen.single (Or.inr hedge)
        refine ⟨hvm, ?_⟩
        intro p hp
        rcases List.mem_append.mp hp with h2 | h2
        · obtain ⟨hvp, hcp⟩ := hPre.2 p h2
          exact ⟨hvp, weakConn_trans pool hcp ham⟩
        · rw [List.mem_singleton.mp h2]
          exact ⟨hva, ham⟩)
      (fun _ _ _ _ _ _ h => h)
      (fun _ _ _ _ _ => trivial)
      (rev.map Prod.fst) T1
      (fun r hr => by
        obtain ⟨e, he, heq⟩ := List.mem_map.mp hr
        refine ⟨List.mem_dedup.mpr (List.mem_append_left _ hr), heq ▸ hrev.1 e he, ?_⟩
        intro p hp
        exact absurd hp (List.not_mem_nil p))
      hT1
  exact ⟨T2, hT2, hsound⟩

/-- If some distinct-ID pair of graph members is unmarked, the final scan
reports a disconnection. -/
theorem scan_true (pool : Pool) (g : List Nat) (T : List (String × String))
    (u v : Nat) (hu : u ∈ g) (hv : v ∈ g)
    (hne : (getNode pool u).ID ≠ (getNode pool v).ID)
    (hnotin : ((getNode pool u).ID, (getNode pool v).ID) ∉ T) :
    scanDisconnected pool g T = true := by
  unfold scanDisconnected
  rw [List.any_eq_true]
  refine ⟨u, hu, ?_⟩
  rw [List.any_eq_true]
  refine ⟨v, hv, ?_⟩
  simp only [decide_eq_true_eq]
  exact ⟨hne, hnotin⟩

/-- `Validate` rejects any graph containing two weakly unconnected members
with the `Disconnected` error (soundness of the marks: every marked pair is
really weakly connected, and the scan finds the unmarked pair). -/
theorem validate_disconnected (pool : Pool) (hwf : PoolWF pool)
    (hids : UniqueIDs pool) (hacyc : Acyclic pool) (fuel : Nat)
    (hfuel : pool.length + 1 ≤ fuel) (g : List Nat)
    (hg : ∀ i ∈ g, i < pool.length)
    (u v : Nat) (hu : u ∈ g) (hv : v ∈ g) (hnc : ¬ WeakConn pool u v) :
    Validate pool fuel g = some (some GErr.Disconnected) := by
  obtain ⟨T1, hT1, hT1s⟩ := fwdPass_spec pool hwf hids hacyc fuel hfuel g hg
  obtain ⟨rev, hrev, hrevok⟩ := buildReversed_spec pool hwf hids hacyc fuel hfuel g hg
  obtain ⟨T2, hT2, hT2s⟩ := revPass_spec pool hids hacyc fuel hfuel rev hrevok T1 hT1s
  have hune : u ≠ v := fun h => hnc (h ▸ Relation.ReflTransGen.refl)
  have hidne : (getNode pool u).ID ≠ (getNode pool v).ID :=
    fun h => hune (hids u (hg u hu) v (hg v hv) h)
  have hnotin : ((getNode pool u).ID, (getNode pool v).ID) ∉ T2 := by
    intro hin
    obtain ⟨-, -, hconn⟩ := hT2s _ hin
    rw [decode_eq pool hids u _ (hg u hu) rfl,
      decode_eq pool hids v _ (hg v hv) rfl] at hconn
    exact hnc hconn
  simp only [Validate, hT1, hrev, hT2,
    scan_true pool g T2 u v hu hv hidne hnotin, if_true]

/-- C1 (amended): for every cycle-free input (distinct identities, edges in
range) containing two reachable nodes with no undirected path between them,
construction fails with the Disconnected error.  (The original claim's other
direction is false: see the counterexample — `Validate` also rejects some
weakly connected inputs.) -/
theorem C1_disconnected_rejected_amended (pool : Pool) (entries : List Nat)
    (fuel u v : Nat)
    (hwf : PoolWF pool) (hids : UniqueIDs pool) (hacyc : Acyclic pool)
    (hentries : ∀ e ∈ entries, e < pool.length)
    (hu : ∃ e ∈ entries, Relation.ReflTransGen (fun a b => b ∈ nextOf pool a) e u)
    (hv : ∃ e ∈ entries, Relation.ReflTransGen (fun a b => b ∈ nextOf pool a) e v)
    (hnc : ¬ WeakConn pool u v)
    (hfuel : pool.length + 1 ≤ fuel) :
    New pool fuel entries = some (Except.error GErr.Disconnected) := by
  obtain ⟨g, hgeq, hglen, hreach⟩ :=
    buildGraph_spec pool hwf hids hacyc fuel hfuel entries hentries
  obtain ⟨e1, he1, hr1⟩ := hu
  obtain ⟨e2, he2, hr2⟩ := hv
  have hug : u ∈ g := hreach e1 he1 u hr1
  have hvg : v ∈ g := hreach e2 he2 v hr2
  have hval := validate_disconnected pool hwf hids hacyc fuel hfuel g hglen u v hug hvg hnc
  simp only [New, hgeq, hval]

/-- Two isolated nodes (the repository's own graph_test.go "disconnect"
case). -/
def poolDisc : Pool := [mkN "a" [] (Constant 1) 0, mkN "b" [] (Constant 2) 0]

theorem poolDisc_next : ∀ c, (getNode poolDisc c).Next = [] := by
  intro c
  match c with
  | 0 => rfl
  | 1 => rfl
  | (n+2) => rfl

theorem poolDisc_not_conn : ¬ WeakConn poolDisc 0 1 := by
  intro h
  rcases Relation.ReflTransGen.cases_head h with heq | ⟨c, hc, -⟩
  · exact absurd heq (by decide)
  · rcases hc with h1 | h1
    · have h2 := h1.2
      rw [poolDisc_next 0] at h2
      exact absurd h2 (List.not_mem_nil c)
    · have h2 := h1.2
      rw [poolDisc_next c] at h2
      exact absurd h2 (List.not_mem_nil 0)

theorem poolDisc_acyclic : Acyclic poolDisc := by
  apply acyclic_of_rank poolDisc id
  intro i j h
  have h2 := h.2
  rw [poolDisc_next i] at h2
  exact absurd h2 (List.not_mem_nil j)

/-- Witness for the amended C1: two isolated entry nodes are rejected with
the Disconnected error. -/
theorem C1_disconnected_rejected_amended_witness :
    (PoolWF poolDisc ∧ UniqueIDs poolDisc ∧
      (∀ e ∈ ([0, 1] : List Nat), e < poolDisc.length) ∧
      ¬ WeakConn poolDisc 0 1 ∧ poolDisc.length + 1 ≤ 10) ∧
    New poolDisc 10 [0, 1] = some (Except.error GErr.Disconnected) :=
  ⟨⟨by decide, by decide, by decide, poolDisc_not_conn, by decide⟩,
    C1_disconnected_rejected_amended poolDisc [0, 1] 10 0 1 (by decide) (by decide)
      poolDisc_acyclic (by decide)
      ⟨0, by decide, Relation.ReflTransGen.refl⟩
      ⟨1, by decide, Relation.ReflTransGen.refl⟩
      poolDisc_not_conn (by decide)⟩

/-! ## List bookkeeping lemmas for the evaluation machine -/

/-- Updating one position shifts a mapped sum by the difference of images
(subtraction-free form). -/
theorem map_sum_set {α M : Type} [AddCommMonoid M] (f : α → M) :
    ∀ (l : List α) (w : Nat) (a : α), w < l.length →
      ((l.set w a).map f).sum + f (l.getD w a) = (l.map f).sum + f a := by
  intro l
  induction l with
  | nil => intro w a hw; simp at hw
  | cons x xs ih =>
    intro w a hw
    match w with
    | 0 => simp [add_comm, add_assoc, add_left_comm]
    | w+1 =>
      simp only [List.set_cons_succ, List.map_cons, List.sum_cons, List.getD_cons_succ]
      have := ih w a (by simpa using hw)
      calc f x + ((xs.set w a).map f).sum + f (xs.getD w a)
          = f x + (((xs.set w a).map f).sum + f (xs.getD w a)) := by rw [add_assoc]
        _ = f x + ((xs.map f).sum + f a) := by rw [this]
        _ = f x + (xs.map f).sum + f a := by rw [add_assoc]

/-- Changing the function at a single (duplicate-free) member shifts the
mapped sum by the stated difference. -/
theorem map_sum_congr_except {M : Type} [AddCommMonoid M]
    (f h : Nat → M) (n : Nat) (d : M) (hchg : h n = f n + d) :
    ∀ g : List Nat, g.Nodup → n ∈ g → (∀ p ∈ g, p ≠ n → f p = h p) →
      (g.map h).sum = (g.map f).sum + d := by
  intro g
  induction g with
  | nil => intro _ hn; exact absurd hn (List.not_mem_nil n)
  | cons x xs ih =>
    intro hnd hn hoth
    obtain ⟨hx, hxs⟩ := List.nodup_cons.mp hnd
    simp only [List.map_cons, List.sum_cons]
    rcases List.mem_cons.mp hn with rfl | hn2
    · have hrest : xs.map h = xs.map f := by
        apply List.map_congr_left
        intro p hp
        exact (hoth p (List.mem_cons_of_mem _ hp) fun hpn => hx (hpn ▸ hp)).symm
      rw [hchg, hrest]
      exact add_right_comm _ _ _
    · have hxn : x ≠ n := fun h2 => hx (h2 ▸ hn2)
      rw [← hoth x (List.mem_cons_self x xs) hxn,
        ih hxs hn2 fun p hp hpn => hoth p (List.mem_cons_of_mem _ hp) hpn]
      exact (add_assoc _ _ _).symm

/-- If the function is unchanged on all members, the mapped sum is
unchanged. -/
theorem map_sum_congr {M : Type} [AddCommMonoid M] (f h : Nat → M)
    (g : List Nat) (hoth : ∀ p ∈ g, f p = h p) :
    (g.map h).sum = (g.map f).sum := by
  rw [List.map_congr_left fun p hp => (hoth p hp).symm]

/-- Pointwise bounded mapped sums are bounded. -/
theorem list_sum_le_sum (f h : Nat → Nat) :
    ∀ g : List Nat, (∀ p ∈ g, f p ≤ h p) → (g.map f).sum ≤ (g.map h).sum := by
  intro g
  induction g with
  | nil => intro _; simp
  | cons x xs ih =>
    intro hle
    simp only [List.map_cons, List.sum_cons]
    have h1 := hle x (List.mem_cons_self x xs)
    have h2 := ih fun q hq => hle q (List.mem_cons_of_mem _ hq)
    omega

/-- Pointwise bounded sums with one strict inequality are strictly
smaller. -/
theorem list_sum_lt_sum (f h : Nat → Nat) :
    ∀ g : List Nat, (∀ p ∈ g, f p ≤ h p) → (∃ p ∈ g, f p < h p) →
      (g.map f).sum < (g.map h).sum := by
  intro g
  induction g with
  | nil =>
    intro _ hex
    obtain ⟨p, hp, -⟩ := hex
    exact absurd hp (List.not_mem_nil p)
  | cons x xs ih =>
    intro hle hex
    obtain ⟨p, hp, hstrict⟩ := hex
    simp only [List.map_cons, List.sum_cons]
    rcases List.mem_cons.mp hp with rfl | hp2
    · have h2 := list_sum_le_sum f h xs fun q hq => hle q (List.mem_cons_of_mem _ hq)
      omega
    · have h1 := hle x (List.mem_cons_self x xs)
      have h2 := ih (fun q hq => hle q (List.mem_cons_of_mem _ hq)) ⟨p, hp2, hstrict⟩
      omega

/-- Equal pointwise-bounded mapped sums force pointwise equality. -/
theorem list_sum_eq_pointwise (f h : Nat → Nat) (g : List Nat)
    (hle : ∀ p ∈ g, f p ≤ h p) (hsum : (g.map f).sum = (g.map h).sum) :
    ∀ p ∈ g, f p = h p := by
  intro p hp
  by_contra hne
  have hlt : f p < h p := lt_of_le_of_ne (hle p hp) hne
  have := list_sum_lt_sum f h g hle ⟨p, hp, hlt⟩
  omega

/-- `find?` is unaffected by overwriting a position that matches neither
before nor after. -/
theorem find?_set_other {α : Type} (p : α → Bool) :
    ∀ (l : List α) (w : Nat) (a : α) (d : α), p (l.getD w d) = false → p a = false →
      (l.set w a).find? p = l.find? p := by
  intro l
  induction l with
  | nil => intro w a d _ _; rfl
  | cons x xs ih =>
    intro w a d hold hnew
    match w with
    | 0 =>
      simp only [List.getD_cons_zero] at hold
      simp only [List.set_cons_zero]
      rw [List.find?_cons_of_neg _ (by simp [hnew]),
        List.find?_cons_of_neg _ (by simp [hold])]
    | w+1 =>
      simp only [List.getD_cons_succ] at hold
      simp only [List.set_cons_succ]
      by_cases hx : p x
      · rw [List.find?_cons_of_pos _ hx, List.find?_cons_of_pos _ hx]
      · rw [List.find?_cons_of_neg _ hx, List.find?_cons_of_neg _ hx]
        exact ih w a d hold hnew

/-- When at most one element matches and position `w` matches, `find?`
returns exactly that element. -/
theorem find?_of_unique {α : Type} (p : α → Bool) :
    ∀ (l : List α) (w : Nat) (d : α), w < l.length → p (l.getD w d) = true →
      l.countP p ≤ 1 → l.find? p = some (l.getD w d) := by
  intro l
  induction l with
  | nil => intro w d hw; simp at hw
  | cons x xs ih =>
    intro w d hw hp hcount
    rw [List.countP_cons] at hcount
    match w with
    | 0 =>
      simp only [List.getD_cons_zero] at hp ⊢
      rw [List.find?_cons_of_pos _ hp]
    | w+1 =>
      simp only [List.getD_cons_succ] at hp ⊢
      by_cases hx : p x
      · exfalso
        have h1 : 1 ≤ xs.countP p := by
          have hwx : w < xs.length := by simpa using hw
          have hmem : xs.getD w d ∈ xs := by
            rw [List.getD_eq_getElem xs d hwx]
            exact List.getElem_mem hwx
          have := List.countP_pos.mpr ⟨xs.getD w d, hmem, hp⟩
          omega
        rw [if_pos hx] at hcount
        omega
      · rw [List.find?_cons_of_neg _ hx]
        rw [if_neg hx] at hcount
        exact ih w d (by simpa using hw) hp (by omega)

/-! ## Invariants of the evaluation machine

Context: a validated graph `g` over `pool` with a topological order `topo`
feeding the queue. -/

/-- Does this worker currently hold node `n`? -/
def holdsB (st : WStatus) (n : Nat) : Bool :=
  match st with
  | WStatus.waiting m => m == n
  | WStatus.sending m _ => m == n
  | WStatus.decing m _ => m == n
  | _ => false

/-- Number of workers currently holding `n`. -/
def holders (s : EState) (n : Nat) : Nat :=
  (s.workers.map fun st => if holdsB st n then 1 else 0).sum

/-- The worker status currently holding `n` (if any). -/
def findHolder (s : EState) (n : Nat) : Option WStatus :=
  s.workers.find? fun st => holdsB st n

/-- How many channel sends into `m` node `p` has performed so far. -/
def srcSends (pool : Pool) (s : EState) (p m : Nat) : Nat :=
  match findHolder s p with
  | some (WStatus.sending n k) => ((getNode pool n).Next.take k).count m
  | some (WStatus.decing n k) => ((getNode pool n).Next.take (k + 1)).count m
  | some _ => 0
  | none =>
    if (getNS s.nodes p).result.isSome then (getNode pool p).Next.count m else 0

/-- How many `wait.Done()` calls on `m`'s WaitGroup node `p` has performed
so far. -/
def srcDecs (pool : Pool) (s : EState) (p m : Nat) : Nat :=
  match findHolder s p with
  | some (WStatus.sending n k) => ((getNode pool n).Next.take k).count m
  | some (WStatus.decing n k) => ((getNode pool n).Next.take k).count m
  | some _ => 0
  | none =>
    if (getNS s.nodes p).result.isSome then (getNode pool p).Next.count m else 0

/-- The prefix of the queue already handed to workers. -/
def taken (topo : List Nat) (s : EState) : List Nat := topo.take s.queueIdx

/-- A mapped sum with two distinct positions contributing at least one each
is at least two. -/
theorem two_le_map_sum {α : Type} (f : α → Nat) (d : α) :
    ∀ (l : List α) (i j : Nat), i < l.length → j < l.length → i ≠ j →
      1 ≤ f (l.getD i d) → 1 ≤ f (l.getD j d) → 2 ≤ (l.map f).sum := by
  intro l
  induction l with
  | nil => intro i j hi _ _ _ _; simp at hi
  | cons x xs ih =>
    intro i j hi hj hij h1 h2
    simp only [List.map_cons, List.sum_cons]
    cases i with
    | zero =>
      cases j with
      | zero => exact absurd rfl hij
      | succ j =>
        have hjx : j < xs.length := by simpa using hj
        have hmem : xs.getD j d ∈ xs := by
          rw [List.getD_eq_getElem xs d hjx]
          exact List.getElem_mem hjx
        have hle : f (xs.getD j d) ≤ (xs.map f).sum :=
          List.single_le_sum (fun y _ => Nat.zero_le y) _
            (List.mem_map.mpr ⟨_, hmem, rfl⟩)
        have h1x : 1 ≤ f x := by simpa [List.getD_cons_zero] using h1
        have h2x : 1 ≤ f (xs.getD j d) := by simpa [List.getD_cons_succ] using h2
        omega
    | succ i =>
      cases j with
      | zero =>
        have hix : i < xs.length := by simpa using hi
        have hmem : xs.getD i d ∈ xs := by
          rw [List.getD_eq_getElem xs d hix]
          exact List.getElem_mem hix
        have hle : f (xs.getD i d) ≤ (xs.map f).sum :=
          List.single_le_sum (fun y _ => Nat.zero_le y) _
            (List.mem_map.mpr ⟨_, hmem, rfl⟩)
        have h2x : 1 ≤ f x := by simpa [List.getD_cons_zero] using h2
        have h1x : 1 ≤ f (xs.getD i d) := by simpa [List.getD_cons_succ] using h1
        omega
      | succ j =>
        have := ih i j (by simpa using hi) (by simpa using hj) (by omega)
          (by simpa [List.getD_cons_succ] using h1)
          (by simpa [List.getD_cons_succ] using h2)
        omega

/-- A holding position witnesses at least one holder. -/
theorem holders_ge_one (s : EState) (n : Nat) (w : Nat) (d : WStatus)
    (hw : w < s.workers.length) (hh : holdsB (s.workers.getD w d) n = true) :
    1 ≤ holders s n := by
  unfold holders
  have hmem : s.workers.getD w d ∈ s.workers := by
    rw [List.getD_eq_getElem s.workers d hw]
    exact List.getElem_mem hw
  have : (1 : Nat) ∈ s.workers.map fun st => if holdsB st n then 1 else 0 :=
    List.mem_map.mpr ⟨_, hmem, by rw [hh]; rfl⟩
  exact List.single_le_sum (fun y _ => Nat.zero_le y) 1 this

/-- Two distinct positions cannot hold the same node when holders are
unique. -/
theorem holders_distinct (s : EState) (n : Nat) (w1 w2 : Nat)
    (hw1 : w1 < s.workers.length) (hw2 : w2 < s.workers.length)
    (h1 : holdsB (s.workers.getD w1 WStatus.done) n = true)
    (h2 : holdsB (s.workers.getD w2 WStatus.done) n = true)
    (huniq : holders s n ≤ 1) : w1 = w2 := by
  by_contra hne
  have := two_le_map_sum (fun st => if holdsB st n then 1 else 0) WStatus.done
    s.workers w1 w2 hw1 hw2 hne (by simp only [h1]; simp) (by simp only [h2]; simp)
  unfold holders at huniq
  omega

theorem getD_set_other {α : Type} (l : List α) (w j : Nat) (a d : α)
    (hne : w ≠ j) : (l.set w a).getD j d = l.getD j d := by
  simp [List.getD_eq_getElem?_getD, List.getElem?_set_ne hne]

/-- Hypotheses on the context of an `Evaluate` run: a validated graph with a
topological queue order, and buffer capacity covering every indegree. -/
structure EvalCtx (pool : Pool) (g topo : List Nat) (cap : Nat) : Prop where
  gnd : g.Nodup
  gmem : ∀ i ∈ g, i < pool.length
  gclosed : ∀ i ∈ g, ∀ j ∈ (getNode pool i).Next, j ∈ g
  gindeg : ∀ j ∈ g, (getNode pool j).indegree = countInEdges pool g j
  tmem : ∀ i, i ∈ topo ↔ i ∈ g
  tnd : topo.Nodup
  tord : ∀ i j, i ∈ g → j ∈ (getNode pool i).Next → topo.indexOf i < topo.indexOf j
  gcap : ∀ j ∈ g, (getNode pool j).indegree ≤ cap

/-- The machine invariant. -/
structure EInv (pool : Pool) (g topo : List Nat) (s : EState) : Prop where
  nlen : s.nodes.length = pool.length
  qle : s.queueIdx ≤ topo.length
  wstat : ∀ (j : Nat), j < s.workers.length →
    (∀ n, holdsB (s.workers.getD j WStatus.done) n = true →
      n ∈ g ∧ n ∈ taken topo s) ∧
    (match s.workers.getD j WStatus.done with
     | WStatus.waiting n => (getNS s.nodes n).result = none
     | WStatus.sending n k =>
       k ≤ (getNode pool n).Next.length ∧ (getNS s.nodes n).result.isSome
     | WStatus.decing n k =>
       k < (getNode pool n).Next.length ∧ (getNS s.nodes n).result.isSome
     | _ => True)
  uniq : ∀ n, holders s n ≤ 1
  takenStat : ∀ n ∈ taken topo s, holders s n = 1 ∨ (getNS s.nodes n).result.isSome
  untakenStat : ∀ n ∈ g, n ∉ taken topo s →
    (getNS s.nodes n).result = none ∧ holders s n = 0
  bufLen : ∀ m ∈ g, (getNS s.nodes m).buf.length =
    (g.map fun p => srcSends pool s p m).sum
  decsLe : ∀ m ∈ g, (g.map fun p => srcDecs pool s p m).sum ≤ (getNode pool m).indegree
  cnt : ∀ m ∈ g, (getNS s.nodes m).counter =
    (getNode pool m).indegree - (g.map fun p => srcDecs pool s p m).sum
  doneOk : (∃ j, j < s.workers.length ∧
      s.workers.getD j WStatus.done = WStatus.done) →
    s.queueIdx = topo.length

theorem getW_lt (ws : List WStatus) (w : Nat) (h : getW ws w ≠ WStatus.done) :
    w < ws.length := by
  by_contra hlen
  apply h
  unfold getW
  simp [List.getD_eq_getElem?_getD, List.getElem?_eq_none (le_of_not_lt hlen)]

theorem getD_in_range {α : Type} (l : List α) (w : Nat) (d1 d2 : α)
    (h : w < l.length) : l.getD w d1 = l.getD w d2 := by
  simp [List.getD_eq_getElem?_getD, List.getElem?_eq_getElem h]

theorem getNS_set_self (ns : List NState) (m : Nat) (x : NState)
    (h : m < ns.length) : getNS (ns.set m x) m = x := by
  simp [getNS, List.getD_eq_getElem?_getD, List.getElem?_set_self h]

theorem getNS_set_other (ns : List NState) (m : Nat) (x : NState) (m' : Nat)
    (h : m ≠ m') : getNS (ns.set m x) m' = getNS ns m' := by
  simp [getNS, List.getD_eq_getElem?_getD, List.getElem?_set_ne h]

/-- Counting holders after a worker-status update. -/
theorem holders_set (s : EState) (w : Nat) (st' : WStatus)
    (hw : w < s.workers.length) (n : Nat) :
    holders { s with workers := s.workers.set w st' } n +
        (if holdsB (s.workers.getD w st') n then 1 else 0) =
      holders s n + (if holdsB st' n then 1 else 0) :=
  map_sum_set (fun st => if holdsB st n then 1 else 0) s.workers w st' hw

/-- `findHolder` is unchanged when the updated worker holds `p` neither
before nor after. -/
theorem findHolder_set_other (s : EState) (w : Nat) (st' : WStatus) (p : Nat)
    (h1 : holdsB (s.workers.getD w st') p = false) (h2 : holdsB st' p = false) :
    findHolder { s with workers := s.workers.set w st' } p = findHolder s p :=
  find?_set_other (fun st => holdsB st p) s.workers w st' st' h1 h2

theorem holders_eq_countP (s : EState) (n : Nat) :
    holders s n = s.workers.countP fun st => holdsB st n := by
  unfold holders
  induction s.workers with
  | nil => rfl
  | cons x xs ih =>
    simp only [List.map_cons, List.sum_cons, List.countP_cons, ih]
    by_cases h : holdsB x n <;> simp [h] <;> omega

/-- With at most one holder, `findHolder` returns the status at the holding
position. -/
theorem findHolder_of_holds (s : EState) (n : Nat) (w : Nat) (d : WStatus)
    (hw : w < s.workers.length) (hh : holdsB (s.workers.getD w d) n = true)
    (huniq : holders s n ≤ 1) :
    findHolder s n = some (s.workers.getD w d) := by
  apply find?_of_unique
  · exact hw
  · exact hh
  · rw [← holders_eq_countP]; exact huniq

theorem holders_zero_findHolder (s : EState) (n : Nat) (h : holders s n = 0) :
    findHolder s n = none := by
  apply List.find?_eq_none.mpr
  intro st hst hb
  unfold holders at h
  have : 1 ≤ (s.workers.map fun st => if holdsB st n then 1 else 0).sum := by
    have hm : (1 : Nat) ∈ s.workers.map fun st => if holdsB st n then 1 else 0 :=
      List.mem_map.mpr ⟨st, hst, by rw [hb]; rfl⟩
    exact List.single_le_sum (fun x _ => Nat.zero_le x) 1 hm
  omega

/-- `srcSends`/`srcDecs` depend only on the holder and the result flag. -/
theorem src_congr (pool : Pool) (s s' : EState) (p : Nat)
    (hf : findHolder s' p = findHolder s p)
    (hr : (getNS s'.nodes p).result.isSome = (getNS s.nodes p).result.isSome) :
    (∀ m, srcSends pool s' p m = srcSends pool s p m) ∧
    (∀ m, srcDecs pool s' p m = srcDecs pool s p m) := by
  refine ⟨fun m => ?_, fun m => ?_⟩
  · unfold srcSends
    rw [hf, hr]
  · unfold srcDecs
    rw [hf, hr]

theorem getD_set_self {α : Type} (l : List α) (w : Nat) (a d : α)
    (h : w < l.length) : (l.set w a).getD w d = a := by
  simp [List.getD_eq_getElem?_getD, List.getElem?_set_self (by simpa using h)]

theorem EInv_pres_exit (pool : Pool) (g topo : List Nat) (cap : Nat)
    (s s' : EState) (hinv : EInv pool g topo s) (w : Nat)
    (h : applyAction pool topo cap (Action.exit w) s = some s') :
    EInv pool g topo s' := by
  simp only [applyAction] at h
  rcases hgw : getW s.workers w with _ | n | ⟨n, k⟩ | ⟨n, k⟩ | _ <;>
    simp only [hgw] at h <;> try exact Option.noConfusion h
  have hww : w < s.workers.length := getW_lt s.workers w (by rw [hgw]; simp)
  by_cases hq : s.queueIdx = topo.length
  swap
  · rw [if_neg hq] at h; exact Option.noConfusion h
  rw [if_pos hq] at h
  cases Option.some.inj h
  set s2 : EState := EState.mk s.nodes s.queueIdx (s.workers.set w WStatus.done) with hs2
  have hw2 : s2.workers = s.workers.set w WStatus.done := rfl
  have hold : s.workers.getD w WStatus.done = WStatus.idle :=
    (getD_in_range s.workers w WStatus.done WStatus.done hww).trans hgw
  have hhold : ∀ n2, holders s2 n2 = holders s n2 := by
    intro n2
    have hcalc := holders_set s w WStatus.done hww n2
    rw [hold] at hcalc
    have heq : holders s2 n2 =
        holders { s with workers := s.workers.set w WStatus.done } n2 := rfl
    rw [heq]
    simpa [holdsB] using hcalc
  have hfind : ∀ p, findHolder s2 p = findHolder s p := by
    intro p
    have heq : findHolder s2 p =
        findHolder { s with workers := s.workers.set w WStatus.done } p := rfl
    rw [heq]
    exact findHolder_set_other s w WStatus.done p (by rw [hold]; rfl) rfl
  have hsrc : ∀ p m, srcSends pool s2 p m = srcSends pool s p m ∧
      srcDecs pool s2 p m = srcDecs pool s p m := by
    intro p m
    obtain ⟨h1, h2⟩ := src_congr pool s s2 p (hfind p) rfl
    exact ⟨h1 m, h2 m⟩
  refine ⟨hinv.nlen, hinv.qle, ?_, ?_, ?_, ?_, ?_, ?_, ?_, ?_⟩
  · intro j hj
    have hjl : j < s.workers.length := by
      have hj2 := hj
      rw [hw2] at hj2
      simpa using hj2
    by_cases hjw : w = j
    · subst hjw
      have hg : s2.workers.getD w WStatus.done = WStatus.done := by
        rw [hw2]
        exact getD_set_self s.workers w WStatus.done WStatus.done hww
      rw [hg]
      exact ⟨fun n2 hn2 => by simp [holdsB] at hn2, trivial⟩
    · have hg : s2.workers.getD j WStatus.done = s.workers.getD j WStatus.done := by
        rw [hw2]
        exact getD_set_other s.workers w j WStatus.done WStatus.done hjw
      rw [hg]
      exact hinv.wstat j hjl
  · intro n2
    rw [hhold n2]
    exact hinv.uniq n2
  · intro n2 hn2
    rw [hhold n2]
    exact hinv.takenStat n2 hn2
  · intro n2 hn2 hnt
    rw [hhold n2]
    exact hinv.untakenStat n2 hn2 hnt
  · intro m hm
    rw [hinv.bufLen m hm]
    exact (map_sum_congr _ _ g fun p _ => ((hsrc p m).1).symm).symm
  · intro m hm
    rw [map_sum_congr (fun p => srcDecs pool s p m) _ g fun p _ => ((hsrc p m).2).symm]
    exact hinv.decsLe m hm
  · intro m hm
    rw [map_sum_congr (fun p => srcDecs pool s p m) _ g fun p _ => ((hsrc p m).2).symm]
    exact hinv.cnt m hm
  · intro _
    exact hq

theorem EInv_pres_dequeue (pool : Pool) (g topo : List Nat) (cap : Nat)
    (ctx : EvalCtx pool g topo cap)
    (s s' : EState) (hinv : EInv pool g topo s) (w : Nat)
    (h : applyAction pool topo cap (Action.dequeue w) s = some s') :
    EInv pool g topo s' := by
  simp only [applyAction] at h
  rcases hgw : getW s.workers w with _ | n | ⟨n, k⟩ | ⟨n, k⟩ | _ <;>
    simp only [hgw] at h <;> try exact Option.noConfusion h
  have hww : w < s.workers.length := getW_lt s.workers w (by rw [hgw]; simp)
  by_cases hq : s.queueIdx < topo.length
  swap
  · rw [dif_neg hq] at h; exact Option.noConfusion h
  rw [dif_pos hq] at h
  cases Option.some.inj h
  set t := topo.get ⟨s.queueIdx, hq⟩ with ht
  set s2 : EState :=
    EState.mk s.nodes (s.queueIdx + 1) (s.workers.set w (WStatus.waiting t)) with hs2
  have htmem : t ∈ topo := topo.get_mem _ _
  have htg : t ∈ g := (ctx.tmem t).mp htmem
  have htake : topo.take (s.queueIdx + 1) = topo.take s.queueIdx ++ [t] := by
    rw [List.take_succ]
    congr 1
    rw [List.getElem?_eq_getElem hq]
    rfl
  have htnot : t ∉ taken topo s := by
    intro hmem
    have hsplit := List.take_append_drop s.queueIdx topo
    have hnd : (topo.take s.queueIdx ++ topo.drop s.queueIdx).Nodup := by
      rw [hsplit]; exact ctx.tnd
    have hdisj := (List.nodup_append.mp hnd).2.2
    have htdrop : t ∈ topo.drop s.queueIdx := by
      rw [List.drop_eq_getElem_cons hq]
      exact List.mem_cons_self _ _
    exact hdisj hmem htdrop
  have hold : s.workers.getD w (WStatus.waiting t) = WStatus.idle :=
    (getD_in_range s.workers w _ WStatus.done hww).trans hgw
  obtain ⟨hrt, hht⟩ := hinv.untakenStat t htg htnot
  have hw2 : s2.workers = s.workers.set w (WStatus.waiting t) := rfl
  have hholdt : holders s2 t = 1 := by
    have hcalc := holders_set s w (WStatus.waiting t) hww t
    rw [hold] at hcalc
    have e2 : (if holdsB (WStatus.waiting t) t then 1 else 0) = 1 := by simp [holdsB]
    have e1 : (if holdsB WStatus.idle t then 1 else 0) = 0 := rfl
    rw [e1, e2] at hcalc
    have heq : holders s2 t =
        holders { s with workers := s.workers.set w (WStatus.waiting t) } t := rfl
    rw [heq]
    omega
  have hholdo : ∀ n2, n2 ≠ t → holders s2 n2 = holders s n2 := by
    intro n2 hn2
    have hcalc := holders_set s w (WStatus.waiting t) hww n2
    rw [hold] at hcalc
    have hb : (t == n2) = false := beq_eq_false_iff_ne.mpr fun hh => hn2 hh.symm
    have e2 : (if holdsB (WStatus.waiting t) n2 then 1 else 0) = 0 := by simp [holdsB, hb]
    have e1 : (if holdsB WStatus.idle n2 then 1 else 0) = 0 := rfl
    rw [e1, e2] at hcalc
    have heq : holders s2 n2 =
        holders { s with workers := s.workers.set w (WStatus.waiting t) } n2 := rfl
    rw [heq]
    omega
  have hfindo : ∀ p, p ≠ t → findHolder s2 p = findHolder s p := by
    intro p hp
    refine findHolder_set_other s w (WStatus.waiting t) p ?_ ?_
    · rw [hold]; rfl
    · show (t == p) = false
      exact beq_eq_false_iff_ne.mpr fun hh => hp hh.symm
  have hfindt : findHolder s2 t = some (WStatus.waiting t) := by
    have hget : s2.workers.getD w WStatus.done = WStatus.waiting t := by
      rw [hw2]
      exact getD_set_self s.workers w _ _ hww
    have hres := findHolder_of_holds s2 t w WStatus.done
      (by rw [hw2]; simpa using hww)
      (by rw [hget]; simp [holdsB]) (by omega)
    rw [hget] at hres
    exact hres
  have hfindt_old : findHolder s t = none := holders_zero_findHolder s t hht
  have hsrc : ∀ p m, srcSends pool s2 p m = srcSends pool s p m ∧
      srcDecs pool s2 p m = srcDecs pool s p m := by
    intro p m
    by_cases hp : p = t
    · subst hp
      constructor
      · unfold srcSends
        rw [hfindt, hfindt_old, hrt]
        rfl
      · unfold srcDecs
        rw [hfindt, hfindt_old, hrt]
        rfl
    · obtain ⟨h1, h2⟩ := src_congr pool s s2 p (hfindo p hp) rfl
      exact ⟨h1 m, h2 m⟩
  have htaken2 : taken topo s2 = taken topo s ++ [t] := htake
  refine ⟨hinv.nlen, by show s.queueIdx + 1 ≤ topo.length; omega, ?_, ?_, ?_, ?_, ?_, ?_, ?_, ?_⟩
  · intro j hj
    have hjl : j < s.workers.length := by
      have hj2 := hj
      rw [hw2] at hj2
      simpa using hj2
    by_cases hjw : w = j
    · subst hjw
      have hg : s2.workers.getD w WStatus.done = WStatus.waiting t := by
        rw [hw2]
        exact getD_set_self s.workers w (WStatus.waiting t) WStatus.done hww
      rw [hg]
      refine ⟨fun n2 hn2 => ?_, hrt⟩
      have hteq : t = n2 := by simpa [holdsB] using hn2
      subst hteq
      exact ⟨htg, by rw [htaken2]; exact List.mem_append_right _ (List.mem_singleton_self t)⟩
    · have hg : s2.workers.getD j WStatus.done = s.workers.getD j WStatus.done := by
        rw [hw2]
        exact getD_set_other s.workers w j (WStatus.waiting t) WStatus.done hjw
      rw [hg]
      obtain ⟨hh1, hh2⟩ := hinv.wstat j hjl
      refine ⟨fun n2 hn2 => ?_, hh2⟩
      obtain ⟨hg2, htk2⟩ := hh1 n2 hn2
      exact ⟨hg2, by rw [htaken2]; exact List.mem_append_left _ htk2⟩
  · intro n2
    by_cases hn2 : n2 = t
    · subst hn2; rw [hholdt]
    · rw [hholdo n2 hn2]; exact hinv.uniq n2
  · intro n2 hn2
    rw [htaken2] at hn2
    rcases List.mem_append.mp hn2 with h2 | h2
    · have hn2t : n2 ≠ t := fun hh => htnot (hh ▸ h2)
      rw [hholdo n2 hn2t]
      exact hinv.takenStat n2 h2
    · rw [List.mem_singleton.mp h2, hholdt]
      exact Or.inl rfl
  · intro n2 hn2 hnt
    rw [htaken2] at hnt
    have hn2t : n2 ≠ t := by
      intro hh
      apply hnt
      rw [hh]
      exact List.mem_append_right _ (List.mem_singleton_self t)
    have hnt2 : n2 ∉ taken topo s := fun hh => hnt (List.mem_append_left _ hh)
    rw [hholdo n2 hn2t]
    exact hinv.untakenStat n2 hn2 hnt2
  · intro m hm
    rw [hinv.bufLen m hm]
    exact (map_sum_congr _ _ g fun p _ => ((hsrc p m).1).symm).symm
  · intro m hm
    rw [map_sum_congr (fun p => srcDecs pool s p m) _ g fun p _ => ((hsrc p m).2).symm]
    exact hinv.decsLe m hm
  · intro m hm
    rw [map_sum_congr (fun p => srcDecs pool s p m) _ g fun p _ => ((hsrc p m).2).symm]
    exact hinv.cnt m hm
  · rintro ⟨j2, hj2l, hj2d⟩
    show s.queueIdx + 1 = topo.length
    have hj2l2 : j2 < s.workers.length := by
      rw [hw2] at hj2l
      simpa using hj2l
    by_cases hj2w : w = j2
    · subst hj2w
      rw [hw2, getD_set_self s.workers w (WStatus.waiting t) WStatus.done hww] at hj2d
      exact WStatus.noConfusion hj2d
    · rw [hw2, getD_set_other s.workers w j2 (WStatus.waiting t) WStatus.done hj2w] at hj2d
      have := hinv.doneOk ⟨j2, hj2l2, hj2d⟩
      omega

theorem EInv_pres_compute (pool : Pool) (g topo : List Nat) (cap : Nat)
    (ctx : EvalCtx pool g topo cap)
    (s s' : EState) (hinv : EInv pool g topo s) (w : Nat)
    (h : applyAction pool topo cap (Action.compute w) s = some s') :
    EInv pool g topo s' := by
  simp only [applyAction] at h
  rcases hgw : getW s.workers w with _ | n | ⟨n, k⟩ | ⟨n, k⟩ | _ <;>
    simp only [hgw] at h <;> try exact Option.noConfusion h
  have hww : w < s.workers.length := getW_lt s.workers w (by rw [hgw]; simp)
  by_cases hc : (getNS s.nodes n).counter = 0
  swap
  · rw [if_neg hc] at h; exact Option.noConfusion h
  rw [if_pos hc] at h
  cases Option.some.inj h
  set s2 : EState := EState.mk
    (s.nodes.set n { getNS s.nodes n with
      result := some ((getNode pool n).eval (getNS s.nodes n).buf) })
    s.queueIdx (s.workers.set w (WStatus.sending n 0)) with hs2
  have hw2 : s2.workers = s.workers.set w (WStatus.sending n 0) := rfl
  have hn2 : s2.nodes = s.nodes.set n { getNS s.nodes n with
      result := some ((getNode pool n).eval (getNS s.nodes n).buf) } := rfl
  have hold : s.workers.getD w WStatus.done = WStatus.waiting n :=
    (getD_in_range s.workers w WStatus.done WStatus.done hww).trans hgw
  have hng_tk : n ∈ g ∧ n ∈ taken topo s :=
    (hinv.wstat w hww).1 n (by rw [hold]; simp [holdsB])
  have hng : n ∈ g := hng_tk.1
  have hntk : n ∈ taken topo s := hng_tk.2
  have hnlt : n < pool.length := ctx.gmem n hng
  have hnn : n < s.nodes.length := by rw [hinv.nlen]; exact hnlt
  have hgets : getNS s2.nodes n = { getNS s.nodes n with
      result := some ((getNode pool n).eval (getNS s.nodes n).buf) } := by
    rw [hn2]
    exact getNS_set_self s.nodes n _ hnn
  have hgeto : ∀ p, p ≠ n → getNS s2.nodes p = getNS s.nodes p := by
    intro p hp
    rw [hn2]
    exact getNS_set_other s.nodes n _ p (fun hh => hp hh.symm)
  have hhold : ∀ n2, holders s2 n2 = holders s n2 := by
    intro n2
    have hcalc := holders_set s w (WStatus.sending n 0) hww n2
    rw [getD_in_range s.workers w (WStatus.sending n 0) WStatus.done hww, hold] at hcalc
    have e1 : holdsB (WStatus.waiting n) n2 = (n == n2) := rfl
    have e2 : holdsB (WStatus.sending n 0) n2 = (n == n2) := rfl
    rw [e1, e2] at hcalc
    have heq : holders s2 n2 =
        holders { s with workers := s.workers.set w (WStatus.sending n 0) } n2 := rfl
    rw [heq]
    cases hbv : (n == n2) with
    | false =>
      rw [hbv] at hcalc
      simp at hcalc
      omega
    | true =>
      rw [hbv] at hcalc
      simp at hcalc
      omega
  have hfindo : ∀ p, p ≠ n → findHolder s2 p = findHolder s p := by
    intro p hp
    have heq : findHolder s2 p =
        findHolder { s with workers := s.workers.set w (WStatus.sending n 0) } p := rfl
    rw [heq]
    refine findHolder_set_other s w (WStatus.sending n 0) p ?_ ?_
    · rw [getD_in_range s.workers w (WStatus.sending n 0) WStatus.done hww, hold]
      show (n == p) = false
      exact beq_eq_false_iff_ne.mpr fun hh => hp hh.symm
    · show (n == p) = false
      exact beq_eq_false_iff_ne.mpr fun hh => hp hh.symm
  have hfind_new : findHolder s2 n = some (WStatus.sending n 0) := by
    have hget : s2.workers.getD w WStatus.done = WStatus.sending n 0 := by
      rw [hw2]
      exact getD_set_self s.workers w (WStatus.sending n 0) WStatus.done hww
    have hres := findHolder_of_holds s2 n w WStatus.done
      (by rw [hw2]; simpa using hww)
      (by rw [hget]; simp [holdsB])
      (by rw [hhold n]; exact hinv.uniq n)
    rw [hget] at hres
    exact hres
  have hfind_old : findHolder s n = some (WStatus.waiting n) := by
    have hres := findHolder_of_holds s n w WStatus.done hww
      (by rw [hold]; simp [holdsB]) (hinv.uniq n)
    rw [hold] at hres
    exact hres
  have hsrc : ∀ p m, srcSends pool s2 p m = srcSends pool s p m ∧
      srcDecs pool s2 p m = srcDecs pool s p m := by
    intro p m
    by_cases hp : p = n
    · subst hp
      constructor
      · unfold srcSends
        rw [hfind_new, hfind_old]
        simp
      · unfold srcDecs
        rw [hfind_new, hfind_old]
        simp
    · obtain ⟨h1, h2⟩ := src_congr pool s s2 p (hfindo p hp)
        (by rw [hgeto p hp])
      exact ⟨h1 m, h2 m⟩
  have hbuf : ∀ m, (getNS s2.nodes m).buf = (getNS s.nodes m).buf := by
    intro m
    by_cases hm : m = n
    · rw [hm, hgets]
    · rw [hgeto m hm]
  have hcnt : ∀ m, (getNS s2.nodes m).counter = (getNS s.nodes m).counter := by
    intro m
    by_cases hm : m = n
    · rw [hm, hgets]
    · rw [hgeto m hm]
  refine ⟨?_, hinv.qle, ?_, ?_, ?_, ?_, ?_, ?_, ?_, ?_⟩
  · rw [hn2]
    simpa using hinv.nlen
  · intro j hj
    have hjl : j < s.workers.length := by
      have hj2 := hj
      rw [hw2] at hj2
      simpa using hj2
    by_cases hjw : w = j
    · subst hjw
      have hg : s2.workers.getD w WStatus.done = WStatus.sending n 0 := by
        rw [hw2]
        exact getD_set_self s.workers w (WStatus.sending n 0) WStatus.done hww
      rw [hg]
      refine ⟨fun n2 hn2b => ?_, ?_⟩
      · have hteq : n = n2 := by simpa [holdsB] using hn2b
        rw [← hteq]
        exact ⟨hng, hntk⟩
      · refine ⟨Nat.zero_le _, ?_⟩
        rw [hgets]
        rfl
    · have hg : s2.workers.getD j WStatus.done = s.workers.getD j WStatus.done := by
        rw [hw2]
        exact getD_set_other s.workers w j (WStatus.sending n 0) WStatus.done hjw
      rw [hg]
      obtain ⟨hh1, hh2⟩ := hinv.wstat j hjl
      refine ⟨fun n2 hn2b => hh1 n2 hn2b, ?_⟩
      rcases hst : s.workers.getD j WStatus.done with _ | n' | ⟨n', k'⟩ | ⟨n', k'⟩ | _ <;>
        rw [hst] at hh2 <;> try trivial
      · have hne : n' ≠ n := by
          intro hh
          apply hjw
          refine ((holders_distinct s n j w hjl hww ?_ ?_ (hinv.uniq n))).symm
          · rw [hst, ← hh]
            simp [holdsB]
          · rw [hold]
            simp [holdsB]
        have hh2b : (getNS s.nodes n').result = none := hh2
        show (getNS s2.nodes n').result = none
        rw [hgeto n' hne]
        exact hh2b
      · have hne : n' ≠ n := by
          intro hh
          apply hjw
          refine ((holders_distinct s n j w hjl hww ?_ ?_ (hinv.uniq n))).symm
          · rw [hst, ← hh]
            simp [holdsB]
          · rw [hold]
            simp [holdsB]
        have hh2b : k' ≤ (getNode pool n').Next.length ∧
            (getNS s.nodes n').result.isSome = true := hh2
        show k' ≤ (getNode pool n').Next.length ∧
            (getNS s2.nodes n').result.isSome = true
        rw [hgeto n' hne]
        exact hh2b
      · have hne : n' ≠ n := by
          intro hh
          apply hjw
          refine ((holders_distinct s n j w hjl hww ?_ ?_ (hinv.uniq n))).symm
          · rw [hst, ← hh]
            simp [holdsB]
          · rw [hold]
            simp [holdsB]
        have hh2b : k' < (getNode pool n').Next.length ∧
            (getNS s.nodes n').result.isSome = true := hh2
        show k' < (getNode pool n').Next.length ∧
            (getNS s2.nodes n').result.isSome = true
        rw [hgeto n' hne]
        exact hh2b
  · intro n2
    rw [hhold n2]
    exact hinv.uniq n2
  · intro n2 hn2b
    rw [hhold n2]
    by_cases hn2n : n2 = n
    · rw [hn2n]
      left
      have h1 := holders_ge_one s n w WStatus.done hww (by rw [hold]; simp [holdsB])
      have h2 := hinv.uniq n
      omega
    · rcases hinv.takenStat n2 hn2b with hh | hh
      · exact Or.inl hh
      · right
        rw [hgeto n2 hn2n]
        exact hh
  · intro n2 hn2b hnt
    have hnt2 : n2 ∉ taken topo s := hnt
    have hn2n : n2 ≠ n := fun hh => hnt2 (by rw [hh]; exact hntk)
    obtain ⟨hr, hh0⟩ := hinv.untakenStat n2 hn2b hnt2
    refine ⟨?_, ?_⟩
    · rw [hgeto n2 hn2n]
      exact hr
    · rw [hhold n2]
      exact hh0
  · intro m hm
    have hb2 : (getNS s2.nodes m).buf.length = (getNS s.nodes m).buf.length := by
      rw [hbuf m]
    rw [hb2, hinv.bufLen m hm]
    exact (map_sum_congr _ _ g fun p _ => ((hsrc p m).1).symm).symm
  · intro m hm
    rw [map_sum_congr (fun p => srcDecs pool s p m) _ g fun p _ => ((hsrc p m).2).symm]
    exact hinv.decsLe m hm
  · intro m hm
    rw [hcnt m,
      map_sum_congr (fun p => srcDecs pool s p m) _ g fun p _ => ((hsrc p m).2).symm]
    exact hinv.cnt m hm
  · rintro ⟨j2, hj2l, hj2d⟩
    have hj2l2 : j2 < s.workers.length := by
      rw [hw2] at hj2l
      simpa using hj2l
    by_cases hj2w : w = j2
    · subst hj2w
      rw [hw2, getD_set_self s.workers w (WStatus.sending n 0) WStatus.done hww] at hj2d
      exact WStatus.noConfusion hj2d
    · rw [hw2, getD_set_other s.workers w j2 (WStatus.sending n 0) WStatus.done hj2w] at hj2d
      exact hinv.doneOk ⟨j2, hj2l2, hj2d⟩

theorem EInv_pres_send (pool : Pool) (g topo : List Nat) (cap : Nat)
    (ctx : EvalCtx pool g topo cap)
    (s s' : EState) (hinv : EInv pool g topo s) (w : Nat)
    (h : applyAction pool topo cap (Action.send w) s = some s') :
    EInv pool g topo s' := by
  simp only [applyAction] at h
  rcases hgw : getW s.workers w with _ | n | ⟨n, k⟩ | ⟨n, k⟩ | _ <;>
    simp only [hgw] at h <;> try exact Option.noConfusion h
  have hww : w < s.workers.length := getW_lt s.workers w (by rw [hgw]; simp)
  rcases hmk : (getNode pool n).Next.get? k with _ | m <;>
    simp only [hmk] at h <;> try exact Option.noConfusion h
  rcases hr : (getNS s.nodes n).result with _ | r <;>
    simp only [hr] at h <;> try exact Option.noConfusion h
  by_cases hbc : (getNS s.nodes m).buf.length < cap
  swap
  · rw [if_neg hbc] at h; exact Option.noConfusion h
  rw [if_pos hbc] at h
  cases Option.some.inj h
  set s2 : EState := EState.mk
    (s.nodes.set m { getNS s.nodes m with buf := (getNS s.nodes m).buf ++ [r] })
    s.queueIdx (s.workers.set w (WStatus.decing n k)) with hs2
  have hw2 : s2.workers = s.workers.set w (WStatus.decing n k) := rfl
  have hnds : s2.nodes = s.nodes.set m
      { getNS s.nodes m with buf := (getNS s.nodes m).buf ++ [r] } := rfl
  have hold : s.workers.getD w WStatus.done = WStatus.sending n k :=
    (getD_in_range s.workers w WStatus.done WStatus.done hww).trans hgw
  have hng_tk : n ∈ g ∧ n ∈ taken topo s :=
    (hinv.wstat w hww).1 n (by rw [hold]; simp [holdsB])
  have hng : n ∈ g := hng_tk.1
  have hntk : n ∈ taken topo s := hng_tk.2
  have hwm2 : k ≤ (getNode pool n).Next.length ∧
      (getNS s.nodes n).result.isSome = true := by
    have hx := (hinv.wstat w hww).2
    rw [hold] at hx
    exact hx
  obtain ⟨hklen, hkm2⟩ := List.get?_eq_some.mp hmk
  have hmNext : m ∈ (getNode pool n).Next := by
    rw [← hkm2]
    exact (getNode pool n).Next.get_mem _ _
  have hmg : m ∈ g := ctx.gclosed n hng m hmNext
  have hmn : m ≠ n := by
    intro hh
    have hto := ctx.tord n m hng hmNext
    rw [hh] at hto
    omega
  have hmlt : m < pool.length := ctx.gmem m hmg
  have hmm : m < s.nodes.length := by rw [hinv.nlen]; exact hmlt
  have hgets : getNS s2.nodes m = { getNS s.nodes m with
      buf := (getNS s.nodes m).buf ++ [r] } := by
    rw [hnds]
    exact getNS_set_self s.nodes m _ hmm
  have hgeto : ∀ p, p ≠ m → getNS s2.nodes p = getNS s.nodes p := by
    intro p hp
    rw [hnds]
    exact getNS_set_other s.nodes m _ p (fun hh => hp hh.symm)
  have hres_all : ∀ p, (getNS s2.nodes p).result = (getNS s.nodes p).result := by
    intro p
    by_cases hp : p = m
    · rw [hp, hgets]
    · rw [hgeto p hp]
  have hcnt_all : ∀ p, (getNS s2.nodes p).counter = (getNS s.nodes p).counter := by
    intro p
    by_cases hp : p = m
    · rw [hp, hgets]
    · rw [hgeto p hp]
  have hbuf_all : ∀ p, p ≠ m → (getNS s2.nodes p).buf = (getNS s.nodes p).buf := by
    intro p hp
    rw [hgeto p hp]
  have hbufm : (getNS s2.nodes m).buf = (getNS s.nodes m).buf ++ [r] := by
    rw [hgets]
  have hhold : ∀ n2, holders s2 n2 = holders s n2 := by
    intro n2
    have hcalc := holders_set s w (WStatus.decing n k) hww n2
    rw [getD_in_range s.workers w (WStatus.decing n k) WStatus.done hww, hold] at hcalc
    have e1 : holdsB (WStatus.sending n k) n2 = (n == n2) := rfl
    have e2 : holdsB (WStatus.decing n k) n2 = (n == n2) := rfl
    rw [e1, e2] at hcalc
    have heq : holders s2 n2 =
        holders { s with workers := s.workers.set w (WStatus.decing n k) } n2 := rfl
    rw [heq]
    cases hbv : (n == n2) with
    | false =>
      rw [hbv] at hcalc
      simp at hcalc
      omega
    | true =>
      rw [hbv] at hcalc
      simp at hcalc
      omega
  have hfindo : ∀ p, p ≠ n → findHolder s2 p = findHolder s p := by
    intro p hp
    have heq : findHolder s2 p =
        findHolder { s with workers := s.workers.set w (WStatus.decing n k) } p := rfl
    rw [heq]
    refine findHolder_set_other s w (WStatus.decing n k) p ?_ ?_
    · rw [getD_in_range s.workers w (WStatus.decing n k) WStatus.done hww, hold]
      show (n == p) = false
      exact beq_eq_false_iff_ne.mpr fun hh => hp hh.symm
    · show (n == p) = false
      exact beq_eq_false_iff_ne.mpr fun hh => hp hh.symm
  have hfind_new : findHolder s2 n = some (WStatus.decing n k) := by
    have hget : s2.workers.getD w WStatus.done = WStatus.decing n k := by
      rw [hw2]
      exact getD_set_self s.workers w (WStatus.decing n k) WStatus.done hww
    have hres2 := findHolder_of_holds s2 n w WStatus.done
      (by rw [hw2]; simpa using hww)
      (by rw [hget]; simp [holdsB])
      (by rw [hhold n]; exact hinv.uniq n)
    rw [hget] at hres2
    exact hres2
  have hfind_old : findHolder s n = some (WStatus.sending n k) := by
    have hres2 := findHolder_of_holds s n w WStatus.done hww
      (by rw [hold]; simp [holdsB]) (hinv.uniq n)
    rw [hold] at hres2
    exact hres2
  have hmk2 : (getNode pool n).Next[k]? = some m := by
    rw [← List.get?_eq_getElem?]
    exact hmk
  have htake : (getNode pool n).Next.take (k + 1) =
      (getNode pool n).Next.take k ++ [m] := by
    rw [List.take_succ, hmk2]
    rfl
  have hsS : ∀ m2, srcSends pool s2 n m2 = srcSends pool s n m2 + [m].count m2 := by
    intro m2
    unfold srcSends
    rw [hfind_new, hfind_old]
    show ((getNode pool n).Next.take (k + 1)).count m2 =
      ((getNode pool n).Next.take k).count m2 + [m].count m2
    rw [htake, List.count_append]
  have hsD : ∀ m2, srcDecs pool s2 n m2 = srcDecs pool s n m2 := by
    intro m2
    unfold srcDecs
    rw [hfind_new, hfind_old]
  have hsrco : ∀ p, p ≠ n →
      (∀ m2, srcSends pool s2 p m2 = srcSends pool s p m2) ∧
      (∀ m2, srcDecs pool s2 p m2 = srcDecs pool s p m2) := by
    intro p hp
    exact src_congr pool s s2 p (hfindo p hp) (by rw [hres_all p])
  have hoth : ∀ m2, ∀ p ∈ g, srcDecs pool s p m2 = srcDecs pool s2 p m2 := by
    intro m2 p _
    by_cases hpn : p = n
    · rw [hpn]
      exact (hsD m2).symm
    · exact (((hsrco p hpn).2) m2).symm
  refine ⟨?_, hinv.qle, ?_, ?_, ?_, ?_, ?_, ?_, ?_, ?_⟩
  · rw [hnds]
    simpa using hinv.nlen
  · intro j hj
    have hjl : j < s.workers.length := by
      have hj2 := hj
      rw [hw2] at hj2
      simpa using hj2
    by_cases hjw : w = j
    · subst hjw
      have hg : s2.workers.getD w WStatus.done = WStatus.decing n k := by
        rw [hw2]
        exact getD_set_self s.workers w (WStatus.decing n k) WStatus.done hww
      rw [hg]
      refine ⟨fun n2 hn2b => ?_, ?_⟩
      · have hteq : n = n2 := by simpa [holdsB] using hn2b
        rw [← hteq]
        exact ⟨hng, hntk⟩
      · refine ⟨hklen, ?_⟩
        show (getNS s2.nodes n).result.isSome = true
        rw [hres_all n]
        exact hwm2.2
    · have hg : s2.workers.getD j WStatus.done = s.workers.getD j WStatus.done := by
        rw [hw2]
        exact getD_set_other s.workers w j (WStatus.decing n k) WStatus.done hjw
      rw [hg]
      obtain ⟨hh1, hh2⟩ := hinv.wstat j hjl
      refine ⟨fun n2 hn2b => hh1 n2 hn2b, ?_⟩
      rcases hst : s.workers.getD j WStatus.done with _ | n' | ⟨n', k'⟩ | ⟨n', k'⟩ | _ <;>
        rw [hst] at hh2 <;> try trivial
      · have hh2b : (getNS s.nodes n').result = none := hh2
        show (getNS s2.nodes n').result = none
        rw [hres_all n']
        exact hh2b
      · have hh2b : k' ≤ (getNode pool n').Next.length ∧
            (getNS s.nodes n').result.isSome = true := hh2
        show k' ≤ (getNode pool n').Next.length ∧
            (getNS s2.nodes n').result.isSome = true
        rw [hres_all n']
        exact hh2b
      · have hh2b : k' < (getNode pool n').Next.length ∧
            (getNS s.nodes n').result.isSome = true := hh2
        show k' < (getNode pool n').Next.length ∧
            (getNS s2.nodes n').result.isSome = true
        rw [hres_all n']
        exact hh2b
  · intro n2
    rw [hhold n2]
    exact hinv.uniq n2
  · intro n2 hn2b
    rw [hhold n2, hres_all n2]
    exact hinv.takenStat n2 hn2b
  · intro n2 hn2b hnt
    have hnt2 : n2 ∉ taken topo s := hnt
    obtain ⟨hr0, hh0⟩ := hinv.untakenStat n2 hn2b hnt2
    refine ⟨?_, ?_⟩
    · rw [hres_all n2]
      exact hr0
    · rw [hhold n2]
      exact hh0
  · intro m2 hm2
    have hsum := map_sum_congr_except (fun p => srcSends pool s p m2)
      (fun p => srcSends pool s2 p m2) n ([m].count m2) (hsS m2) g ctx.gnd hng
      (fun p _ hp => (((hsrco p hp).1) m2).symm)
    rw [hsum, ← hinv.bufLen m2 hm2]
    by_cases hm2m : m2 = m
    · rw [hm2m, hbufm]
      simp
    · rw [hbuf_all m2 hm2m]
      have h0 : ([m].count m2) = 0 := List.count_eq_zero.mpr (by simp [hm2m])
      rw [h0]
      omega
  · intro m2 hm2
    rw [map_sum_congr (fun p => srcDecs pool s p m2) _ g (hoth m2)]
    exact hinv.decsLe m2 hm2
  · intro m2 hm2
    rw [hcnt_all m2, map_sum_congr (fun p => srcDecs pool s p m2) _ g (hoth m2)]
    exact hinv.cnt m2 hm2

  · rintro ⟨j2, hj2l, hj2d⟩
    have hj2l2 : j2 < s.workers.length := by
      rw [hw2] at hj2l
      simpa using hj2l
    by_cases hj2w : w = j2
    · subst hj2w
      rw [hw2, getD_set_self s.workers w (WStatus.decing n k) WStatus.done hww] at hj2d
      exact WStatus.noConfusion hj2d
    · rw [hw2, getD_set_other s.workers w j2 (WStatus.decing n k) WStatus.done hj2w] at hj2d
      exact hinv.doneOk ⟨j2, hj2l2, hj2d⟩

/-- A source's `Done()` count on `m` never exceeds the number of its edges
into `m`. -/

theorem srcDecs_le_count (pool : Pool) (s : EState) (p m : Nat) :
    srcDecs pool s p m ≤ (getNode pool p).Next.count m := by
  unfold srcDecs
  rcases hf : findHolder s p with _ | st
  · show (if (getNS s.nodes p).result.isSome then
      (getNode pool p).Next.count m else 0) ≤ _
    by_cases hres : (getNS s.nodes p).result.isSome = true
    · rw [if_pos hres]
    · rw [if_neg hres]
      exact Nat.zero_le _
  · have hf2 : s.workers.find? (fun st2 => holdsB st2 p) = some st := hf
    have hholds0 := List.find?_some hf2
    have hholds : holdsB st p = true := hholds0
    rcases st with _ | n' | ⟨n', k'⟩ | ⟨n', k'⟩ | _
    · exact Nat.zero_le _
    · exact Nat.zero_le _
    · have hnp : n' = p := by simpa [holdsB] using hholds
      show (((getNode pool n').Next.take k').count m) ≤ _
      rw [hnp]
      exact ((getNode pool p).Next.take_sublist k').count_le m
    · have hnp : n' = p := by simpa [holdsB] using hholds
      show (((getNode pool n').Next.take k').count m) ≤ _
      rw [hnp]
      exact ((getNode pool p).Next.take_sublist k').count_le m
    · exact Nat.zero_le _

theorem EInv_pres_dec (pool : Pool) (g topo : List Nat) (cap : Nat)
    (ctx : EvalCtx pool g topo cap)
    (s s' : EState) (hinv : EInv pool g topo s) (w : Nat)
    (h : applyAction pool topo cap (Action.dec w) s = some s') :
    EInv pool g topo s' := by
  simp only [applyAction] at h
  rcases hgw : getW s.workers w with _ | n | ⟨n, k⟩ | ⟨n, k⟩ | _ <;>
    simp only [hgw] at h <;> try exact Option.noConfusion h
  have hww : w < s.workers.length := getW_lt s.workers w (by rw [hgw]; simp)
  rcases hmk : (getNode pool n).Next.get? k with _ | m <;>
    simp only [hmk] at h <;> try exact Option.noConfusion h
  cases Option.some.inj h
  set s2 : EState := EState.mk
    (s.nodes.set m { getNS s.nodes m with counter := (getNS s.nodes m).counter - 1 })
    s.queueIdx (s.workers.set w (WStatus.sending n (k + 1))) with hs2
  have hw2 : s2.workers = s.workers.set w (WStatus.sending n (k + 1)) := rfl
  have hnds : s2.nodes = s.nodes.set m
      { getNS s.nodes m with counter := (getNS s.nodes m).counter - 1 } := rfl
  have hold : s.workers.getD w WStatus.done = WStatus.decing n k :=
    (getD_in_range s.workers w WStatus.done WStatus.done hww).trans hgw
  have hng_tk : n ∈ g ∧ n ∈ taken topo s :=
    (hinv.wstat w hww).1 n (by rw [hold]; simp [holdsB])
  have hng : n ∈ g := hng_tk.1
  have hntk : n ∈ taken topo s := hng_tk.2
  have hwm2 : k < (getNode pool n).Next.length ∧
      (getNS s.nodes n).result.isSome = true := by
    have hx := (hinv.wstat w hww).2
    rw [hold] at hx
    exact hx
  obtain ⟨hklen, hkm2⟩ := List.get?_eq_some.mp hmk
  have hmNext : m ∈ (getNode pool n).Next := by
    rw [← hkm2]
    exact (getNode pool n).Next.get_mem _ _
  have hmg : m ∈ g := ctx.gclosed n hng m hmNext
  have hmlt : m < List.length pool := ctx.gmem m hmg
  have hmm : m < s.nodes.length := by rw [hinv.nlen]; exact hmlt
  have hgets : getNS s2.nodes m = { getNS s.nodes m with
      counter := (getNS s.nodes m).counter - 1 } := by
    rw [hnds]
    exact getNS_set_self s.nodes m _ hmm
  have hgeto : ∀ p, p ≠ m → getNS s2.nodes p = getNS s.nodes p := by
    intro p hp
    rw [hnds]
    exact getNS_set_other s.nodes m _ p (fun hh => hp hh.symm)
  have hres_all : ∀ p, (getNS s2.nodes p).result = (getNS s.nodes p).result := by
    intro p
    by_cases hp : p = m
    · rw [hp, hgets]
    · rw [hgeto p hp]
  have hbuf_all : ∀ p, (getNS s2.nodes p).buf = (getNS s.nodes p).buf := by
    intro p
    by_cases hp : p = m
    · rw [hp, hgets]
    · rw [hgeto p hp]
  have hcntm : (getNS s2.nodes m).counter = (getNS s.nodes m).counter - 1 := by
    rw [hgets]
  have hcnto : ∀ p, p ≠ m → (getNS s2.nodes p).counter = (getNS s.nodes p).counter := by
    intro p hp
    rw [hgeto p hp]
  have hhold : ∀ n2, holders s2 n2 = holders s n2 := by
    intro n2
    have hcalc := holders_set s w (WStatus.sending n (k + 1)) hww n2
    rw [getD_in_range s.workers w (WStatus.sending n (k + 1)) WStatus.done hww,
      hold] at hcalc
    have e1 : holdsB (WStatus.decing n k) n2 = (n == n2) := rfl
    have e2 : holdsB (WStatus.sending n (k + 1)) n2 = (n == n2) := rfl
    rw [e1, e2] at hcalc
    have heq : holders s2 n2 =
        holders { s with workers := s.workers.set w (WStatus.sending n (k + 1)) } n2 := rfl
    rw [heq]
    cases hbv : (n == n2) with
    | false =>
      rw [hbv] at hcalc
      simp at hcalc
      omega
    | true =>
      rw [hbv] at hcalc
      simp at hcalc
      omega
  have hfindo : ∀ p, p ≠ n → findHolder s2 p = findHolder s p := by
    intro p hp
    have heq : findHolder s2 p =
        findHolder { s with workers := s.workers.set w (WStatus.sending n (k + 1)) } p := rfl
    rw [heq]
    refine findHolder_set_other s w (WStatus.sending n (k + 1)) p ?_ ?_
    · rw [getD_in_range s.workers w (WStatus.sending n (k + 1)) WStatus.done hww, hold]
      show (n == p) = false
      exact beq_eq_false_iff_ne.mpr fun hh => hp hh.symm
    · show (n == p) = false
      exact beq_eq_false_iff_ne.mpr fun hh => hp hh.symm
  have hfind_new : findHolder s2 n = some (WStatus.sending n (k + 1)) := by
    have hget : s2.workers.getD w WStatus.done = WStatus.sending n (k + 1) := by
      rw [hw2]
      exact getD_set_self s.workers w (WStatus.sending n (k + 1)) WStatus.done hww
    have hres2 := findHolder_of_holds s2 n w WStatus.done
      (by rw [hw2]; simpa using hww)
      (by rw [hget]; simp [holdsB])
      (by rw [hhold n]; exact hinv.uniq n)
    rw [hget] at hres2
    exact hres2
  have hfind_old : findHolder s n = some (WStatus.decing n k) := by
    have hres2 := findHolder_of_holds s n w WStatus.done hww
      (by rw [hold]; simp [holdsB]) (hinv.uniq n)
    rw [hold] at hres2
    exact hres2
  have hmk2 : (getNode pool n).Next[k]? = some m := by
    rw [← List.get?_eq_getElem?]
    exact hmk
  have htake : (getNode pool n).Next.take (k + 1) =
      (getNode pool n).Next.take k ++ [m] := by
    rw [List.take_succ, hmk2]
    rfl
  have hsS : ∀ m2, srcSends pool s2 n m2 = srcSends pool s n m2 := by
    intro m2
    unfold srcSends
    rw [hfind_new, hfind_old]
  have hsD : ∀ m2, srcDecs pool s2 n m2 = srcDecs pool s n m2 + [m].count m2 := by
    intro m2
    unfold srcDecs
    rw [hfind_new, hfind_old]
    show ((getNode pool n).Next.take (k + 1)).count m2 =
      ((getNode pool n).Next.take k).count m2 + [m].count m2
    rw [htake, List.count_append]
  have hsrco : ∀ p, p ≠ n →
      (∀ m2, srcSends pool s2 p m2 = srcSends pool s p m2) ∧
      (∀ m2, srcDecs pool s2 p m2 = srcDecs pool s p m2) := by
    intro p hp
    exact src_congr pool s s2 p (hfindo p hp) (by rw [hres_all p])
  have hdec_strict : srcDecs pool s n m + 1 ≤ (getNode pool n).Next.count m := by
    have h1 : srcDecs pool s n m = ((getNode pool n).Next.take k).count m := by
      unfold srcDecs
      rw [hfind_old]
    have h2 : ((getNode pool n).Next.take (k + 1)).count m =
        ((getNode pool n).Next.take k).count m + 1 := by
      rw [htake, List.count_append]
      simp
    have h3 : ((getNode pool n).Next.take (k + 1)).count m ≤
        (getNode pool n).Next.count m :=
      ((getNode pool n).Next.take_sublist (k + 1)).count_le m
    omega
  have hsum_new : ∀ m2, (g.map fun p => srcDecs pool s2 p m2).sum =
      (g.map fun p => srcDecs pool s p m2).sum + [m].count m2 := by
    intro m2
    exact map_sum_congr_except (fun p => srcDecs pool s p m2)
      (fun p => srcDecs pool s2 p m2) n ([m].count m2) (hsD m2) g ctx.gnd hng
      (fun p _ hp => (((hsrco p hp).2) m2).symm)
  have hsum_lt : (g.map fun p => srcDecs pool s p m).sum + 1 ≤
      (getNode pool m).indegree := by
    have hlt := list_sum_lt_sum (fun p => srcDecs pool s p m)
      (fun p => (getNode pool p).Next.count m) g
      (fun p _ => srcDecs_le_count pool s p m)
      ⟨n, hng, by
        show srcDecs pool s n m < (getNode pool n).Next.count m
        omega⟩
    rw [ctx.gindeg m hmg]
    unfold countInEdges
    omega
  refine ⟨?_, hinv.qle, ?_, ?_, ?_, ?_, ?_, ?_, ?_, ?_⟩
  · rw [hnds]
    simpa using hinv.nlen
  · intro j hj
    have hjl : j < s.workers.length := by
      have hj2 := hj
      rw [hw2] at hj2
      simpa using hj2
    by_cases hjw : w = j
    · subst hjw
      have hg : s2.workers.getD w WStatus.done = WStatus.sending n (k + 1) := by
        rw [hw2]
        exact getD_set_self s.workers w (WStatus.sending n (k + 1)) WStatus.done hww
      rw [hg]
      refine ⟨fun n2 hn2b => ?_, ?_⟩
      · have hteq : n = n2 := by simpa [holdsB] using hn2b
        rw [← hteq]
        exact ⟨hng, hntk⟩
      · refine ⟨by omega, ?_⟩
        show (getNS s2.nodes n).result.isSome = true
        rw [hres_all n]
        exact hwm2.2
    · have hg : s2.workers.getD j WStatus.done = s.workers.getD j WStatus.done := by
        rw [hw2]
        exact getD_set_other s.workers w j (WStatus.sending n (k + 1)) WStatus.done hjw
      rw [hg]
      obtain ⟨hh1, hh2⟩ := hinv.wstat j hjl
      refine ⟨fun n2 hn2b => hh1 n2 hn2b, ?_⟩
      rcases hst : s.workers.getD j WStatus.done with _ | n' | ⟨n', k'⟩ | ⟨n', k'⟩ | _ <;>
        rw [hst] at hh2 <;> try trivial
      · have hh2b : (getNS s.nodes n').result = none := hh2
        show (getNS s2.nodes n').result = none
        rw [hres_all n']
        exact hh2b
      · have hh2b : k' ≤ (getNode pool n').Next.length ∧
            (getNS s.nodes n').result.isSome = true := hh2
        show k' ≤ (getNode pool n').Next.length ∧
            (getNS s2.nodes n').result.isSome = true
        rw [hres_all n']
        exact hh2b
      · have hh2b : k' < (getNode pool n').Next.length ∧
            (getNS s.nodes n').result.isSome = true := hh2
        show k' < (getNode pool n').Next.length ∧
            (getNS s2.nodes n').result.isSome = true
        rw [hres_all n']
        exact hh2b
  · intro n2
    rw [hhold n2]
    exact hinv.uniq n2
  · intro n2 hn2b
    rw [hhold n2, hres_all n2]
    exact hinv.takenStat n2 hn2b
  · intro n2 hn2b hnt
    have hnt2 : n2 ∉ taken topo s := hnt
    obtain ⟨hr0, hh0⟩ := hinv.untakenStat n2 hn2b hnt2
    refine ⟨?_, ?_⟩
    · rw [hres_all n2]
      exact hr0
    · rw [hhold n2]
      exact hh0
  · intro m2 hm2
    have hbl : (getNS s2.nodes m2).buf.length = (getNS s.nodes m2).buf.length := by
      rw [hbuf_all m2]
    rw [hbl, hinv.bufLen m2 hm2]
    refine (map_sum_congr (fun p => srcSends pool s p m2) _ g ?_).symm
    intro p _
    by_cases hpn : p = n
    · rw [hpn]
      exact (hsS m2).symm
    · exact (((hsrco p hpn).1) m2).symm
  · intro m2 hm2
    rw [hsum_new m2]
    by_cases hm2m : m2 = m
    · rw [hm2m]
      have h1 : ([m].count m) = 1 := by simp
      rw [h1]
      have := hinv.decsLe m hmg
      rw [ctx.gindeg m hmg] at hsum_lt ⊢
      omega
    · have h0 : ([m].count m2) = 0 := List.count_eq_zero.mpr (by simp [hm2m])
      rw [h0]
      have := hinv.decsLe m2 hm2
      omega
  · intro m2 hm2
    rw [hsum_new m2]
    by_cases hm2m : m2 = m
    · rw [hm2m] at hm2 ⊢
      rw [hcntm]
      have h1 : ([m].count m) = 1 := by simp
      rw [h1]
      have hc := hinv.cnt m hmg
      have hd := hinv.decsLe m hmg
      omega
    · rw [hcnto m2 hm2m]
      have h0 : ([m].count m2) = 0 := List.count_eq_zero.mpr (by simp [hm2m])
      rw [h0]
      have := hinv.cnt m2 hm2
      omega
  · rintro ⟨j2, hj2l, hj2d⟩
    have hj2l2 : j2 < s.workers.length := by
      rw [hw2] at hj2l
      simpa using hj2l
    by_cases hj2w : w = j2
    · subst hj2w
      rw [hw2, getD_set_self s.workers w (WStatus.sending n (k + 1)) WStatus.done hww] at hj2d
      exact WStatus.noConfusion hj2d
    · rw [hw2, getD_set_other s.workers w j2 (WStatus.sending n (k + 1)) WStatus.done hj2w] at hj2d
      exact hinv.doneOk ⟨j2, hj2l2, hj2d⟩

theorem EInv_pres_finish (pool : Pool) (g topo : List Nat) (cap : Nat)
    (s s' : EState) (hinv : EInv pool g topo s) (w : Nat)
    (h : applyAction pool topo cap (Action.finish w) s = some s') :
    EInv pool g topo s' := by
  simp only [applyAction] at h
  rcases hgw : getW s.workers w with _ | n | ⟨n, k⟩ | ⟨n, k⟩ | _ <;>
    simp only [hgw] at h <;> try exact Option.noConfusion h
  have hww : w < s.workers.length := getW_lt s.workers w (by rw [hgw]; simp)
  by_cases hk : k = (getNode pool n).Next.length
  swap
  · rw [if_neg hk] at h; exact Option.noConfusion h
  rw [if_pos hk] at h
  cases Option.some.inj h
  set s2 : EState := EState.mk s.nodes s.queueIdx
    (s.workers.set w WStatus.idle) with hs2
  have hw2 : s2.workers = s.workers.set w WStatus.idle := rfl
  have hold : s.workers.getD w WStatus.done = WStatus.sending n k :=
    (getD_in_range s.workers w WStatus.done WStatus.done hww).trans hgw
  have hng_tk : n ∈ g ∧ n ∈ taken topo s :=
    (hinv.wstat w hww).1 n (by rw [hold]; simp [holdsB])
  have hng : n ∈ g := hng_tk.1
  have hntk : n ∈ taken topo s := hng_tk.2
  have hwm2 : k ≤ (getNode pool n).Next.length ∧
      (getNS s.nodes n).result.isSome = true := by
    have hx := (hinv.wstat w hww).2
    rw [hold] at hx
    exact hx
  have hholdn : holders s2 n + 1 = holders s n := by
    have hcalc := holders_set s w WStatus.idle hww n
    rw [getD_in_range s.workers w WStatus.idle WStatus.done hww, hold] at hcalc
    have e1 : holdsB (WStatus.sending n k) n = true := by simp [holdsB]
    have e2 : holdsB WStatus.idle n = false := rfl
    rw [e1, e2] at hcalc
    simp at hcalc
    have heq : holders s2 n =
        holders { s with workers := s.workers.set w WStatus.idle } n := rfl
    rw [heq]
    omega
  have hholdo : ∀ n2, n2 ≠ n → holders s2 n2 = holders s n2 := by
    intro n2 hn2
    have hcalc := holders_set s w WStatus.idle hww n2
    rw [getD_in_range s.workers w WStatus.idle WStatus.done hww, hold] at hcalc
    have e1 : holdsB (WStatus.sending n k) n2 = false := by
      show (n == n2) = false
      exact beq_eq_false_iff_ne.mpr fun hh => hn2 hh.symm
    have e2 : holdsB WStatus.idle n2 = false := rfl
    rw [e1, e2] at hcalc
    simp at hcalc
    have heq : holders s2 n2 =
        holders { s with workers := s.workers.set w WStatus.idle } n2 := rfl
    rw [heq]
    omega
  have hhold_zero : holders s2 n = 0 := by
    have := hinv.uniq n
    have h1 := holders_ge_one s n w WStatus.done hww (by rw [hold]; simp [holdsB])
    omega
  have hfindo : ∀ p, p ≠ n → findHolder s2 p = findHolder s p := by
    intro p hp
    have heq : findHolder s2 p =
        findHolder { s with workers := s.workers.set w WStatus.idle } p := rfl
    rw [heq]
    refine findHolder_set_other s w WStatus.idle p ?_ rfl
    rw [getD_in_range s.workers w WStatus.idle WStatus.done hww, hold]
    show (n == p) = false
    exact beq_eq_false_iff_ne.mpr fun hh => hp hh.symm
  have hfind_new : findHolder s2 n = none := holders_zero_findHolder s2 n hhold_zero
  have hfind_old : findHolder s n = some (WStatus.sending n k) := by
    have hres2 := findHolder_of_holds s n w WStatus.done hww
      (by rw [hold]; simp [holdsB]) (hinv.uniq n)
    rw [hold] at hres2
    exact hres2
  have hsrc : ∀ p m, srcSends pool s2 p m = srcSends pool s p m ∧
      srcDecs pool s2 p m = srcDecs pool s p m := by
    intro p m
    by_cases hp : p = n
    · subst hp
      constructor
      · unfold srcSends
        rw [hfind_new, hfind_old]
        show (if (getNS s2.nodes p).result.isSome then
            (getNode pool p).Next.count m else 0) =
          ((getNode pool p).Next.take k).count m
        have hres2 : (getNS s2.nodes p).result.isSome = true := hwm2.2
        rw [if_pos hres2, hk, List.take_length]
      · unfold srcDecs
        rw [hfind_new, hfind_old]
        show (if (getNS s2.nodes p).result.isSome then
            (getNode pool p).Next.count m else 0) =
          ((getNode pool p).Next.take k).count m
        have hres2 : (getNS s2.nodes p).result.isSome = true := hwm2.2
        rw [if_pos hres2, hk, List.take_length]
    · obtain ⟨h1, h2⟩ := src_congr pool s s2 p (hfindo p hp) rfl
      exact ⟨h1 m, h2 m⟩
  refine ⟨hinv.nlen, hinv.qle, ?_, ?_, ?_, ?_, ?_, ?_, ?_, ?_⟩
  · intro j hj
    have hjl : j < s.workers.length := by
      have hj2 := hj
      rw [hw2] at hj2
      simpa using hj2
    by_cases hjw : w = j
    · subst hjw
      have hg : s2.workers.getD w WStatus.done = WStatus.idle := by
        rw [hw2]
        exact getD_set_self s.workers w WStatus.idle WStatus.done hww
      rw [hg]
      exact ⟨fun n2 hn2b => by simp [holdsB] at hn2b, trivial⟩
    · have hg : s2.workers.getD j WStatus.done = s.workers.getD j WStatus.done := by
        rw [hw2]
        exact getD_set_other s.workers w j WStatus.idle WStatus.done hjw
      rw [hg]
      exact hinv.wstat j hjl
  · intro n2
    by_cases hn2 : n2 = n
    · rw [hn2, hhold_zero]
      omega
    · rw [hholdo n2 hn2]
      exact hinv.uniq n2
  · intro n2 hn2b
    by_cases hn2 : n2 = n
    · right
      rw [hn2]
      exact hwm2.2
    · rw [hholdo n2 hn2]
      exact hinv.takenStat n2 hn2b
  · intro n2 hn2b hnt
    have hnt2 : n2 ∉ taken topo s := hnt
    have hn2 : n2 ≠ n := fun hh => hnt2 (by rw [hh]; exact hntk)
    obtain ⟨hr0, hh0⟩ := hinv.untakenStat n2 hn2b hnt2
    refine ⟨hr0, ?_⟩
    rw [hholdo n2 hn2]
    exact hh0
  · intro m hm
    rw [hinv.bufLen m hm]
    exact (map_sum_congr _ _ g fun p _ => ((hsrc p m).1).symm).symm
  · intro m hm
    rw [map_sum_congr (fun p => srcDecs pool s p m) _ g fun p _ => ((hsrc p m).2).symm]
    exact hinv.decsLe m hm
  · intro m hm
    rw [map_sum_congr (fun p => srcDecs pool s p m) _ g fun p _ => ((hsrc p m).2).symm]
    exact hinv.cnt m hm

  · rintro ⟨j2, hj2l, hj2d⟩
    have hj2l2 : j2 < s.workers.length := by
      rw [hw2] at hj2l
      simpa using hj2l
    by_cases hj2w : w = j2
    · subst hj2w
      rw [hw2, getD_set_self s.workers w (WStatus.idle) WStatus.done hww] at hj2d
      exact WStatus.noConfusion hj2d
    · rw [hw2, getD_set_other s.workers w j2 (WStatus.idle) WStatus.done hj2w] at hj2d
      exact hinv.doneOk ⟨j2, hj2l2, hj2d⟩

/-- Every machine step preserves the invariant. -/

theorem EInv_pres_step (pool : Pool) (g topo : List Nat) (cap : Nat)
    (ctx : EvalCtx pool g topo cap) (s s' : EState) (hinv : EInv pool g topo s)
    (h : EStep pool topo cap s s') : EInv pool g topo s' := by
  obtain ⟨a, ha⟩ := h
  cases a with
  | dequeue w => exact EInv_pres_dequeue pool g topo cap ctx s s' hinv w ha
  | exit w => exact EInv_pres_exit pool g topo cap s s' hinv w ha
  | compute w => exact EInv_pres_compute pool g topo cap ctx s s' hinv w ha
  | send w => exact EInv_pres_send pool g topo cap ctx s s' hinv w ha
  | dec w => exact EInv_pres_dec pool g topo cap ctx s s' hinv w ha
  | finish w => exact EInv_pres_finish pool g topo cap s s' hinv w ha

/-- Node states at launch. -/
theorem getNS_init (pool : Pool) (c : Nat) (m : Nat) (hm : m < pool.length) :
    getNS (initEState pool c).nodes m = initNState (getNode pool m) := by
  show getNS (pool.map initNState) m = _
  unfold getNS getNode
  rw [List.getD_eq_getElem _ _ (by simpa using hm), List.getElem_map,
    List.getD_eq_getElem _ _ hm]

/-- Nobody holds anything at launch. -/
theorem holders_init (pool : Pool) (c : Nat) (n : Nat) :
    holders (initEState pool c) n = 0 := by
  simp [holders, initEState, holdsB, List.map_replicate, List.sum_replicate]

/-- The invariant holds at the launch state. -/
theorem EInv_init (pool : Pool) (g topo : List Nat) (cap : Nat)
    (ctx : EvalCtx pool g topo cap) (c : Nat) :
    EInv pool g topo (initEState pool c) := by
  have hsrc0 : ∀ m, ∀ p ∈ g, srcSends pool (initEState pool c) p m = 0 ∧
      srcDecs pool (initEState pool c) p m = 0 := by
    intro m p hp
    have hfind : findHolder (initEState pool c) p = none :=
      holders_zero_findHolder _ p (holders_init pool c p)
    have hres : (getNS (initEState pool c).nodes p).result.isSome = false := by
      rw [getNS_init pool c p (ctx.gmem p hp)]
      rfl
    constructor
    · unfold srcSends
      rw [hfind]
      show (if (getNS (initEState pool c).nodes p).result.isSome then
        (getNode pool p).Next.count m else 0) = 0
      rw [hres]
      rfl
    · unfold srcDecs
      rw [hfind]
      show (if (getNS (initEState pool c).nodes p).result.isSome then
        (getNode pool p).Next.count m else 0) = 0
      rw [hres]
      rfl
  have hsum0 : ∀ f : Nat → Nat, (∀ p ∈ g, f p = 0) →
      (g.map f).sum = 0 := by
    intro f hf
    apply List.sum_eq_zero
    intro x hx
    obtain ⟨p, hp, rfl⟩ := List.mem_map.mp hx
    exact hf p hp
  refine ⟨by simp [initEState], Nat.zero_le _, ?_, ?_, ?_, ?_, ?_, ?_, ?_, ?_⟩
  · intro j hj
    have hjc : j < c := by simpa [initEState] using hj
    have hg : (initEState pool c).workers.getD j WStatus.done = WStatus.idle := by
      show (List.replicate c WStatus.idle).getD j WStatus.done = WStatus.idle
      rw [List.getD_eq_getElem _ _ (by simpa using hjc)]
      exact List.getElem_replicate WStatus.idle _
    rw [hg]
    exact ⟨fun n2 hn2 => by simp [holdsB] at hn2, trivial⟩
  · intro n2
    rw [holders_init pool c n2]
    omega
  · intro n2 hn2
    simp [taken, initEState] at hn2
  · intro n2 hn2 _
    refine ⟨?_, holders_init pool c n2⟩
    rw [getNS_init pool c n2 (ctx.gmem n2 hn2)]
    rfl
  · intro m hm
    rw [getNS_init pool c m (ctx.gmem m hm)]
    rw [hsum0 _ fun p hp => (hsrc0 m p hp).1]
    rfl
  · intro m hm
    rw [hsum0 _ fun p hp => (hsrc0 m p hp).2]
    exact Nat.zero_le _
  · intro m hm
    rw [getNS_init pool c m (ctx.gmem m hm)]
    rw [hsum0 _ fun p hp => (hsrc0 m p hp).2]
    rfl

  · rintro ⟨j2, hj2l, hj2d⟩
    have hjc : j2 < c := by simpa [initEState] using hj2l
    have hgi : (initEState pool c).workers.getD j2 WStatus.done = WStatus.idle := by
      show (List.replicate c WStatus.idle).getD j2 WStatus.done = WStatus.idle
      rw [List.getD_eq_getElem _ _ (by simpa using hjc)]
      exact List.getElem_replicate WStatus.idle _
    rw [hgi] at hj2d
    exact WStatus.noConfusion hj2d

/-- The invariant holds at every reachable state. -/

theorem EInv_reach (pool : Pool) (g topo : List Nat) (cap : Nat)
    (ctx : EvalCtx pool g topo cap) (s s' : EState) (hinv : EInv pool g topo s)
    (h : EReach pool topo cap s s') : EInv pool g topo s' := by
  induction h with
  | refl => exact hinv
  | tail _ hstep ih => exact EInv_pres_step pool g topo cap ctx _ _ ih hstep

/-- A source's send count into `m` never exceeds the number of its edges
into `m`. -/
theorem srcSends_le_count (pool : Pool) (s : EState) (p m : Nat) :
    srcSends pool s p m ≤ (getNode pool p).Next.count m := by
  unfold srcSends
  rcases hf : findHolder s p with _ | st
  · show (if (getNS s.nodes p).result.isSome then
      (getNode pool p).Next.count m else 0) ≤ _
    by_cases hres : (getNS s.nodes p).result.isSome = true
    · rw [if_pos hres]
    · rw [if_neg hres]
      exact Nat.zero_le _
  · have hf2 : s.workers.find? (fun st2 => holdsB st2 p) = some st := hf
    have hholds0 := List.find?_some hf2
    have hholds : holdsB st p = true := hholds0
    rcases st with _ | n' | ⟨n', k'⟩ | ⟨n', k'⟩ | _
    · exact Nat.zero_le _
    · exact Nat.zero_le _
    · have hnp : n' = p := by simpa [holdsB] using hholds
      show (((getNode pool n').Next.take k').count m) ≤ _
      rw [hnp]
      exact ((getNode pool p).Next.take_sublist k').count_le m
    · have hnp : n' = p := by simpa [holdsB] using hholds
      show (((getNode pool n').Next.take (k' + 1)).count m) ≤ _
      rw [hnp]
      exact ((getNode pool p).Next.take_sublist (k' + 1)).count_le m
    · exact Nat.zero_le _

/-- Membership in a prefix is position below the cut. -/
theorem mem_take_iff_indexOf :
    ∀ (l : List Nat) (q x : Nat), x ∈ l → (x ∈ l.take q ↔ l.indexOf x < q) := by
  intro l
  induction l with
  | nil => intro q x hx; exact absurd hx (List.not_mem_nil x)
  | cons a t ih =>
    intro q x hx
    cases q with
    | zero => simp
    | succ q =>
      by_cases hxa : x = a
      · subst hxa
        simp [List.take_succ_cons, List.indexOf_cons_self]
      · have hxt : x ∈ t := by
          rcases List.mem_cons.mp hx with h | h
          · exact absurd h hxa
          · exact h
        rw [List.take_succ_cons]
        constructor
        · intro hmem
          have hmt : x ∈ t.take q := by
            rcases List.mem_cons.mp hmem with h | h
            · exact absurd h hxa
            · exact h
          have hlt := (ih q x hxt).mp hmt
          rw [List.indexOf_cons_ne t (fun hh => hxa hh.symm)]
          omega
        · intro hlt
          rw [List.indexOf_cons_ne t (fun hh => hxa hh.symm)] at hlt
          exact List.mem_cons_of_mem a ((ih q x hxt).mpr (by omega))

/-- A nonempty list of naturals has a member minimising any measure. -/
theorem exists_min_by (f : Nat → Nat) :
    ∀ l : List Nat, l ≠ [] → ∃ x ∈ l, ∀ y ∈ l, f x ≤ f y := by
  intro l
  induction l with
  | nil => intro h; exact absurd rfl h
  | cons a t ih =>
    intro _
    cases t with
    | nil =>
      refine ⟨a, List.mem_cons_self a [], fun y hy => ?_⟩
      rcases List.mem_cons.mp hy with rfl | h
      · exact le_refl _
      · exact absurd h (List.not_mem_nil y)
    | cons b t2 =>
      obtain ⟨x, hx, hmin⟩ := ih (by simp)
      by_cases hax : f a ≤ f x
      · refine ⟨a, List.mem_cons_self a _, fun y hy => ?_⟩
        rcases List.mem_cons.mp hy with rfl | h
        · exact le_refl _
        · exact le_trans hax (hmin y h)
      · refine ⟨x, List.mem_cons_of_mem a hx, fun y hy => ?_⟩
        rcases List.mem_cons.mp hy with rfl | h
        · omega
        · exact hmin y h

/-- Package one enabled action as a step witness. -/
theorem estep_of_apply (pool : Pool) (topo : List Nat) (cap : Nat) (a : Action)
    (s x : EState) (h : applyAction pool topo cap a s = some x) :
    ∃ s', EStep pool topo cap s s' := ⟨x, a, h⟩

/-- An idle worker can always move: dequeue if work remains, exit
otherwise. -/
theorem step_of_idle (pool : Pool) (topo : List Nat) (cap : Nat) (s : EState)
    (g : List Nat) (hinv : EInv pool g topo s) (j : Nat)
    (hj0 : s.workers.getD j WStatus.done = WStatus.idle) :
    ∃ s', EStep pool topo cap s s' := by
  have hj0' : getW s.workers j = WStatus.idle := hj0
  by_cases hq : s.queueIdx < topo.length
  · refine estep_of_apply pool topo cap (Action.dequeue j) s
      { s with workers := s.workers.set j (WStatus.waiting (topo.get ⟨s.queueIdx, hq⟩)),
               queueIdx := s.queueIdx + 1 } ?_
    simp only [applyAction, hj0']
    rw [dif_pos hq]
  · have hqe : s.queueIdx = topo.length :=
      le_antisymm hinv.qle (Nat.le_of_not_lt hq)
    refine estep_of_apply pool topo cap (Action.exit j) s
      { s with workers := s.workers.set j WStatus.done } ?_
    simp only [applyAction, hj0']
    rw [if_pos hqe]

/-- A worker about to `Done()` can always move. -/
theorem step_of_decing (pool : Pool) (topo : List Nat) (cap : Nat) (s : EState)
    (g : List Nat) (hinv : EInv pool g topo s) (j n k : Nat)
    (hj0 : s.workers.getD j WStatus.done = WStatus.decing n k) :
    ∃ s', EStep pool topo cap s s' := by
  have hj0' : getW s.workers j = WStatus.decing n k := hj0
  have hjl : j < s.workers.length := getW_lt s.workers j (by rw [hj0']; simp)
  have hwm : k < (getNode pool n).Next.length ∧
      (getNS s.nodes n).result.isSome = true := by
    have hx := (hinv.wstat j hjl).2
    rw [hj0] at hx
    exact hx
  have hget : (getNode pool n).Next.get? k =
      some ((getNode pool n).Next.get ⟨k, hwm.1⟩) :=
    List.get?_eq_some.mpr ⟨hwm.1, rfl⟩
  refine estep_of_apply pool topo cap (Action.dec j) s
    (EState.mk
      (s.nodes.set ((getNode pool n).Next.get ⟨k, hwm.1⟩)
        ({ getNS s.nodes ((getNode pool n).Next.get ⟨k, hwm.1⟩) with
           counter := (getNS s.nodes ((getNode pool n).Next.get ⟨k, hwm.1⟩)).counter - 1 }))
      s.queueIdx
      (s.workers.set j (WStatus.sending n (k + 1)))) ?_
  simp only [applyAction, hj0', hget]

/-- A worker mid-send can always move: finish after the last edge, and the
strict channel-capacity bound keeps every pending send unblocked. -/
theorem step_of_sending (pool : Pool) (topo : List Nat) (cap : Nat) (s : EState)
    (g : List Nat) (ctx : EvalCtx pool g topo cap) (hinv : EInv pool g topo s)
    (j n k : Nat)
    (hj0 : s.workers.getD j WStatus.done = WStatus.sending n k) :
    ∃ s', EStep pool topo cap s s' := by
  have hj0' : getW s.workers j = WStatus.sending n k := hj0
  have hjl : j < s.workers.length := getW_lt s.workers j (by rw [hj0']; simp)
  have hwm : k ≤ (getNode pool n).Next.length ∧
      (getNS s.nodes n).result.isSome = true := by
    have hx := (hinv.wstat j hjl).2
    rw [hj0] at hx
    exact hx
  by_cases hkl : k = (getNode pool n).Next.length
  · refine estep_of_apply pool topo cap (Action.finish j) s
      { s with workers := s.workers.set j WStatus.idle } ?_
    simp only [applyAction, hj0']
    rw [if_pos hkl]
  · have hklt : k < (getNode pool n).Next.length := lt_of_le_of_ne hwm.1 hkl
    set m := (getNode pool n).Next.get ⟨k, hklt⟩ with hm
    have hget : (getNode pool n).Next.get? k = some m :=
      List.get?_eq_some.mpr ⟨hklt, rfl⟩
    obtain ⟨r, hr⟩ := Option.isSome_iff_exists.mp hwm.2
    have hng : n ∈ g :=
      ((hinv.wstat j hjl).1 n (by rw [hj0]; simp [holdsB])).1
    have hmNext : m ∈ (getNode pool n).Next := (getNode pool n).Next.get_mem _ _
    have hmg : m ∈ g := ctx.gclosed n hng m hmNext
    have hfind_n : findHolder s n = some (WStatus.sending n k) := by
      have hres2 := findHolder_of_holds s n j WStatus.done hjl
        (by rw [hj0]; simp [holdsB]) (hinv.uniq n)
      rw [hj0] at hres2
      exact hres2
    have hmk2 : (getNode pool n).Next[k]? = some m := by
      rw [← List.get?_eq_getElem?]
      exact hget
    have htake : (getNode pool n).Next.take (k + 1) =
        (getNode pool n).Next.take k ++ [m] := by
      rw [List.take_succ, hmk2]
      rfl
    have hstrict : srcSends pool s n m < (getNode pool n).Next.count m := by
      have h1 : srcSends pool s n m = ((getNode pool n).Next.take k).count m := by
        unfold srcSends
        rw [hfind_n]
      have h2 : ((getNode pool n).Next.take (k + 1)).count m =
          ((getNode pool n).Next.take k).count m + 1 := by
        rw [htake, List.count_append]
        simp
      have h3 : ((getNode pool n).Next.take (k + 1)).count m ≤
          (getNode pool n).Next.count m :=
        ((getNode pool n).Next.take_sublist (k + 1)).count_le m
      omega
    have hsum_lt : (g.map fun p => srcSends pool s p m).sum <
        (getNode pool m).indegree := by
      have hlt := list_sum_lt_sum (fun p => srcSends pool s p m)
        (fun p => (getNode pool p).Next.count m) g
        (fun p _ => srcSends_le_count pool s p m)
        ⟨n, hng, by
          show srcSends pool s n m < (getNode pool n).Next.count m
          omega⟩
      rw [ctx.gindeg m hmg]
      unfold countInEdges
      omega
    have hcap : (getNS s.nodes m).buf.length < cap := by
      rw [hinv.bufLen m hmg]
      have := ctx.gcap m hmg
      omega
    refine estep_of_apply pool topo cap (Action.send j) s
      (EState.mk
        (s.nodes.set m
          ({ getNS s.nodes m with buf := (getNS s.nodes m).buf ++ [r] }))
        s.queueIdx
        (s.workers.set j (WStatus.decing n k))) ?_
    simp only [applyAction, hj0', hget, hr]
    rw [if_pos hcap]

/-- The node a waiting worker holds, if any. -/
def wnode (st : WStatus) : Option Nat :=
  match st with
  | WStatus.waiting n => some n
  | _ => none

/-- Under the validated-graph hypotheses a non-final state always has an
enabled micro-step: the worker pool cannot deadlock. -/
theorem EProgress (pool : Pool) (g topo : List Nat) (cap : Nat)
    (ctx : EvalCtx pool g topo cap) (s : EState) (hinv : EInv pool g topo s)
    (hnf : ¬ EFinal s) : ∃ s', EStep pool topo cap s s' := by
  by_cases hact : ∃ st ∈ s.workers, st = WStatus.idle ∨
      (∃ n k, st = WStatus.sending n k) ∨ (∃ n k, st = WStatus.decing n k)
  · obtain ⟨st, hstw, hcase⟩ := hact
    obtain ⟨⟨j, hj⟩, hjst⟩ := List.mem_iff_get.mp hstw
    have hjd : s.workers.getD j WStatus.done = st := by
      rw [List.getD_eq_getElem _ _ hj]
      exact hjst
    rcases hcase with h1 | ⟨n, k, h1⟩ | ⟨n, k, h1⟩
    · exact step_of_idle pool topo cap s g hinv j (by rw [hjd, h1])
    · exact step_of_sending pool topo cap s g ctx hinv j n k (by rw [hjd, h1])
    · exact step_of_decing pool topo cap s g hinv j n k (by rw [hjd, h1])
  · push_neg at hact
    have hwex : ∃ n, WStatus.waiting n ∈ s.workers := by
      unfold EFinal at hnf
      push_neg at hnf
      obtain ⟨st, hstw, hne⟩ := hnf
      obtain ⟨hn1, hn2, hn3⟩ := hact st hstw
      rcases st with _ | n0 | ⟨n0, k0⟩ | ⟨n0, k0⟩ | _
      · exact absurd rfl hn1
      · exact ⟨n0, hstw⟩
      · exact absurd rfl (hn2 n0 k0)
      · exact absurd rfl (hn3 n0 k0)
      · exact absurd rfl hne
    have hmemc : ∀ x, x ∈ s.workers.filterMap wnode ↔
        WStatus.waiting x ∈ s.workers := by
      intro x
      rw [List.mem_filterMap]
      constructor
      · rintro ⟨st, hstw, hmap⟩
        rcases st with _ | n0 | ⟨n0, k0⟩ | ⟨n0, k0⟩ | _
        · exact Option.noConfusion hmap
        · have hx : n0 = x := Option.some.inj hmap
          subst hx
          exact hstw
        · exact Option.noConfusion hmap
        · exact Option.noConfusion hmap
        · exact Option.noConfusion hmap
      · intro hw
        exact ⟨WStatus.waiting x, hw, rfl⟩
    obtain ⟨n1, hw1⟩ := hwex
    have hc1 : n1 ∈ s.workers.filterMap wnode := (hmemc n1).mpr hw1
    obtain ⟨nm, hnmc, hnmmin⟩ := exists_min_by (fun x => topo.indexOf x)
      (s.workers.filterMap wnode) (List.ne_nil_of_mem hc1)
    have hwnm : WStatus.waiting nm ∈ s.workers := (hmemc nm).mp hnmc
    obtain ⟨⟨j, hj⟩, hjst⟩ := List.mem_iff_get.mp hwnm
    have hjd : s.workers.getD j WStatus.done = WStatus.waiting nm := by
      rw [List.getD_eq_getElem _ _ hj]
      exact hjst
    have hjd' : getW s.workers j = WStatus.waiting nm := hjd
    have hng2 : nm ∈ g ∧ nm ∈ taken topo s :=
      (hinv.wstat j hj).1 nm (by rw [hjd]; simp [holdsB])
    have hcount : (getNS s.nodes nm).counter = 0 := by
      by_contra hcnz
      have hcnt := hinv.cnt nm hng2.1
      have hdle := hinv.decsLe nm hng2.1
      have hlt : (g.map fun p => srcDecs pool s p nm).sum <
          (getNode pool nm).indegree := by omega
      rw [ctx.gindeg nm hng2.1] at hlt
      unfold countInEdges at hlt
      have hexp : ∃ p ∈ g, srcDecs pool s p nm < (getNode pool p).Next.count nm := by
        by_contra hall
        push_neg at hall
        have hsame := map_sum_congr (fun p => srcDecs pool s p nm)
          (fun p => (getNode pool p).Next.count nm) g
          (fun p hp => le_antisymm (srcDecs_le_count pool s p nm) (hall p hp))
        omega
      obtain ⟨p, hp, hplt⟩ := hexp
      have hpcount : 0 < (getNode pool p).Next.count nm := by omega
      have hpnext : nm ∈ (getNode pool p).Next := by
        by_contra hnm
        rw [List.count_eq_zero.mpr hnm] at hpcount
        omega
      have hord : topo.indexOf p < topo.indexOf nm := ctx.tord p nm hp hpnext
      rcases hfp : findHolder s p with _ | stp
      · have hd : srcDecs pool s p nm = (if (getNS s.nodes p).result.isSome then
            (getNode pool p).Next.count nm else 0) := by
          unfold srcDecs
          rw [hfp]
        by_cases hrp : (getNS s.nodes p).result.isSome = true
        · rw [hd, if_pos hrp] at hplt
          omega
        · have hf2 : s.workers.find? (fun st2 => holdsB st2 p) = none := hfp
          have hh0 : holders s p = 0 := by
            unfold holders
            apply List.sum_eq_zero
            intro x hx
            obtain ⟨st, hstw, rfl⟩ := List.mem_map.mp hx
            have hfn := List.find?_eq_none.mp hf2 st hstw
            have hb : holdsB st p = false := by
              cases hbc : holdsB st p
              · rfl
              · exact absurd hbc hfn
            simp [hb]
          have hpnt : p ∉ taken topo s := by
            intro hptk
            rcases hinv.takenStat p hptk with h1 | h1
            · omega
            · exact hrp h1
          apply hpnt
          have hnmtk : nm ∈ topo.take s.queueIdx := hng2.2
          have hnmlt : topo.indexOf nm < s.queueIdx :=
            (mem_take_iff_indexOf topo s.queueIdx nm ((ctx.tmem nm).mpr hng2.1)).mp hnmtk
          have hptopo : p ∈ topo := (ctx.tmem p).mpr hp
          show p ∈ topo.take s.queueIdx
          exact (mem_take_iff_indexOf topo s.queueIdx p hptopo).mpr (by omega)
      · have hf2 : s.workers.find? (fun st2 => holdsB st2 p) = some stp := hfp
        have hstpw : stp ∈ s.workers := List.mem_of_find?_eq_some hf2
        have hholds0 := List.find?_some hf2
        have hstph : holdsB stp p = true := hholds0
        obtain ⟨hn1, hn2, hn3⟩ := hact stp hstpw
        rcases stp with _ | np | ⟨np, kp⟩ | ⟨np, kp⟩ | _
        · simp [holdsB] at hstph
        · have hnp : np = p := by simpa [holdsB] using hstph
          subst hnp
          have hpc : np ∈ s.workers.filterMap wnode := (hmemc np).mpr hstpw
          have hmin2 := hnmmin np hpc
          omega
        · exact absurd rfl (hn2 np kp)
        · exact absurd rfl (hn3 np kp)
        · simp [holdsB] at hstph
    refine estep_of_apply pool topo cap (Action.compute j) s
      (EState.mk
        (s.nodes.set nm
          ({ getNS s.nodes nm with
             result := some ((getNode pool nm).eval (getNS s.nodes nm).buf) }))
        s.queueIdx
        (s.workers.set j (WStatus.sending nm 0))) ?_
    simp only [applyAction, hjd']
    rw [if_pos hcount]

/-- Micro-step weight of one worker's remaining work. -/
def wWeight (pool : Pool) (st : WStatus) : Nat :=
  match st with
  | WStatus.done => 0
  | WStatus.idle => 1
  | WStatus.waiting n => 3 + 2 * (getNode pool n).Next.length
  | WStatus.sending n k => 2 + 2 * ((getNode pool n).Next.length - k)
  | WStatus.decing n k => 1 + 2 * ((getNode pool n).Next.length - k)

/-- Strict upper bound on any single waiting weight. -/
def maxW (pool : Pool) : Nat := 3 + 2 * (pool.map fun nd => nd.Next.length).sum

/-- Termination measure of the evaluation machine. -/
def mu (pool : Pool) (topo : List Nat) (s : EState) : Nat :=
  maxW pool * (topo.length - s.queueIdx) + (s.workers.map (wWeight pool)).sum

/-- Every micro-step strictly decreases the measure. -/
theorem mu_step_decreases (pool : Pool) (g topo : List Nat) (cap : Nat)
    (ctx : EvalCtx pool g topo cap) (s s' : EState) (hinv : EInv pool g topo s)
    (h : EStep pool topo cap s s') : mu pool topo s' < mu pool topo s := by
  obtain ⟨a, ha⟩ := h
  cases a with
  | dequeue w =>
    simp only [applyAction] at ha
    rcases hgw : getW s.workers w with _ | n | ⟨n, k⟩ | ⟨n, k⟩ | _ <;>
      simp only [hgw] at ha <;> try exact Option.noConfusion ha
    have hww : w < s.workers.length := getW_lt s.workers w (by rw [hgw]; simp)
    by_cases hq : s.queueIdx < topo.length
    swap
    · rw [dif_neg hq] at ha; exact Option.noConfusion ha
    rw [dif_pos hq] at ha
    cases Option.some.inj ha
    set t := topo.get ⟨s.queueIdx, hq⟩ with ht
    have hms := map_sum_set (wWeight pool) s.workers w (WStatus.waiting t) hww
    have hgd : s.workers.getD w (WStatus.waiting t) = WStatus.idle :=
      (getD_in_range s.workers w (WStatus.waiting t) WStatus.done hww).trans hgw
    rw [hgd] at hms
    have e1 : wWeight pool WStatus.idle = 1 := rfl
    have e2 : wWeight pool (WStatus.waiting t) =
        3 + 2 * (getNode pool t).Next.length := rfl
    rw [e1, e2] at hms
    have htg : t ∈ g := (ctx.tmem t).mp (topo.get_mem _ _)
    have hLt : (getNode pool t).Next.length ≤
        (pool.map fun nd => nd.Next.length).sum := by
      have hmem : getNode pool t ∈ pool := getNode_mem pool t (ctx.gmem t htg)
      exact List.single_le_sum (fun y _ => Nat.zero_le y) _
        (List.mem_map.mpr ⟨_, hmem, rfl⟩)
    have hKgt : 2 + 2 * (getNode pool t).Next.length < maxW pool := by
      show 2 + 2 * (getNode pool t).Next.length <
        3 + 2 * (pool.map fun nd => nd.Next.length).sum
      omega
    show maxW pool * (topo.length - (s.queueIdx + 1)) +
        ((s.workers.set w (WStatus.waiting t)).map (wWeight pool)).sum <
      maxW pool * (topo.length - s.queueIdx) +
        (s.workers.map (wWeight pool)).sum
    have hq1 : topo.length - s.queueIdx =
        (topo.length - (s.queueIdx + 1)) + 1 := by omega
    rw [hq1, Nat.mul_succ]
    omega
  | exit w =>
    simp only [applyAction] at ha
    rcases hgw : getW s.workers w with _ | n | ⟨n, k⟩ | ⟨n, k⟩ | _ <;>
      simp only [hgw] at ha <;> try exact Option.noConfusion ha
    have hww : w < s.workers.length := getW_lt s.workers w (by rw [hgw]; simp)
    by_cases hq : s.queueIdx = topo.length
    swap
    · rw [if_neg hq] at ha; exact Option.noConfusion ha
    rw [if_pos hq] at ha
    cases Option.some.inj ha
    have hms := map_sum_set (wWeight pool) s.workers w WStatus.done hww
    have hgd : s.workers.getD w WStatus.done = WStatus.idle :=
      (getD_in_range s.workers w WStatus.done WStatus.done hww).trans hgw
    rw [hgd] at hms
    have e1 : wWeight pool WStatus.idle = 1 := rfl
    have e2 : wWeight pool WStatus.done = 0 := rfl
    rw [e1, e2] at hms
    show maxW pool * (topo.length - s.queueIdx) +
        ((s.workers.set w WStatus.done).map (wWeight pool)).sum <
      maxW pool * (topo.length - s.queueIdx) +
        (s.workers.map (wWeight pool)).sum
    omega
  | compute w =>
    simp only [applyAction] at ha
    rcases hgw : getW s.workers w with _ | n | ⟨n, k⟩ | ⟨n, k⟩ | _ <;>
      simp only [hgw] at ha <;> try exact Option.noConfusion ha
    have hww : w < s.workers.length := getW_lt s.workers w (by rw [hgw]; simp)
    by_cases hc : (getNS s.nodes n).counter = 0
    swap
    · rw [if_neg hc] at ha; exact Option.noConfusion ha
    rw [if_pos hc] at ha
    cases Option.some.inj ha
    have hms := map_sum_set (wWeight pool) s.workers w (WStatus.sending n 0) hww
    have hgd : s.workers.getD w (WStatus.sending n 0) = WStatus.waiting n :=
      (getD_in_range s.workers w (WStatus.sending n 0) WStatus.done hww).trans hgw
    rw [hgd] at hms
    have e1 : wWeight pool (WStatus.waiting n) =
        3 + 2 * (getNode pool n).Next.length := rfl
    have e2 : wWeight pool (WStatus.sending n 0) =
        2 + 2 * ((getNode pool n).Next.length - 0) := rfl
    rw [e1, e2] at hms
    show maxW pool * (topo.length - s.queueIdx) +
        ((s.workers.set w (WStatus.sending n 0)).map (wWeight pool)).sum <
      maxW pool * (topo.length - s.queueIdx) +
        (s.workers.map (wWeight pool)).sum
    omega
  | send w =>
    simp only [applyAction] at ha
    rcases hgw : getW s.workers w with _ | n | ⟨n, k⟩ | ⟨n, k⟩ | _ <;>
      simp only [hgw] at ha <;> try exact Option.noConfusion ha
    have hww : w < s.workers.length := getW_lt s.workers w (by rw [hgw]; simp)
    rcases hmk : (getNode pool n).Next.get? k with _ | m <;>
      simp only [hmk] at ha <;> try exact Option.noConfusion ha
    rcases hr : (getNS s.nodes n).result with _ | r <;>
      simp only [hr] at ha <;> try exact Option.noConfusion ha
    by_cases hbc : (getNS s.nodes m).buf.length < cap
    swap
    · rw [if_neg hbc] at ha; exact Option.noConfusion ha
    rw [if_pos hbc] at ha
    cases Option.some.inj ha
    have hms := map_sum_set (wWeight pool) s.workers w (WStatus.decing n k) hww
    have hgd : s.workers.getD w (WStatus.decing n k) = WStatus.sending n k :=
      (getD_in_range s.workers w (WStatus.decing n k) WStatus.done hww).trans hgw
    rw [hgd] at hms
    have e1 : wWeight pool (WStatus.sending n k) =
        2 + 2 * ((getNode pool n).Next.length - k) := rfl
    have e2 : wWeight pool (WStatus.decing n k) =
        1 + 2 * ((getNode pool n).Next.length - k) := rfl
    rw [e1, e2] at hms
    show maxW pool * (topo.length - s.queueIdx) +
        ((s.workers.set w (WStatus.decing n k)).map (wWeight pool)).sum <
      maxW pool * (topo.length - s.queueIdx) +
        (s.workers.map (wWeight pool)).sum
    omega
  | dec w =>
    simp only [applyAction] at ha
    rcases hgw : getW s.workers w with _ | n | ⟨n, k⟩ | ⟨n, k⟩ | _ <;>
      simp only [hgw] at ha <;> try exact Option.noConfusion ha
    have hww : w < s.workers.length := getW_lt s.workers w (by rw [hgw]; simp)
    rcases hmk : (getNode pool n).Next.get? k with _ | m <;>
      simp only [hmk] at ha <;> try exact Option.noConfusion ha
    cases Option.some.inj ha
    have hklen : k < (getNode pool n).Next.length := by
      have hx := (hinv.wstat w hww).2
      have hgd0 : s.workers.getD w WStatus.done = WStatus.decing n k :=
        (getD_in_range s.workers w WStatus.done WStatus.done hww).trans hgw
      rw [hgd0] at hx
      exact hx.1
    have hms := map_sum_set (wWeight pool) s.workers w (WStatus.sending n (k + 1)) hww
    have hgd : s.workers.getD w (WStatus.sending n (k + 1)) = WStatus.decing n k :=
      (getD_in_range s.workers w (WStatus.sending n (k + 1)) WStatus.done hww).trans hgw
    rw [hgd] at hms
    have e1 : wWeight pool (WStatus.decing n k) =
        1 + 2 * ((getNode pool n).Next.length - k) := rfl
    have e2 : wWeight pool (WStatus.sending n (k + 1)) =
        2 + 2 * ((getNode pool n).Next.length - (k + 1)) := rfl
    rw [e1, e2] at hms
    show maxW pool * (topo.length - s.queueIdx) +
        ((s.workers.set w (WStatus.sending n (k + 1))).map (wWeight pool)).sum <
      maxW pool * (topo.length - s.queueIdx) +
        (s.workers.map (wWeight pool)).sum
    omega
  | finish w =>
    simp only [applyAction] at ha
    rcases hgw : getW s.workers w with _ | n | ⟨n, k⟩ | ⟨n, k⟩ | _ <;>
      simp only [hgw] at ha <;> try exact Option.noConfusion ha
    have hww : w < s.workers.length := getW_lt s.workers w (by rw [hgw]; simp)
    by_cases hk : k = (getNode pool n).Next.length
    swap
    · rw [if_neg hk] at ha; exact Option.noConfusion ha
    rw [if_pos hk] at ha
    cases Option.some.inj ha
    have hms := map_sum_set (wWeight pool) s.workers w WStatus.idle hww
    have hgd : s.workers.getD w WStatus.idle = WStatus.sending n k :=
      (getD_in_range s.workers w WStatus.idle WStatus.done hww).trans hgw
    rw [hgd] at hms
    have e1 : wWeight pool (WStatus.sending n k) =
        2 + 2 * ((getNode pool n).Next.length - k) := rfl
    have e2 : wWeight pool WStatus.idle = 1 := rfl
    rw [e1, e2] at hms
    show maxW pool * (topo.length - s.queueIdx) +
        ((s.workers.set w WStatus.idle).map (wWeight pool)).sum <
      maxW pool * (topo.length - s.queueIdx) +
        (s.workers.map (wWeight pool)).sum
    rw [hk] at hms
    have hz : (getNode pool n).Next.length - (getNode pool n).Next.length = 0 := by
      omega
    rw [hz] at hms
    omega

/-! ## Denotational results of a validated DAG

With order-insensitive aggregations every interleaving computes the same
per-node value; `denGo` is that value, defined by fuel-bounded recursion
over the (acyclic) predecessor structure. -/

/-- Fuel-indexed denotation: the aggregation applied to the canonical
member-order arrival list of fully delivered predecessor values. -/
def denGo (pool : Pool) (g : List Nat) : Nat → Nat → Int
  | 0, _ => 0
  | fuel+1, n =>
    (getNode pool n).eval
      ((g.map fun p =>
        List.replicate ((getNode pool p).Next.count n) (denGo pool g fuel p)).flatten)

/-- The denotation with enough fuel for every node of the graph. -/
def den (pool : Pool) (g topo : List Nat) (n : Nat) : Int :=
  denGo pool g topo.length n

/-- Aggregations whose value does not depend on arrival order. -/
def CommEval (pool : Pool) (g : List Nat) : Prop :=
  ∀ i ∈ g, ∀ l l' : List Int, l.Perm l' →
    (getNode pool i).eval l = (getNode pool i).eval l'

/-- Above the node's topological position the fuelled denotation is
stable. -/
theorem denGo_stable (pool : Pool) (g topo : List Nat) (cap : Nat)
    (ctx : EvalCtx pool g topo cap) :
    ∀ d n, n ∈ g → topo.indexOf n ≤ d → ∀ f1 f2, topo.indexOf n < f1 →
      topo.indexOf n < f2 → denGo pool g f1 n = denGo pool g f2 n := by
  intro d
  induction d with
  | zero =>
    intro n hng hnd f1 f2 h1 h2
    cases f1 with
    | zero => exact absurd h1 (by omega)
    | succ a =>
      cases f2 with
      | zero => exact absurd h2 (by omega)
      | succ b =>
        show (getNode pool n).eval _ = (getNode pool n).eval _
        congr 1
        congr 1
        apply List.map_congr_left
        intro p hp
        by_cases hc : (getNode pool p).Next.count n = 0
        · rw [hc]
          rfl
        · exfalso
          have hmem : n ∈ (getNode pool p).Next := by
            by_contra hq
            exact hc (List.count_eq_zero.mpr hq)
          have := ctx.tord p n hp hmem
          omega
  | succ d ih =>
    intro n hng hnd f1 f2 h1 h2
    cases f1 with
    | zero => exact absurd h1 (by omega)
    | succ a =>
      cases f2 with
      | zero => exact absurd h2 (by omega)
      | succ b =>
        show (getNode pool n).eval _ = (getNode pool n).eval _
        congr 1
        congr 1
        apply List.map_congr_left
        intro p hp
        by_cases hc : (getNode pool p).Next.count n = 0
        · rw [hc]
          rfl
        · have hmem : n ∈ (getNode pool p).Next := by
            by_contra hq
            exact hc (List.count_eq_zero.mpr hq)
          have hord := ctx.tord p n hp hmem
          rw [ih p hp (by omega) a b (by omega) (by omega)]

/-- Every `Done()` was preceded by the matching send. -/
theorem srcDecs_le_srcSends (pool : Pool) (s : EState) (p m : Nat) :
    srcDecs pool s p m ≤ srcSends pool s p m := by
  unfold srcDecs srcSends
  rcases hf : findHolder s p with _ | st
  · exact le_refl _
  · rcases st with _ | n' | ⟨n', k'⟩ | ⟨n', k'⟩ | _
    · exact le_refl _
    · exact le_refl _
    · exact le_refl _
    · show ((getNode pool n').Next.take k').count m ≤
        ((getNode pool n').Next.take (k' + 1)).count m
      have h1 : ((getNode pool n').Next.take (k' + 1)).take k' =
          (getNode pool n').Next.take k' := by
        rw [List.take_take]
        congr 1
        omega
      have hsub : List.Sublist ((getNode pool n').Next.take k')
          ((getNode pool n').Next.take (k' + 1)) := by
        rw [← h1]
        exact List.take_sublist _ _
      exact hsub.count_le m
    · exact le_refl _

/-- Bumping one member's multiplicity appends one copy, up to
permutation. -/
theorem flatten_replicate_bump {α : Type} (v : Nat → α) (f fb : Nat → Nat)
    (n : Nat) :
    ∀ g : List Nat, g.Nodup → n ∈ g → fb n = f n + 1 →
      (∀ p ∈ g, p ≠ n → fb p = f p) →
      ((g.map fun p => List.replicate (fb p) (v p)).flatten).Perm
        (((g.map fun p => List.replicate (f p) (v p)).flatten) ++ [v n]) := by
  intro g
  induction g with
  | nil => intro _ hn; exact absurd hn (List.not_mem_nil n)
  | cons x xs ih =>
    intro hnd hn hbump hoth
    obtain ⟨hx, hxs⟩ := List.nodup_cons.mp hnd
    simp only [List.map_cons, List.flatten_cons]
    rcases List.mem_cons.mp hn with rfl | hn2
    · have hrest : xs.map (fun p => List.replicate (fb p) (v p)) =
          xs.map (fun p => List.replicate (f p) (v p)) := by
        apply List.map_congr_left
        intro p hp
        rw [hoth p (List.mem_cons_of_mem _ hp) (fun hpn => hx (hpn ▸ hp))]
      rw [hrest, hbump, List.replicate_succ']
      rw [List.append_assoc, List.append_assoc]
      exact List.Perm.append_left _ List.perm_append_comm
    · have hxn : x ≠ n := fun h2 => hx (h2 ▸ hn2)
      have hxeq : fb x = f x := hoth x (List.mem_cons_self x xs) hxn
      rw [hxeq]
      have hperm := ih hxs hn2 hbump
        (fun p hp hpn => hoth p (List.mem_cons_of_mem _ hp) hpn)
      have h2 := List.Perm.append_left (List.replicate (f x) (v x)) hperm
      rw [← List.append_assoc] at h2
      exact h2

/-- The partial canonical arrival multiset of `m`: one copy of each source's
value per send performed so far. -/
def canonPartial (pool : Pool) (g topo : List Nat) (s : EState) (m : Nat) :
    List Int :=
  (g.map fun p => List.replicate (srcSends pool s p m) (den pool g topo p)).flatten

/-- The functional invariant: written results carry the denotation, and
buffers hold exactly the delivered source values. -/
structure DInv (pool : Pool) (g topo : List Nat) (s : EState) : Prop where
  dres : ∀ i ∈ g, ∀ r, (getNS s.nodes i).result = some r → r = den pool g topo i
  dbuf : ∀ m ∈ g, List.Perm (getNS s.nodes m).buf (canonPartial pool g topo s m)

/-- The functional invariant holds at launch. -/
theorem DInv_init (pool : Pool) (g topo : List Nat) (cap : Nat)
    (ctx : EvalCtx pool g topo cap) (c : Nat) :
    DInv pool g topo (initEState pool c) := by
  have hsrc0 : ∀ m, ∀ p ∈ g, srcSends pool (initEState pool c) p m = 0 := by
    intro m p hp
    have hfind : findHolder (initEState pool c) p = none :=
      holders_zero_findHolder _ p (holders_init pool c p)
    have hres : (getNS (initEState pool c).nodes p).result.isSome = false := by
      rw [getNS_init pool c p (ctx.gmem p hp)]
      rfl
    unfold srcSends
    rw [hfind]
    show (if (getNS (initEState pool c).nodes p).result.isSome then
      (getNode pool p).Next.count m else 0) = 0
    rw [hres]
    rfl
  refine ⟨?_, ?_⟩
  · intro i hi r hr
    rw [getNS_init pool c i (ctx.gmem i hi)] at hr
    exact Option.noConfusion hr
  · intro m hm
    have hcanon : canonPartial pool g topo (initEState pool c) m = [] := by
      unfold canonPartial
      have hmap : (g.map fun p =>
          List.replicate (srcSends pool (initEState pool c) p m)
            (den pool g topo p)) = g.map fun _ => ([] : List Int) := by
        apply List.map_congr_left
        intro p hp
        rw [hsrc0 m p hp]
        rfl
      rw [hmap]
      induction g with
      | nil => rfl
      | cons y ys ihg => simpa using ihg
    rw [hcanon, getNS_init pool c m (ctx.gmem m hm)]
    exact List.Perm.refl _

/-- The functional invariant transfers whenever results, buffers and send
counts are untouched. -/
theorem DInv_congr (pool : Pool) (g topo : List Nat) (s s2 : EState)
    (hd : DInv pool g topo s)
    (hres_all : ∀ p, (getNS s2.nodes p).result = (getNS s.nodes p).result)
    (hbuf_all : ∀ m, (getNS s2.nodes m).buf = (getNS s.nodes m).buf)
    (hsrcS : ∀ p m, srcSends pool s2 p m = srcSends pool s p m) :
    DInv pool g topo s2 := by
  refine ⟨?_, ?_⟩
  · intro i hi r hr
    rw [hres_all i] at hr
    exact hd.dres i hi r hr
  · intro m hm
    have hcp : canonPartial pool g topo s2 m = canonPartial pool g topo s m := by
      unfold canonPartial
      congr 1
      apply List.map_congr_left
      intro p _
      rw [hsrcS p m]
    rw [hbuf_all m, hcp]
    exact hd.dbuf m hm

/-- Every machine step preserves the functional invariant. -/
theorem DInv_pres_step (pool : Pool) (g topo : List Nat) (cap : Nat)
    (ctx : EvalCtx pool g topo cap) (hcomm : CommEval pool g)
    (s s' : EState) (hinv : EInv pool g topo s) (hd : DInv pool g topo s)
    (h : EStep pool topo cap s s') : DInv pool g topo s' := by
  obtain ⟨a, ha⟩ := h
  cases a with
  | exit w =>
    simp only [applyAction] at ha
    rcases hgw : getW s.workers w with _ | n | ⟨n, k⟩ | ⟨n, k⟩ | _ <;>
      simp only [hgw] at ha <;> try exact Option.noConfusion ha
    have hww : w < s.workers.length := getW_lt s.workers w (by rw [hgw]; simp)
    by_cases hq : s.queueIdx = topo.length
    swap
    · rw [if_neg hq] at ha; exact Option.noConfusion ha
    rw [if_pos hq] at ha
    cases Option.some.inj ha
    set s2 : EState := EState.mk s.nodes s.queueIdx (s.workers.set w WStatus.done) with hs2
    have hold : s.workers.getD w WStatus.done = WStatus.idle :=
      (getD_in_range s.workers w WStatus.done WStatus.done hww).trans hgw
    have hfind : ∀ p, findHolder s2 p = findHolder s p := by
      intro p
      have heq : findHolder s2 p =
          findHolder { s with workers := s.workers.set w WStatus.done } p := rfl
      rw [heq]
      exact findHolder_set_other s w WStatus.done p (by rw [hold]; rfl) rfl
    refine DInv_congr pool g topo s s2 hd (fun p => rfl) (fun m => rfl) ?_
    intro p m
    exact (src_congr pool s s2 p (hfind p) rfl).1 m
  | dequeue w =>
    simp only [applyAction] at ha
    rcases hgw : getW s.workers w with _ | n | ⟨n, k⟩ | ⟨n, k⟩ | _ <;>
      simp only [hgw] at ha <;> try exact Option.noConfusion ha
    have hww : w < s.workers.length := getW_lt s.workers w (by rw [hgw]; simp)
    by_cases hq : s.queueIdx < topo.length
    swap
    · rw [dif_neg hq] at ha; exact Option.noConfusion ha
    rw [dif_pos hq] at ha
    cases Option.some.inj ha
    set t := topo.get ⟨s.queueIdx, hq⟩ with ht
    set s2 : EState :=
      EState.mk s.nodes (s.queueIdx + 1) (s.workers.set w (WStatus.waiting t)) with hs2
    have hw2 : s2.workers = s.workers.set w (WStatus.waiting t) := rfl
    have htmem : t ∈ topo := topo.get_mem _ _
    have htg : t ∈ g := (ctx.tmem t).mp htmem
    have htnot : t ∉ taken topo s := by
      intro hmem
      have hsplit := List.take_append_drop s.queueIdx topo
      have hnd : (topo.take s.queueIdx ++ topo.drop s.queueIdx).Nodup := by
        rw [hsplit]; exact ctx.tnd
      have hdisj := (List.nodup_append.mp hnd).2.2
      have htdrop : t ∈ topo.drop s.queueIdx := by
        rw [List.drop_eq_getElem_cons hq]
        exact List.mem_cons_self _ _
      exact hdisj hmem htdrop
    have hold : s.workers.getD w (WStatus.waiting t) = WStatus.idle :=
      (getD_in_range s.workers w _ WStatus.done hww).trans hgw
    obtain ⟨hrt, hht⟩ := hinv.untakenStat t htg htnot
    have hholdt : holders s2 t = 1 := by
      have hcalc := holders_set s w (WStatus.waiting t) hww t
      rw [hold] at hcalc
      have e2 : (if holdsB (WStatus.waiting t) t then 1 else 0) = 1 := by simp [holdsB]
      have e1 : (if holdsB WStatus.idle t then 1 else 0) = 0 := rfl
      rw [e1, e2] at hcalc
      have heq : holders s2 t =
          holders { s with workers := s.workers.set w (WStatus.waiting t) } t := rfl
      rw [heq]
      omega
    have hfindo : ∀ p, p ≠ t → findHolder s2 p = findHolder s p := by
      intro p hp
      refine findHolder_set_other s w (WStatus.waiting t) p ?_ ?_
      · rw [hold]; rfl
      · show (t == p) = false
        exact beq_eq_false_iff_ne.mpr fun hh => hp hh.symm
    have hfindt : findHolder s2 t = some (WStatus.waiting t) := by
      have hget : s2.workers.getD w WStatus.done = WStatus.waiting t := by
        rw [hw2]
        exact getD_set_self s.workers w _ _ hww
      have hres := findHolder_of_holds s2 t w WStatus.done
        (by rw [hw2]; simpa using hww)
        (by rw [hget]; simp [holdsB]) (by omega)
      rw [hget] at hres
      exact hres
    have hfindt_old : findHolder s t = none := holders_zero_findHolder s t hht
    refine DInv_congr pool g topo s s2 hd (fun p => rfl) (fun m => rfl) ?_
    intro p m
    by_cases hp : p = t
    · subst hp
      unfold srcSends
      rw [hfindt, hfindt_old, hrt]
      rfl
    · exact (src_congr pool s s2 p (hfindo p hp) rfl).1 m
  | dec w =>
    simp only [applyAction] at ha
    rcases hgw : getW s.workers w with _ | n | ⟨n, k⟩ | ⟨n, k⟩ | _ <;>
      simp only [hgw] at ha <;> try exact Option.noConfusion ha
    have hww : w < s.workers.length := getW_lt s.workers w (by rw [hgw]; simp)
    rcases hmk : (getNode pool n).Next.get? k with _ | m <;>
      simp only [hmk] at ha <;> try exact Option.noConfusion ha
    cases Option.some.inj ha
    set s2 : EState := EState.mk
      (s.nodes.set m { getNS s.nodes m with counter := (getNS s.nodes m).counter - 1 })
      s.queueIdx (s.workers.set w (WStatus.sending n (k + 1))) with hs2
    have hw2 : s2.workers = s.workers.set w (WStatus.sending n (k + 1)) := rfl
    have hnds : s2.nodes = s.nodes.set m
        { getNS s.nodes m with counter := (getNS s.nodes m).counter - 1 } := rfl
    have hold : s.workers.getD w WStatus.done = WStatus.decing n k :=
      (getD_in_range s.workers w WStatus.done WStatus.done hww).trans hgw
    have hng : n ∈ g :=
      ((hinv.wstat w hww).1 n (by rw [hold]; simp [holdsB])).1
    obtain ⟨hklen, hkm2⟩ := List.get?_eq_some.mp hmk
    have hmNext : m ∈ (getNode pool n).Next := by
      rw [← hkm2]
      exact (getNode pool n).Next.get_mem _ _
    have hmg : m ∈ g := ctx.gclosed n hng m hmNext
    have hmm : m < s.nodes.length := by
      rw [hinv.nlen]; exact ctx.gmem m hmg
    have hgets : getNS s2.nodes m = { getNS s.nodes m with
        counter := (getNS s.nodes m).counter - 1 } := by
      rw [hnds]
      exact getNS_set_self s.nodes m _ hmm
    have hgeto : ∀ p, p ≠ m → getNS s2.nodes p = getNS s.nodes p := by
      intro p hp
      rw [hnds]
      exact getNS_set_other s.nodes m _ p (fun hh => hp hh.symm)
    have hres_all : ∀ p, (getNS s2.nodes p).result = (getNS s.nodes p).result := by
      intro p
      by_cases hp : p = m
      · rw [hp, hgets]
      · rw [hgeto p hp]
    have hbuf_all : ∀ p, (getNS s2.nodes p).buf = (getNS s.nodes p).buf := by
      intro p
      by_cases hp : p = m
      · rw [hp, hgets]
      · rw [hgeto p hp]
    have hhold : ∀ n2, holders s2 n2 = holders s n2 := by
      intro n2
      have hcalc := holders_set s w (WStatus.sending n (k + 1)) hww n2
      rw [getD_in_range s.workers w (WStatus.sending n (k + 1)) WStatus.done hww,
        hold] at hcalc
      have e1 : holdsB (WStatus.decing n k) n2 = (n == n2) := rfl
      have e2 : holdsB (WStatus.sending n (k + 1)) n2 = (n == n2) := rfl
      rw [e1, e2] at hcalc
      have heq : holders s2 n2 =
          holders { s with workers := s.workers.set w (WStatus.sending n (k + 1)) } n2 := rfl
      rw [heq]
      cases hbv : (n == n2) with
      | false =>
        rw [hbv] at hcalc
        simp at hcalc
        omega
      | true =>
        rw [hbv] at hcalc
        simp at hcalc
        omega
    have hfindo : ∀ p, p ≠ n → findHolder s2 p = findHolder s p := by
      intro p hp
      have heq : findHolder s2 p =
          findHolder { s with workers := s.workers.set w (WStatus.sending n (k + 1)) } p := rfl
      rw [heq]
      refine findHolder_set_other s w (WStatus.sending n (k + 1)) p ?_ ?_
      · rw [getD_in_range s.workers w (WStatus.sending n (k + 1)) WStatus.done hww, hold]
        show (n == p) = false
        exact beq_eq_false_iff_ne.mpr fun hh => hp hh.symm
      · show (n == p) = false
        exact beq_eq_false_iff_ne.mpr fun hh => hp hh.symm
    have hfind_new : findHolder s2 n = some (WStatus.sending n (k + 1)) := by
      have hget : s2.workers.getD w WStatus.done = WStatus.sending n (k + 1) := by
        rw [hw2]
        exact getD_set_self s.workers w (WStatus.sending n (k + 1)) WStatus.done hww
      have hres2 := findHolder_of_holds s2 n w WStatus.done
        (by rw [hw2]; simpa using hww)
        (by rw [hget]; simp [holdsB])
        (by rw [hhold n]; exact hinv.uniq n)
      rw [hget] at hres2
      exact hres2
    have hfind_old : findHolder s n = some (WStatus.decing n k) := by
      have hres2 := findHolder_of_holds s n w WStatus.done hww
        (by rw [hold]; simp [holdsB]) (hinv.uniq n)
      rw [hold] at hres2
      exact hres2
    refine DInv_congr pool g topo s s2 hd hres_all hbuf_all ?_
    intro p m2
    by_cases hpn : p = n
    · subst hpn
      unfold srcSends
      rw [hfind_new, hfind_old]
    · exact (src_congr pool s s2 p (hfindo p hpn) (by rw [hres_all p])).1 m2
  | finish w =>
    simp only [applyAction] at ha
    rcases hgw : getW s.workers w with _ | n | ⟨n, k⟩ | ⟨n, k⟩ | _ <;>
      simp only [hgw] at ha <;> try exact Option.noConfusion ha
    have hww : w < s.workers.length := getW_lt s.workers w (by rw [hgw]; simp)
    by_cases hk : k = (getNode pool n).Next.length
    swap
    · rw [if_neg hk] at ha; exact Option.noConfusion ha
    rw [if_pos hk] at ha
    cases Option.some.inj ha
    set s2 : EState := EState.mk s.nodes s.queueIdx
      (s.workers.set w WStatus.idle) with hs2
    have hw2 : s2.workers = s.workers.set w WStatus.idle := rfl
    have hold : s.workers.getD w WStatus.done = WStatus.sending n k :=
      (getD_in_range s.workers w WStatus.done WStatus.done hww).trans hgw
    have hwm2 : k ≤ (getNode pool n).Next.length ∧
        (getNS s.nodes n).result.isSome = true := by
      have hx := (hinv.wstat w hww).2
      rw [hold] at hx
      exact hx
    have hholdn : holders s2 n + 1 = holders s n := by
      have hcalc := holders_set s w WStatus.idle hww n
      rw [getD_in_range s.workers w WStatus.idle WStatus.done hww, hold] at hcalc
      have e1 : holdsB (WStatus.sending n k) n = true := by simp [holdsB]
      have e2 : holdsB WStatus.idle n = false := rfl
      rw [e1, e2] at hcalc
      simp at hcalc
      have heq : holders s2 n =
          holders { s with workers := s.workers.set w WStatus.idle } n := rfl
      rw [heq]
      omega
    have hhold_zero : holders s2 n = 0 := by
      have := hinv.uniq n
      have h1 := holders_ge_one s n w WStatus.done hww (by rw [hold]; simp [holdsB])
      omega
    have hfindo : ∀ p, p ≠ n → findHolder s2 p = findHolder s p := by
      intro p hp
      have heq : findHolder s2 p =
          findHolder { s with workers := s.workers.set w WStatus.idle } p := rfl
      rw [heq]
      refine findHolder_set_other s w WStatus.idle p ?_ rfl
      rw [getD_in_range s.workers w WStatus.idle WStatus.done hww, hold]
      show (n == p) = false
      exact beq_eq_false_iff_ne.mpr fun hh => hp hh.symm
    have hfind_new : findHolder s2 n = none := holders_zero_findHolder s2 n hhold_zero
    have hfind_old : findHolder s n = some (WStatus.sending n k) := by
      have hres2 := findHolder_of_holds s n w WStatus.done hww
        (by rw [hold]; simp [holdsB]) (hinv.uniq n)
      rw [hold] at hres2
      exact hres2
    refine DInv_congr pool g topo s s2 hd (fun p => rfl) (fun m => rfl) ?_
    intro p m
    by_cases hp : p = n
    · subst hp
      unfold srcSends
      rw [hfind_new, hfind_old]
      show (if (getNS s2.nodes p).result.isSome then
          (getNode pool p).Next.count m else 0) =
        ((getNode pool p).Next.take k).count m
      have hres2 : (getNS s2.nodes p).result.isSome = true := hwm2.2
      rw [if_pos hres2, hk, List.take_length]
    · exact (src_congr pool s s2 p (hfindo p hp) rfl).1 m
  | compute w =>
    simp only [applyAction] at ha
    rcases hgw : getW s.workers w with _ | n | ⟨n, k⟩ | ⟨n, k⟩ | _ <;>
      simp only [hgw] at ha <;> try exact Option.noConfusion ha
    have hww : w < s.workers.length := getW_lt s.workers w (by rw [hgw]; simp)
    by_cases hc : (getNS s.nodes n).counter = 0
    swap
    · rw [if_neg hc] at ha; exact Option.noConfusion ha
    rw [if_pos hc] at ha
    cases Option.some.inj ha
    set s2 : EState := EState.mk
      (s.nodes.set n { getNS s.nodes n with
        result := some ((getNode pool n).eval (getNS s.nodes n).buf) })
      s.queueIdx (s.workers.set w (WStatus.sending n 0)) with hs2
    have hw2 : s2.workers = s.workers.set w (WStatus.sending n 0) := rfl
    have hn2 : s2.nodes = s.nodes.set n { getNS s.nodes n with
        result := some ((getNode pool n).eval (getNS s.nodes n).buf) } := rfl
    have hold : s.workers.getD w WStatus.done = WStatus.waiting n :=
      (getD_in_range s.workers w WStatus.done WStatus.done hww).trans hgw
    have hng : n ∈ g :=
      ((hinv.wstat w hww).1 n (by rw [hold]; simp [holdsB])).1
    have hnn : n < s.nodes.length := by
      rw [hinv.nlen]; exact ctx.gmem n hng
    have hgets : getNS s2.nodes n = { getNS s.nodes n with
        result := some ((getNode pool n).eval (getNS s.nodes n).buf) } := by
      rw [hn2]
      exact getNS_set_self s.nodes n _ hnn
    have hgeto : ∀ p, p ≠ n → getNS s2.nodes p = getNS s.nodes p := by
      intro p hp
      rw [hn2]
      exact getNS_set_other s.nodes n _ p (fun hh => hp hh.symm)
    have hhold : ∀ n2, holders s2 n2 = holders s n2 := by
      intro n2
      have hcalc := holders_set s w (WStatus.sending n 0) hww n2
      rw [getD_in_range s.workers w (WStatus.sending n 0) WStatus.done hww, hold] at hcalc
      have e1 : holdsB (WStatus.waiting n) n2 = (n == n2) := rfl
      have e2 : holdsB (WStatus.sending n 0) n2 = (n == n2) := rfl
      rw [e1, e2] at hcalc
      have heq : holders s2 n2 =
          holders { s with workers := s.workers.set w (WStatus.sending n 0) } n2 := rfl
      rw [heq]
      cases hbv : (n == n2) with
      | false =>
        rw [hbv] at hcalc
        simp at hcalc
        omega
      | true =>
        rw [hbv] at hcalc
        simp at hcalc
        omega
    have hfindo : ∀ p, p ≠ n → findHolder s2 p = findHolder s p := by
      intro p hp
      have heq : findHolder s2 p =
          findHolder { s with workers := s.workers.set w (WStatus.sending n 0) } p := rfl
      rw [heq]
      refine findHolder_set_other s w (WStatus.sending n 0) p ?_ ?_
      · rw [getD_in_range s.workers w (WStatus.sending n 0) WStatus.done hww, hold]
        show (n == p) = false
        exact beq_eq_false_iff_ne.mpr fun hh => hp hh.symm
      · show (n == p) = false
        exact beq_eq_false_iff_ne.mpr fun hh => hp hh.symm
    have hfind_new : findHolder s2 n = some (WStatus.sending n 0) := by
      have hget : s2.workers.getD w WStatus.done = WStatus.sending n 0 := by
        rw [hw2]
        exact getD_set_self s.workers w (WStatus.sending n 0) WStatus.done hww
      have hres2 := findHolder_of_holds s2 n w WStatus.done
        (by rw [hw2]; simpa using hww)
        (by rw [hget]; simp [holdsB])
        (by rw [hhold n]; exact hinv.uniq n)
      rw [hget] at hres2
      exact hres2
    have hfind_old : findHolder s n = some (WStatus.waiting n) := by
      have hres2 := findHolder_of_holds s n w WStatus.done hww
        (by rw [hold]; simp [holdsB]) (hinv.uniq n)
      rw [hold] at hres2
      exact hres2
    have hsrcS : ∀ p m, srcSends pool s2 p m = srcSends pool s p m := by
      intro p m
      by_cases hp : p = n
      · subst hp
        unfold srcSends
        rw [hfind_new, hfind_old]
        simp
      · exact (src_congr pool s s2 p (hfindo p hp) (by rw [hgeto p hp])).1 m
    have hbuf_all : ∀ m, (getNS s2.nodes m).buf = (getNS s.nodes m).buf := by
      intro m
      by_cases hm : m = n
      · rw [hm, hgets]
      · rw [hgeto m hm]
    have hdecs_full : ∀ p ∈ g, srcDecs pool s p n = (getNode pool p).Next.count n := by
      have hcnt := hinv.cnt n hng
      have hdle := hinv.decsLe n hng
      have h1 : (g.map fun p => srcDecs pool s p n).sum ≤
          (g.map fun p => (getNode pool p).Next.count n).sum :=
        list_sum_le_sum _ _ g (fun p _ => srcDecs_le_count pool s p n)
      have h2 : countInEdges pool g n =
          (g.map fun p => (getNode pool p).Next.count n).sum := rfl
      have h3 := ctx.gindeg n hng
      have hsum_eq : (g.map fun p => srcDecs pool s p n).sum =
          (g.map fun p => (getNode pool p).Next.count n).sum := by omega
      exact list_sum_eq_pointwise _ _ g (fun p _ => srcDecs_le_count pool s p n) hsum_eq
    have hsends_full : ∀ p ∈ g, srcSends pool s p n =
        (getNode pool p).Next.count n := by
      intro p hp
      have h1 := srcSends_le_count pool s p n
      have h2 := srcDecs_le_srcSends pool s p n
      have h3 := hdecs_full p hp
      omega
    have hnt : n ∈ topo := (ctx.tmem n).mpr hng
    have hidx : topo.indexOf n < topo.length := List.indexOf_lt_length.mpr hnt
    refine ⟨?_, ?_⟩
    · intro i hi r hr
      by_cases hin : i = n
      · rw [hin, hgets] at hr
        have hrv : r = (getNode pool n).eval (getNS s.nodes n).buf :=
          (Option.some.inj hr).symm
        cases hL : topo.length with
        | zero =>
          rw [hL] at hidx
          exact absurd hidx (by omega)
        | succ tl =>
          have hden : den pool g topo n = (getNode pool n).eval
              ((g.map fun p => List.replicate ((getNode pool p).Next.count n)
                (denGo pool g tl p)).flatten) := by
            unfold den
            rw [hL]
            rfl
          have hcanon2 : (g.map fun p =>
              List.replicate ((getNode pool p).Next.count n)
                (denGo pool g tl p)).flatten =
              (g.map fun p => List.replicate ((getNode pool p).Next.count n)
                (den pool g topo p)).flatten := by
            congr 1
            apply List.map_congr_left
            intro p hp
            by_cases hc0 : (getNode pool p).Next.count n = 0
            · rw [hc0]
              rfl
            · have hmem : n ∈ (getNode pool p).Next := by
                by_contra hq2
                exact hc0 (List.count_eq_zero.mpr hq2)
              have hordp := ctx.tord p n hp hmem
              have hden2 := denGo_stable pool g topo cap ctx tl p hp (by omega)
                tl topo.length (by omega) (by omega)
              rw [hden2]
              rfl
          have hcanon_full : canonPartial pool g topo s n =
              (g.map fun p => List.replicate ((getNode pool p).Next.count n)
                (den pool g topo p)).flatten := by
            unfold canonPartial
            congr 1
            apply List.map_congr_left
            intro p hp
            rw [hsends_full p hp]
          have hperm : List.Perm (getNS s.nodes n).buf
              ((g.map fun p => List.replicate ((getNode pool p).Next.count n)
                (den pool g topo p)).flatten) := by
            have := hd.dbuf n hng
            rw [hcanon_full] at this
            exact this
          have heval := hcomm n hng _ _ hperm
          rw [hin, hrv, heval, hden, hcanon2]
      · rw [hgeto i hin] at hr
        exact hd.dres i hi r hr
    · intro m hm
      have hcp : canonPartial pool g topo s2 m = canonPartial pool g topo s m := by
        unfold canonPartial
        congr 1
        apply List.map_congr_left
        intro p _
        rw [hsrcS p m]
      rw [hbuf_all m, hcp]
      exact hd.dbuf m hm
  | send w =>
    simp only [applyAction] at ha
    rcases hgw : getW s.workers w with _ | n | ⟨n, k⟩ | ⟨n, k⟩ | _ <;>
      simp only [hgw] at ha <;> try exact Option.noConfusion ha
    have hww : w < s.workers.length := getW_lt s.workers w (by rw [hgw]; simp)
    rcases hmk : (getNode pool n).Next.get? k with _ | m <;>
      simp only [hmk] at ha <;> try exact Option.noConfusion ha
    rcases hr : (getNS s.nodes n).result with _ | r <;>
      simp only [hr] at ha <;> try exact Option.noConfusion ha
    by_cases hbc : (getNS s.nodes m).buf.length < cap
    swap
    · rw [if_neg hbc] at ha; exact Option.noConfusion ha
    rw [if_pos hbc] at ha
    cases Option.some.inj ha
    set s2 : EState := EState.mk
      (s.nodes.set m { getNS s.nodes m with buf := (getNS s.nodes m).buf ++ [r] })
      s.queueIdx (s.workers.set w (WStatus.decing n k)) with hs2
    have hw2 : s2.workers = s.workers.set w (WStatus.decing n k) := rfl
    have hnds : s2.nodes = s.nodes.set m
        { getNS s.nodes m with buf := (getNS s.nodes m).buf ++ [r] } := rfl
    have hold : s.workers.getD w WStatus.done = WStatus.sending n k :=
      (getD_in_range s.workers w WStatus.done WStatus.done hww).trans hgw
    have hng : n ∈ g :=
      ((hinv.wstat w hww).1 n (by rw [hold]; simp [holdsB])).1
    obtain ⟨hklen, hkm2⟩ := List.get?_eq_some.mp hmk
    have hmNext : m ∈ (getNode pool n).Next := by
      rw [← hkm2]
      exact (getNode pool n).Next.get_mem _ _
    have hmg : m ∈ g := ctx.gclosed n hng m hmNext
    have hmm : m < s.nodes.length := by
      rw [hinv.nlen]; exact ctx.gmem m hmg
    have hgets : getNS s2.nodes m = { getNS s.nodes m with
        buf := (getNS s.nodes m).buf ++ [r] } := by
      rw [hnds]
      exact getNS_set_self s.nodes m _ hmm
    have hgeto : ∀ p, p ≠ m → getNS s2.nodes p = getNS s.nodes p := by
      intro p hp
      rw [hnds]
      exact getNS_set_other s.nodes m _ p (fun hh => hp hh.symm)
    have hres_all : ∀ p, (getNS s2.nodes p).result = (getNS s.nodes p).result := by
      intro p
      by_cases hp : p = m
      · rw [hp, hgets]
      · rw [hgeto p hp]
    have hbuf_all : ∀ p, p ≠ m → (getNS s2.nodes p).buf = (getNS s.nodes p).buf := by
      intro p hp
      rw [hgeto p hp]
    have hbufm : (getNS s2.nodes m).buf = (getNS s.nodes m).buf ++ [r] := by
      rw [hgets]
    have hhold : ∀ n2, holders s2 n2 = holders s n2 := by
      intro n2
      have hcalc := holders_set s w (WStatus.decing n k) hww n2
      rw [getD_in_range s.workers w (WStatus.decing n k) WStatus.done hww, hold] at hcalc
      have e1 : holdsB (WStatus.sending n k) n2 = (n == n2) := rfl
      have e2 : holdsB (WStatus.decing n k) n2 = (n == n2) := rfl
      rw [e1, e2] at hcalc
      have heq : holders s2 n2 =
          holders { s with workers := s.workers.set w (WStatus.decing n k) } n2 := rfl
      rw [heq]
      cases hbv : (n == n2) with
      | false =>
        rw [hbv] at hcalc
        simp at hcalc
        omega
      | true =>
        rw [hbv] at hcalc
        simp at hcalc
        omega
    have hfindo : ∀ p, p ≠ n → findHolder s2 p = findHolder s p := by
      intro p hp
      have heq : findHolder s2 p =
          findHolder { s with workers := s.workers.set w (WStatus.decing n k) } p := rfl
      rw [heq]
      refine findHolder_set_other s w (WStatus.decing n k) p ?_ ?_
      · rw [getD_in_range s.workers w (WStatus.decing n k) WStatus.done hww, hold]
        show (n == p) = false
        exact beq_eq_false_iff_ne.mpr fun hh => hp hh.symm
      · show (n == p) = false
        exact beq_eq_false_iff_ne.mpr fun hh => hp hh.symm
    have hfind_new : findHolder s2 n = some (WStatus.decing n k) := by
      have hget : s2.workers.getD w WStatus.done = WStatus.decing n k := by
        rw [hw2]
        exact getD_set_self s.workers w (WStatus.decing n k) WStatus.done hww
      have hres2 := findHolder_of_holds s2 n w WStatus.done
        (by rw [hw2]; simpa using hww)
        (by rw [hget]; simp [holdsB])
        (by rw [hhold n]; exact hinv.uniq n)
      rw [hget] at hres2
      exact hres2
    have hfind_old : findHolder s n = some (WStatus.sending n k) := by
      have hres2 := findHolder_of_holds s n w WStatus.done hww
        (by rw [hold]; simp [holdsB]) (hinv.uniq n)
      rw [hold] at hres2
      exact hres2
    have hmk2 : (getNode pool n).Next[k]? = some m := by
      rw [← List.get?_eq_getElem?]
      exact hmk
    have htake : (getNode pool n).Next.take (k + 1) =
        (getNode pool n).Next.take k ++ [m] := by
      rw [List.take_succ, hmk2]
      rfl
    have hsS : ∀ m2, srcSends pool s2 n m2 = srcSends pool s n m2 + [m].count m2 := by
      intro m2
      unfold srcSends
      rw [hfind_new, hfind_old]
      show ((getNode pool n).Next.take (k + 1)).count m2 =
        ((getNode pool n).Next.take k).count m2 + [m].count m2
      rw [htake, List.count_append]
    have hsrco : ∀ p, p ≠ n →
        ∀ m2, srcSends pool s2 p m2 = srcSends pool s p m2 := by
      intro p hp
      exact (src_congr pool s s2 p (hfindo p hp) (by rw [hres_all p])).1
    have hrden : r = den pool g topo n := hd.dres n hng r hr
    refine ⟨?_, ?_⟩
    · intro i hi r2 hr2
      rw [hres_all i] at hr2
      exact hd.dres i hi r2 hr2
    · intro m2 hm2
      by_cases hm2m : m2 = m
      · rw [hm2m, hbufm, hrden]
        have hbump := flatten_replicate_bump (fun p => den pool g topo p)
          (fun p => srcSends pool s p m) (fun p => srcSends pool s2 p m) n g
          ctx.gnd hng
          (by
            show srcSends pool s2 n m = srcSends pool s n m + 1
            rw [hsS m]
            have h1 : ([m].count m) = 1 := by simp
            rw [h1])
          (fun p _ hp => hsrco p hp m)
        have h1 := List.Perm.append_right [den pool g topo n] (hd.dbuf m hmg)
        exact h1.trans hbump.symm
      · have hcp : canonPartial pool g topo s2 m2 = canonPartial pool g topo s m2 := by
          unfold canonPartial
          congr 1
          apply List.map_congr_left
          intro p hp
          by_cases hpn : p = n
          · rw [hpn, hsS m2]
            have h0 : ([m].count m2) = 0 := List.count_eq_zero.mpr (by simp [hm2m])
            rw [h0]
            rfl
          · rw [hsrco p hpn m2]
        rw [hbuf_all m2 hm2m, hcp]
        exact hd.dbuf m2 hm2

/-- Both invariants hold at every reachable state. -/
theorem EDInv_reach (pool : Pool) (g topo : List Nat) (cap : Nat)
    (ctx : EvalCtx pool g topo cap) (hcomm : CommEval pool g)
    (s s' : EState) (hinv : EInv pool g topo s) (hd : DInv pool g topo s)
    (h : EReach pool topo cap s s') :
    EInv pool g topo s' ∧ DInv pool g topo s' := by
  induction h with
  | refl => exact ⟨hinv, hd⟩
  | tail _ hstep ih =>
    exact ⟨EInv_pres_step pool g topo cap ctx _ _ ih.1 hstep,
      DInv_pres_step pool g topo cap ctx hcomm _ _ ih.1 ih.2 hstep⟩

/-- Steps never change the number of workers. -/
theorem EStep_workers_length (pool : Pool) (topo : List Nat) (cap : Nat)
    (s s' : EState) (h : EStep pool topo cap s s') :
    s'.workers.length = s.workers.length := by
  obtain ⟨a, ha⟩ := h
  cases a with
  | dequeue w =>
    simp only [applyAction] at ha
    rcases hgw : getW s.workers w with _ | n | ⟨n, k⟩ | ⟨n, k⟩ | _ <;>
      simp only [hgw] at ha <;> try exact Option.noConfusion ha
    by_cases hq : s.queueIdx < topo.length
    swap
    · rw [dif_neg hq] at ha; exact Option.noConfusion ha
    rw [dif_pos hq] at ha
    cases Option.some.inj ha
    simp
  | exit w =>
    simp only [applyAction] at ha
    rcases hgw : getW s.workers w with _ | n | ⟨n, k⟩ | ⟨n, k⟩ | _ <;>
      simp only [hgw] at ha <;> try exact Option.noConfusion ha
    by_cases hq : s.queueIdx = topo.length
    swap
    · rw [if_neg hq] at ha; exact Option.noConfusion ha
    rw [if_pos hq] at ha
    cases Option.some.inj ha
    simp
  | compute w =>
    simp only [applyAction] at ha
    rcases hgw : getW s.workers w with _ | n | ⟨n, k⟩ | ⟨n, k⟩ | _ <;>
      simp only [hgw] at ha <;> try exact Option.noConfusion ha
    by_cases hc : (getNS s.nodes n).counter = 0
    swap
    · rw [if_neg hc] at ha; exact Option.noConfusion ha
    rw [if_pos hc] at ha
    cases Option.some.inj ha
    simp
  | send w =>
    simp only [applyAction] at ha
    rcases hgw : getW s.workers w with _ | n | ⟨n, k⟩ | ⟨n, k⟩ | _ <;>
      simp only [hgw] at ha <;> try exact Option.noConfusion ha
    rcases hmk : (getNode pool n).Next.get? k with _ | m <;>
      simp only [hmk] at ha <;> try exact Option.noConfusion ha
    rcases hr : (getNS s.nodes n).result with _ | r <;>
      simp only [hr] at ha <;> try exact Option.noConfusion ha
    by_cases hbc : (getNS s.nodes m).buf.length < cap
    swap
    · rw [if_neg hbc] at ha; exact Option.noConfusion ha
    rw [if_pos hbc] at ha
    cases Option.some.inj ha
    simp
  | dec w =>
    simp only [applyAction] at ha
    rcases hgw : getW s.workers w with _ | n | ⟨n, k⟩ | ⟨n, k⟩ | _ <;>
      simp only [hgw] at ha <;> try exact Option.noConfusion ha
    rcases hmk : (getNode pool n).Next.get? k with _ | m <;>
      simp only [hmk] at ha <;> try exact Option.noConfusion ha
    cases Option.some.inj ha
    simp
  | finish w =>
    simp only [applyAction] at ha
    rcases hgw : getW s.workers w with _ | n | ⟨n, k⟩ | ⟨n, k⟩ | _ <;>
      simp only [hgw] at ha <;> try exact Option.noConfusion ha
    by_cases hk : k = (getNode pool n).Next.length
    swap
    · rw [if_neg hk] at ha; exact Option.noConfusion ha
    rw [if_pos hk] at ha
    cases Option.some.inj ha
    simp

/-- Reachability never changes the number of workers. -/
theorem EReach_workers_length (pool : Pool) (topo : List Nat) (cap : Nat)
    (s s' : EState) (h : EReach pool topo cap s s') :
    s'.workers.length = s.workers.length := by
  induction h with
  | refl => rfl
  | tail _ hstep ih =>
    rw [EStep_workers_length pool topo cap _ _ hstep, ih]

/-- From any invariant state some interleaving terminates: progress plus the
strictly decreasing measure. -/
theorem EReaches_final (pool : Pool) (g topo : List Nat) (cap : Nat)
    (ctx : EvalCtx pool g topo cap) (s : EState) (hinv : EInv pool g topo s) :
    ∃ s', EReach pool topo cap s s' ∧ EFinal s' := by
  have H : ∀ N s, mu pool topo s ≤ N → EInv pool g topo s →
      ∃ s', EReach pool topo cap s s' ∧ EFinal s' := by
    intro N
    induction N with
    | zero =>
      intro s hle hinv2
      by_cases hf : EFinal s
      · exact ⟨s, Relation.ReflTransGen.refl, hf⟩
      · obtain ⟨s2, hstep⟩ := EProgress pool g topo cap ctx s hinv2 hf
        have := mu_step_decreases pool g topo cap ctx s s2 hinv2 hstep
        omega
    | succ N ih =>
      intro s hle hinv2
      by_cases hf : EFinal s
      · exact ⟨s, Relation.ReflTransGen.refl, hf⟩
      · obtain ⟨s2, hstep⟩ := EProgress pool g topo cap ctx s hinv2 hf
        have hdec := mu_step_decreases pool g topo cap ctx s s2 hinv2 hstep
        obtain ⟨s3, hr, hfin⟩ := ih s2 (by omega)
          (EInv_pres_step pool g topo cap ctx s s2 hinv2 hstep)
        exact ⟨s3, Relation.ReflTransGen.head hstep hr, hfin⟩
  exact H (mu pool topo s) s (le_refl _) hinv

/-- In a final state every worker is done, so nobody holds anything. -/
theorem holders_final (s : EState) (hf : EFinal s) (n : Nat) :
    holders s n = 0 := by
  unfold holders
  apply List.sum_eq_zero
  intro x hx
  obtain ⟨st, hstw, rfl⟩ := List.mem_map.mp hx
  rw [hf st hstw]
  rfl

/-- Any final state reachable from the launch holds the denotational result
in every node. -/
theorem final_results (pool : Pool) (g topo : List Nat) (cap c : Nat)
    (ctx : EvalCtx pool g topo cap) (hcomm : CommEval pool g) (hc : 1 ≤ c)
    (s : EState) (hr : EReach pool topo cap (initEState pool c) s)
    (hf : EFinal s) :
    ∀ i ∈ g, (getNS s.nodes i).result = some (den pool g topo i) := by
  obtain ⟨hinv, hd⟩ := EDInv_reach pool g topo cap ctx hcomm _ s
    (EInv_init pool g topo cap ctx c) (DInv_init pool g topo cap ctx c) hr
  have hlen : s.workers.length = c := by
    rw [EReach_workers_length pool topo cap _ s hr]
    simp [initEState]
  have h0 : 0 < s.workers.length := by omega
  have hd0 : s.workers.getD 0 WStatus.done = WStatus.done := by
    apply hf
    rw [List.getD_eq_getElem s.workers WStatus.done h0]
    exact List.getElem_mem h0
  have hq : s.queueIdx = topo.length := hinv.doneOk ⟨0, h0, hd0⟩
  intro i hi
  have hitk : i ∈ taken topo s := by
    show i ∈ topo.take s.queueIdx
    rw [hq, List.take_length]
    exact (ctx.tmem i).mpr hi
  rcases hinv.takenStat i hitk with h1 | h1
  · rw [holders_final s hf i] at h1
    exact absurd h1 (by omega)
  · obtain ⟨r, hr2⟩ := Option.isSome_iff_exists.mp h1
    rw [hr2, hd.dres i hi r hr2]

/-- Witness for C4: the chain graph `node2 → node1` satisfies every
hypothesis and the sort produces `[1, 0]`. -/
theorem C4_topological_sort_correct_witness :
    (([1, 0] : List Nat).Nodup ∧ (∀ i ∈ ([1, 0] : List Nat), i < poolChain.length) ∧
      (∀ i ∈ ([1, 0] : List Nat), ∀ j ∈ (getNode poolChain i).Next, j ∈ ([1, 0] : List Nat)) ∧
      (∀ j ∈ ([1, 0] : List Nat), (getNode poolChain j).indegree = countInEdges poolChain [1, 0] j) ∧
      poolChain.length + 1 ≤ 3) ∧
    (∃ l : List Nat, TopologicalSort poolChain 3 [1, 0] = some (Except.ok l) ∧
      l.Nodup ∧ (∀ i, i ∈ l ↔ i ∈ ([1, 0] : List Nat)) ∧
      (∀ p q, Relation.TransGen (GEdge poolChain [1, 0]) p q → l.indexOf p < l.indexOf q)) :=
  ⟨⟨by decide, by decide, by decide, by decide, by decide⟩,
    C4_topological_sort_correct poolChain [1, 0] 3 (by decide) (by decide) (by decide)
      poolChain_acyclic (by decide) (by decide)⟩

/-! ## Claims C5, C6, C8 (amended) and C10 -/

/-- The chain graph is a validated evaluation context. -/
theorem poolChain_ctx : EvalCtx poolChain [0, 1] topoChain 10 := by
  refine ⟨by decide, by decide, by decide, by decide, ?_, by decide, ?_, by decide⟩
  · intro i
    show i ∈ topoChain ↔ i ∈ ([0, 1] : List Nat)
    constructor
    · intro h
      rcases List.mem_cons.mp h with h1 | h1
      · subst h1
        decide
      · have h2 : i = 0 := List.mem_singleton.mp h1
        subst h2
        decide
    · intro h
      rcases List.mem_cons.mp h with h1 | h1
      · subst h1
        decide
      · have h2 : i = 1 := List.mem_singleton.mp h1
        subst h2
        decide
  · intro i j hi hj
    rcases List.mem_cons.mp hi with h1 | h1
    · subst h1
      have h2 : (getNode poolChain 0).Next = [] := rfl
      rw [h2] at hj
      exact absurd hj (List.not_mem_nil j)
    · have h2 : i = 1 := List.mem_singleton.mp h1
      subst h2
      have h3 : (getNode poolChain 1).Next = [0] := rfl
      rw [h3] at hj
      have h4 : j = 0 := List.mem_singleton.mp hj
      subst h4
      decide

/-- Constant aggregations ignore arrival order. -/
theorem chainComm : CommEval poolChain [0, 1] := by
  intro i hi l l2 _
  rcases List.mem_cons.mp hi with h | h
  · subst h
    rfl
  · have h2 : i = 1 := List.mem_singleton.mp h
    subst h2
    rfl

/-- Final state of the two-worker deterministic run on the chain. -/
def runChain2 : EState := runSched poolChain topoChain 10 2 50 (initEState poolChain 2)

/-- C6 (amended): when every indegree fits inside the channel capacity (as
the validated context requires), the worker pool cannot deadlock: every
reachable non-final state still has an enabled micro-step, and some
interleaving runs to completion.  The unamended claim is refuted by
`C6_deadlock_counterexample` (indegree 11 over capacity 10). -/
theorem C6_no_deadlock_amended (pool : Pool) (g topo : List Nat) (cap c : Nat)
    (ctx : EvalCtx pool g topo cap) (hc : 1 ≤ c) :
    (∀ s, EReach pool topo cap (initEState pool c) s → ¬ EFinal s →
      ∃ s', EStep pool topo cap s s') ∧
    (∃ s', EReach pool topo cap (initEState pool c) s' ∧ EFinal s') := by
  constructor
  · intro s hr hnf
    exact EProgress pool g topo cap ctx s
      (EInv_reach pool g topo cap ctx _ s (EInv_init pool g topo cap ctx c) hr) hnf
  · exact EReaches_final pool g topo cap ctx _ (EInv_init pool g topo cap ctx c)

/-- Witness for the amended C6 on the two-node chain with one worker. -/
theorem C6_no_deadlock_amended_witness :
    (1 : Nat) ≤ 1 ∧
    ((∀ s, EReach poolChain topoChain 10 (initEState poolChain 1) s →
        ¬ EFinal s → ∃ s', EStep poolChain topoChain 10 s s') ∧
      (∃ s', EReach poolChain topoChain 10 (initEState poolChain 1) s' ∧
        EFinal s')) :=
  ⟨by decide,
    C6_no_deadlock_amended poolChain [0, 1] topoChain 10 1 poolChain_ctx (by decide)⟩

/-- C10: the empty graph is accepted end to end: `New` of no entries yields
the empty graph with no error, its topological sort is the empty sequence
with no error, `Evaluate`'s sequential prefix succeeds for every worker
count of at least one, and the run completes (all workers exit). -/
theorem C10_empty_graph (c : Nat) (hc : 1 ≤ c) :
    New [] 1 [] = some (Except.ok []) ∧
    TopologicalSort [] 1 [] = some (Except.ok []) ∧
    EvaluateStart [] 1 [] c = some (Except.ok ([], initEState [] c)) ∧
    (∃ s', EReach [] [] 10 (initEState [] c) s' ∧ EFinal s') := by
  have hctx : EvalCtx [] [] [] 10 :=
    ⟨List.nodup_nil, fun i hi => absurd hi (List.not_mem_nil i),
     fun i hi => absurd hi (List.not_mem_nil i),
     fun i hi => absurd hi (List.not_mem_nil i),
     fun i => Iff.rfl, List.nodup_nil,
     fun i j hi => absurd hi (List.not_mem_nil i),
     fun i hi => absurd hi (List.not_mem_nil i)⟩
  refine ⟨rfl, rfl, ?_, ?_⟩
  · unfold EvaluateStart
    rw [if_neg (by omega)]
    rfl
  · exact EReaches_final [] [] [] 10 hctx _ (EInv_init [] [] [] 10 hctx c)

/-- Witness for C10 at worker count one. -/
theorem C10_empty_graph_witness :
    (1 : Nat) ≤ 1 ∧
    (New [] 1 [] = some (Except.ok []) ∧
     TopologicalSort [] 1 [] = some (Except.ok []) ∧
     EvaluateStart [] 1 [] 1 = some (Except.ok ([], initEState [] 1)) ∧
     (∃ s', EReach [] [] 10 (initEState [] 1) s' ∧ EFinal s')) :=
  ⟨by decide, C10_empty_graph 1 (by decide)⟩

/-- C5 (amended): with order-insensitive aggregations (as the spec's own
justification assumes) the results are deterministic: any two completed
runs, with any worker counts and any interleavings, agree on every node's
Result — both equal the denotation.  The unamended claim is refuted by
`C5_determinism_counterexample` (an order-sensitive aggregation). -/
theorem C5_determinism_amended (pool : Pool) (g topo : List Nat) (cap : Nat)
    (ctx : EvalCtx pool g topo cap) (hcomm : CommEval pool g)
    (c1 c2 : Nat) (hc1 : 1 ≤ c1) (hc2 : 1 ≤ c2) (s1 s2 : EState)
    (hr1 : EReach pool topo cap (initEState pool c1) s1) (hf1 : EFinal s1)
    (hr2 : EReach pool topo cap (initEState pool c2) s2) (hf2 : EFinal s2) :
    ∀ i ∈ g, (getNS s1.nodes i).result = (getNS s2.nodes i).result := by
  intro i hi
  rw [final_results pool g topo cap c1 ctx hcomm hc1 s1 hr1 hf1 i hi,
    final_results pool g topo cap c2 ctx hcomm hc2 s2 hr2 hf2 i hi]

/-- Witness for the amended C5: the chain run with one worker and the chain
run with two workers agree on every node. -/
theorem C5_determinism_amended_witness :
    ((1 : Nat) ≤ 1 ∧ (1 : Nat) ≤ 2 ∧
      EReach poolChain topoChain 10 (initEState poolChain 1) runChain1 ∧
      EFinal runChain1 ∧
      EReach poolChain topoChain 10 (initEState poolChain 2) runChain2 ∧
      EFinal runChain2) ∧
    (∀ i ∈ ([0, 1] : List Nat),
      (getNS runChain1.nodes i).result = (getNS runChain2.nodes i).result) :=
  ⟨⟨by decide, by decide,
      runSched_reach poolChain topoChain 10 1 50 (initEState poolChain 1),
      by decide,
      runSched_reach poolChain topoChain 10 2 50 (initEState poolChain 2),
      by decide⟩,
    C5_determinism_amended poolChain [0, 1] topoChain 10 poolChain_ctx chainComm
      1 2 (by decide) (by decide) runChain1 runChain2
      (runSched_reach poolChain topoChain 10 1 50 (initEState poolChain 1))
      (by decide)
      (runSched_reach poolChain topoChain 10 2 50 (initEState poolChain 2))
      (by decide)⟩

/-- C8 (amended): on the chain node2 → node1, every completed run delivers
node2's value 2 into node1's arrival buffer, but node1's Result is its own
constant 1 — `Constant` ignores its inputs — while node2's Result is 2.
The unamended claim (`node1.Result == 2`) is refuted by
`C8_chain_counterexample`. -/
theorem C8_chain_amended (c : Nat) (hc : 1 ≤ c) (s : EState)
    (hr : EReach poolChain topoChain 10 (initEState poolChain c) s)
    (hf : EFinal s) :
    (getNS s.nodes 0).result = some 1 ∧ (getNS s.nodes 1).result = some 2 ∧
    List.Perm (getNS s.nodes 0).buf [2] := by
  have h0 := final_results poolChain [0, 1] topoChain 10 c poolChain_ctx
    chainComm hc s hr hf 0 (by decide)
  have h1 := final_results poolChain [0, 1] topoChain 10 c poolChain_ctx
    chainComm hc s hr hf 1 (by decide)
  obtain ⟨hinv, hd⟩ := EDInv_reach poolChain [0, 1] topoChain 10 poolChain_ctx
    chainComm _ s (EInv_init poolChain [0, 1] topoChain 10 poolChain_ctx c)
    (DInv_init poolChain [0, 1] topoChain 10 poolChain_ctx c) hr
  have hden0 : den poolChain [0, 1] topoChain 0 = 1 := by decide
  have hden1 : den poolChain [0, 1] topoChain 1 = 2 := by decide
  refine ⟨by rw [h0, hden0], by rw [h1, hden1], ?_⟩
  have hperm := hd.dbuf 0 (by decide)
  have hsrc : ∀ p ∈ ([0, 1] : List Nat), srcSends poolChain s p 0 =
      (getNode poolChain p).Next.count 0 := by
    intro p hp
    have hfind : findHolder s p = none :=
      holders_zero_findHolder s p (holders_final s hf p)
    have hres : (getNS s.nodes p).result.isSome = true := by
      rw [final_results poolChain [0, 1] topoChain 10 c poolChain_ctx
        chainComm hc s hr hf p hp]
      rfl
    unfold srcSends
    rw [hfind]
    show (if (getNS s.nodes p).result.isSome then
      (getNode poolChain p).Next.count 0 else 0) = (getNode poolChain p).Next.count 0
    rw [hres]
    rfl
  have h00 : srcSends poolChain s 0 0 = 0 := by
    rw [hsrc 0 (by decide)]
    decide
  have h10 : srcSends poolChain s 1 0 = 1 := by
    rw [hsrc 1 (by decide)]
    decide
  have hcanon : canonPartial poolChain [0, 1] topoChain s 0 = [2] := by
    have hshape : canonPartial poolChain [0, 1] topoChain s 0 =
        List.replicate (srcSends poolChain s 0 0)
          (den poolChain [0, 1] topoChain 0) ++
        (List.replicate (srcSends poolChain s 1 0)
          (den poolChain [0, 1] topoChain 1) ++ []) := rfl
    rw [hshape, h00, h10, hden0, hden1]
    rfl
  rw [hcanon] at hperm
  exact hperm

/-- Witness for the amended C8: the single-worker deterministic run. -/
theorem C8_chain_amended_witness :
    ((1 : Nat) ≤ 1 ∧
      EReach poolChain topoChain 10 (initEState poolChain 1) runChain1 ∧
      EFinal runChain1) ∧
    ((getNS runChain1.nodes 0).result = some 1 ∧
     (getNS runChain1.nodes 1).result = some 2 ∧
     List.Perm (getNS runChain1.nodes 0).buf [2]) :=
  ⟨⟨by decide,
      runSched_reach poolChain topoChain 10 1 50 (initEState poolChain 1),
      by decide⟩,
    C8_chain_amended 1 (by decide) runChain1
      (runSched_reach poolChain topoChain 10 1 50 (initEState poolChain 1))
      (by decide)⟩

end LevelDag
